import Mathlib

/-!
# Photomontage (alpha-expansion graph-cut compositor)

A shallow embedding of `modules/xphoto/src/photomontage.hpp`.

Conventions of the embedding.

* `double` values (capacities, flow values) are exact rationals; rounding is not modelled.
* Grid dimensions and loop counters are natural numbers, coordinates and labels are
  integers (`int` in the source).
* The sizes that `singleExpansion` computes for the flow graph (`actualEdges` and the two
  arguments of the constructor) are 32-bit `int` values: every operation is reduced to
  32-bit two's complement (`int32`).  Signed overflow has no defined behaviour in the
  source; the embedding takes the value that two's-complement hardware computes.
* Every read through `Mat::at`, `Mat::ptr(i)[j]` or `std::vector::operator[]` is checked:
  a read outside the container has no defined behaviour in the source and makes the
  embedded function return `none`.  Integer division by zero is treated the same way.
* OpenCV primitives keep their documented meaning: `cv::Point(a, b)` has `x = a`, `y = b`;
  `Mat::at(Point p)` reads row `p.y`, column `p.x`; `cv::Size(a, b)` has `width = a`,
  `height = b`; `cvRound` rounds to nearest, ties to even.
* The max-flow engine (`gcgraph.hpp`) is not part of the embedded file.  The graph under
  construction is the log of the calls made on it, and the solver is a parameter.
-/

namespace XPhoto

/-! ## Pixel grids -/

/-- A `cv::Mat`: dimensions, element type code and the stored elements. -/
structure Mat (α : Type) where
  rows : Nat
  cols : Nat
  type : Nat
  data : Nat → Nat → α

/-- The depth code `CV_8U`. -/
def CV_8U : Nat := 0

/-- The type code `CV_32SC1` (one channel of 32-bit signed integers). -/
def CV_32SC1 : Nat := 4

/-- `Mat::depth()`: the low three bits of the type code. -/
def Mat.depth {α : Type} (m : Mat α) : Nat := m.type % 8

/-- `Mat::at<T>(i, j)` and `Mat::ptr<T>(i)[j]`: element of row `i`, column `j`. -/
def Mat.atRC {α : Type} (m : Mat α) (i j : Int) : Option α :=
  if 0 ≤ i ∧ i < m.rows ∧ 0 ≤ j ∧ j < m.cols then some (m.data i.toNat j.toNat) else none

/-- A `cv::Point`: `x` is the column coordinate, `y` the row coordinate. -/
structure Point where
  x : Int
  y : Int
deriving DecidableEq, Repr

/-- `Mat::at<T>(Point pt)`: element of row `pt.y`, column `pt.x`. -/
def Mat.atPt {α : Type} (m : Mat α) (pt : Point) : Option α := m.atRC pt.y pt.x

/-- `Mat::create(rows, cols, type)` followed by a loop that writes every element. -/
def Mat.filled {α : Type} (rows cols type : Nat) (f : Nat → Nat → α) : Mat α :=
  ⟨rows, cols, type, f⟩

/-- `std::vector::operator[]` with an `int` index. -/
def vecAt {α : Type} (v : List α) (i : Int) : Option α :=
  if 0 ≤ i then v.get? i.toNat else none

/-- Assignment to `v[i]` with an `int` index. -/
def vecSet {α : Type} (v : List α) (i : Int) (a : α) : Option (List α) :=
  if 0 ≤ i ∧ i.toNat < v.length then some (v.set i.toNat a) else none

/-! ## The flow graph under construction -/

/-- One call made on the flow graph. -/
inductive GCOp where
  | addVtx : GCOp
  | addTermWeights (i : Int) (sourceW sinkW : ℚ) : GCOp
  | addEdges (i j : Int) (w revw : ℚ) : GCOp
deriving DecidableEq

/-- Modelled from the spec: GCGraph of gcgraph.hpp, which is not in the embedded file.
The spec asks of it: create a graph sized by (max node count, max edge count); add a
node, returning its id; add an edge between two node ids with one capacity per
direction; add terminal capacities to a node.  The graph is kept as the two sizes it
was created with, the number of nodes added and the calls in the order they were made. -/
structure GCGraph where
  vtxCapacity : Int
  edgeCapacity : Int
  vtxCount : Nat
  ops : List GCOp
deriving DecidableEq

/-- The constructor `GCGraph(vtxCount, edgeCount)`. -/
def GCGraph.create (vtxCapacity edgeCapacity : Int) : GCGraph :=
  ⟨vtxCapacity, edgeCapacity, 0, []⟩

/-- The call `addVtx()`: the new node gets the next free id. -/
def GCGraph.addVtx (g : GCGraph) : Int × GCGraph :=
  ((g.vtxCount : Int), { g with vtxCount := g.vtxCount + 1, ops := g.ops ++ [GCOp.addVtx] })

/-- The call `addTermWeights(i, sourceW, sinkW)`. -/
def GCGraph.addTermWeights (g : GCGraph) (i : Int) (sourceW sinkW : ℚ) : GCGraph :=
  { g with ops := g.ops ++ [GCOp.addTermWeights i sourceW sinkW] }

/-- The call `addEdges(i, j, w, revw)`. -/
def GCGraph.addEdges (g : GCGraph) (i j : Int) (w revw : ℚ) : GCGraph :=
  { g with ops := g.ops ++ [GCOp.addEdges i j w revw] }

/-- Modelled from the spec: the max-flow engine of gcgraph.hpp.  The spec asks of it:
run max-flow and return the total flow; query whether a given node ended on the source
side of the min-cut.  Both answers are functions of the graph that was built. -/
structure Solver where
  maxFlow : GCGraph → ℚ
  inSourceSegment : GCGraph → Int → Bool

/-- Capacity that one call contributes to the cut `S` (`S i` means node `i` is on the
source side): a terminal link pays its sink capacity on the source side and its source
capacity on the sink side; an edge pays the capacity of the direction that leaves the
source side. -/
def GCOp.cut (S : Int → Bool) : GCOp → ℚ
  | GCOp.addVtx => 0
  | GCOp.addTermWeights i sourceW sinkW => if S i then sinkW else sourceW
  | GCOp.addEdges i j w revw =>
      (if S i && !S j then w else 0) + (if S j && !S i then revw else 0)

/-- Capacity of the cut `S` in the graph `g`. -/
def GCGraph.cutCapacity (g : GCGraph) (S : Int → Bool) : ℚ :=
  (g.ops.map (GCOp.cut S)).sum

/-- The solver reports the capacity of the partition it returns. -/
def Solver.ReportsCut (sv : Solver) : Prop :=
  ∀ g, sv.maxFlow g = g.cutCapacity (sv.inSourceSegment g)

/-- The solver returns a minimum cut of every graph, and its capacity. -/
def Solver.IsMinCut (sv : Solver) : Prop :=
  ∀ g, sv.maxFlow g = g.cutCapacity (sv.inSourceSegment g) ∧
    ∀ S, g.cutCapacity (sv.inSourceSegment g) ≤ g.cutCapacity S

/-! ## The optimizer -/

/-- The constant `GCInfinity`, written `10*1000*1000*1000.0` in the source. -/
def GCInfinity : ℚ := 10 * 1000 * 1000 * 1000

/-- The constant `EFFECTIVE_HEIGHT`. -/
def EFFECTIVE_HEIGHT : Nat := 600

/-- The constant `EFFECTIVE_WIDTH`. -/
def EFFECTIVE_WIDTH : Nat := 800

/-- The class `Photomontage<Tp>`.  The field `norm2` is the helper of norm2.hpp used by
`dist`; that header is not in the embedded file, so the helper is a parameter. -/
structure Photomontage (Tp : Type) where
  norm2 : Tp → Tp → ℚ
  images : List (Mat Tp)
  masks : List (Mat Nat)
  labelings : List (Mat Int)
  distances : List ℚ
  height : Nat
  width : Nat
  type : Nat
  channels : Nat
  lsize : Nat
  multiscale : Bool

/-- The method `dist`. -/
def Photomontage.dist {Tp : Type} (pm : Photomontage Tp) (l1p1 l1p2 l2p1 l2p2 : Tp) : ℚ :=
  pm.norm2 l1p1 l2p1 + pm.norm2 l1p2 l2p2

/-- The node id `p.y*width + p.x` that `setWeights` computes for a position. -/
def Photomontage.nodeId {Tp : Type} (pm : Photomontage Tp) (p : Point) : Int :=
  p.y * pm.width + p.x

/-- The method `setWeights`. -/
def Photomontage.setWeights {Tp : Type} (pm : Photomontage Tp) (graph : GCGraph)
    (pA pB : Point) (lA lB lX : Int) : Option GCGraph :=
  if lA = lB then do
    let imA ← vecAt pm.images lA
    let imX ← vecAt pm.images lX
    let a1 ← imA.atPt pA
    let a2 ← imA.atPt pB
    let x1 ← imX.atPt pA
    let x2 ← imX.atPt pB
    let weightAB := pm.dist a1 a2 x1 x2
    pure (graph.addEdges (pm.nodeId pA) (pm.nodeId pB) weightAB weightAB)
  else do
    let X := graph.addVtx.1
    let graph1 := graph.addVtx.2
    let imA ← vecAt pm.images lA
    let imB ← vecAt pm.images lB
    let imX ← vecAt pm.images lX
    let a1 ← imA.atPt pA
    let a2 ← imA.atPt pB
    let b1 ← imB.atPt pA
    let b2 ← imB.atPt pB
    let x1 ← imX.atPt pA
    let x2 ← imX.atPt pB
    let weightXS := pm.dist a1 a2 b1 b2
    let graph2 := graph1.addTermWeights X 0 weightXS
    let weightAX := pm.dist a1 a2 x1 x2
    let graph3 := graph2.addEdges (pm.nodeId pA) X weightAX weightAX
    let weightXB := pm.dist x1 x2 b1 b2
    pure (graph3.addEdges X (pm.nodeId pB) weightXB weightXB)

/-- The terminal weight chosen from a mask value: `m ? 0 : GCInfinity`. -/
def termWeight (m : Nat) : ℚ := if m ≠ 0 then 0 else GCInfinity

/-- The body of the inner loop of the terminal pass of `singleExpansion`, at pixel `(i, j)`. -/
def Photomontage.terminalStep {Tp : Type} (pm : Photomontage Tp) (x_i : Mat Int)
    (alpha : Int) (i j : Nat) (graph : GCGraph) : Option GCGraph := do
  let maskAlpha ← vecAt pm.masks alpha
  let mA ← maskAlpha.atRC i j
  let l ← x_i.atRC i j
  let maskL ← vecAt pm.masks l
  let mL ← maskL.atRC i j
  pure (graph.addVtx.2.addTermWeights graph.addVtx.1 (termWeight mA) (termWeight mL))

/-- The terminal pass of `singleExpansion` (the loops over `i < height`, `j < width`). -/
def Photomontage.terminalLinks {Tp : Type} (pm : Photomontage Tp) (x_i : Mat Int)
    (alpha : Int) (graph : GCGraph) : Option GCGraph :=
  (List.range pm.height).foldlM
    (fun g i => (List.range pm.width).foldlM (fun g1 j => pm.terminalStep x_i alpha i j g1) g)
    graph

/-- One invocation of `setWeights` made by the neighbour pass: the two positions passed
and the (row, column) places in the current labeling where the two labels are read. -/
structure NeighborCall where
  pA : Point
  pB : Point
  readA : Int × Int
  readB : Int × Int
deriving DecidableEq, Repr

/-- The invocations of `setWeights` made by the neighbour pass of `singleExpansion`, in
order: for each row `i < height - 1` the pairs of the inner loop over `j < width - 1`
and then the call for column `width - 1`; after that the loop over the row `height - 1`. -/
def neighborCalls (height width : Nat) : List NeighborCall :=
  ((List.range (height - 1)).flatMap fun (i : Nat) =>
      ((List.range (width - 1)).flatMap fun (j : Nat) =>
        [ (⟨⟨(i : Int), (j : Int)⟩, ⟨(i : Int), (j : Int) + 1⟩,
              ((i : Int), (j : Int)), ((i : Int), (j : Int) + 1)⟩ : NeighborCall),
          (⟨⟨(i : Int), (j : Int)⟩, ⟨(i : Int) + 1, (j : Int)⟩,
              ((i : Int), (j : Int)), ((i : Int) + 1, (j : Int))⟩ : NeighborCall) ])
      ++ [ (⟨⟨(i : Int), (width : Int) - 1⟩, ⟨(i : Int) + 1, (width : Int) - 1⟩,
              ((i : Int), (width : Int) - 1), ((i : Int) + 1, (width : Int) - 1)⟩ : NeighborCall) ])
  ++ ((List.range (width - 1)).map fun (i : Nat) =>
        (⟨⟨(height : Int) - 1, (i : Int)⟩, ⟨(height : Int) - 1, (i : Int) + 1⟩,
          ((height : Int) - 1, (i : Int)), ((height : Int) - 1, (i : Int) + 1)⟩ : NeighborCall))

/-- One invocation of `setWeights` from the neighbour pass: read the two current labels,
then call `setWeights` with the trial label. -/
def Photomontage.neighborStep {Tp : Type} (pm : Photomontage Tp) (x_i : Mat Int)
    (alpha : Int) (graph : GCGraph) (c : NeighborCall) : Option GCGraph := do
  let lA ← x_i.atRC c.readA.1 c.readA.2
  let lB ← x_i.atRC c.readB.1 c.readB.2
  pm.setWeights graph c.pA c.pB lA lB alpha

/-- The neighbour pass of `singleExpansion`. -/
def Photomontage.neighborLinks {Tp : Type} (pm : Photomontage Tp) (x_i : Mat Int)
    (alpha : Int) (graph : GCGraph) : Option GCGraph :=
  (neighborCalls pm.height pm.width).foldlM (pm.neighborStep x_i alpha) graph

/-- The value of a 32-bit `int` whose mathematical value is `z`: `z` reduced to the range
`[-2^31, 2^31)` modulo `2^32`. -/
def int32 (z : Int) : Int := (z + 2147483648) % 4294967296 - 2147483648

/-- The value `int actualEdges = (height - 1)*width + height*(width - 1)` of
`singleExpansion`, computed in `int`. -/
def Photomontage.actualEdges {Tp : Type} (pm : Photomontage Tp) : Int :=
  int32 (int32 (((pm.height : Int) - 1) * pm.width) + int32 (pm.height * ((pm.width : Int) - 1)))

/-- The graph that `singleExpansion` hands to the solver. -/
def Photomontage.buildGraph {Tp : Type} (pm : Photomontage Tp) (x_i : Mat Int)
    (alpha : Int) : Option GCGraph := do
  let graph := GCGraph.create (int32 (pm.actualEdges + int32 (pm.height * pm.width)))
    (int32 (2 * pm.actualEdges))
  let graph1 ← pm.terminalLinks x_i alpha graph
  pm.neighborLinks x_i alpha graph1

/-- The label written at `(i, j)` by the decode loop of `singleExpansion`. -/
def Photomontage.decodedLabel {Tp : Type} (pm : Photomontage Tp) (x_i : Mat Int)
    (alpha : Int) (inSource : Int → Bool) (i j : Nat) : Int :=
  if inSource ((i : Int) * pm.width + j) then x_i.data i j else alpha

/-- The method `singleExpansion`: the flow value and the object with `labelings[alpha]`
rewritten.  The terminal pass has already read `x_i` at every pixel of the grid, so the
reads `inRow[j]` of the decode loop are inside `x_i`. -/
def Photomontage.singleExpansion {Tp : Type} (pm : Photomontage Tp) (sv : Solver)
    (x_i : Mat Int) (alpha : Int) : Option (ℚ × Photomontage Tp) := do
  let graph ← pm.buildGraph x_i alpha
  let result := sv.maxFlow graph
  let out := Mat.filled pm.height pm.width CV_32SC1
    (pm.decodedLabel x_i alpha (sv.inSourceSegment graph))
  let labelings1 ← vecSet pm.labelings alpha out
  pure (result, { pm with labelings := labelings1 })

/-- Modelled from the spec: min_idx of algo.hpp, which is not in the embedded file.  The
spec asks of it the argmin over the vector, the first index winning exact ties. -/
def minIdxFrom : List ℚ → Nat → ℚ → Nat → Nat
  | [], _, _, best => best
  | a :: rest, k, bestVal, best =>
      if a < bestVal then minIdxFrom rest (k + 1) a k else minIdxFrom rest (k + 1) bestVal best

/-- Modelled from the spec: min_idx of algo.hpp (see `minIdxFrom`); `0` on an empty vector. -/
def min_idx : List ℚ → Nat
  | [] => 0
  | a :: rest => minIdxFrom rest 1 a 0

/-- The constant `std::numeric_limits<double>::max()`. -/
def DBL_MAX : ℚ := 2 ^ 1024 - 2 ^ 971

/-- One pass of the inner loop of `gradientDescent`:
`distances[i] = singleExpansion(x_n, i)`. -/
def Photomontage.expansionStep {Tp : Type} (sv : Solver) (x_n : Mat Int)
    (pm : Photomontage Tp) (i : Nat) : Option (Photomontage Tp) := do
  let r ← pm.singleExpansion sv x_n i
  let distances1 ← vecSet r.2.distances i r.1
  pure { r.2 with distances := distances1 }

/-- The inner loop of `gradientDescent` over all labels `i < lsize`. -/
def Photomontage.expandAll {Tp : Type} (pm : Photomontage Tp) (sv : Solver)
    (x_n : Mat Int) : Option (Photomontage Tp) :=
  (List.range pm.lsize).foldlM (Photomontage.expansionStep sv x_n) pm

/-- The variables of the loop of `gradientDescent`.  `x_n` is the working labeling;
`img` is the grid of the caller, whose buffer `x_n` shares as long as `attached` holds
(`x_n` is passed by value, so a `copyTo` that has to reallocate detaches it). -/
structure GDState (Tp : Type) where
  pm : Photomontage Tp
  optValue : ℚ
  x_n : Mat Int
  img : Mat Int
  attached : Bool

/-- Outcome of one round of `gradientDescent`: the round adopted its best label and the
loop goes on, or it left the loop. -/
inductive GDRound (Tp : Type) where
  | adopted (s : GDState Tp) : GDRound Tp
  | stopped (s : GDState Tp) : GDRound Tp

/-- The call `labelings[num].copyTo(x_n)`: written in place when `x_n` already has the
size and type of the source, into a fresh buffer otherwise. -/
def GDState.copyTo {Tp : Type} (s : GDState Tp) (pm1 : Photomontage Tp) (value : ℚ)
    (src : Mat Int) : GDState Tp :=
  let inPlace : Bool := s.x_n.rows = src.rows && s.x_n.cols = src.cols && s.x_n.type = src.type
  { pm := pm1, optValue := value, x_n := src,
    img := if s.attached && inPlace then src else s.img,
    attached := s.attached && inPlace }

/-- One round of the loop of `gradientDescent`. -/
def gdRound {Tp : Type} (sv : Solver) (s : GDState Tp) : Option (GDRound Tp) := do
  let pm1 ← s.pm.expandAll sv s.x_n
  let minIndex := min_idx pm1.distances
  let minValue ← pm1.distances.get? minIndex
  if minValue < (49 / 50 : ℚ) * s.optValue then do
    let src ← pm1.labelings.get? minIndex
    pure (GDRound.adopted (s.copyTo pm1 minValue src))
  else
    pure (GDRound.stopped { s with pm := pm1 })

/-- The loop of `gradientDescent`, run for at most `fuel` rounds: the final variables and
the flow values of the adopted labels, in the order of adoption. -/
def gdLoop {Tp : Type} (sv : Solver) : Nat → GDState Tp → Option (GDState Tp × List ℚ)
  | 0, _ => none
  | fuel + 1, s =>
      match gdRound sv s with
      | none => none
      | some (GDRound.stopped s1) => some (s1, [])
      | some (GDRound.adopted s1) =>
          match gdLoop sv fuel s1 with
          | none => none
          | some (s2, values) => some (s2, s1.optValue :: values)

/-- The state in which `gradientDescent(img, img)` enters its loop: `x_0.copyTo(x_n)`
copies the grid onto itself. -/
def Photomontage.gdInit {Tp : Type} (pm : Photomontage Tp) (img : Mat Int) : GDState Tp :=
  { pm := pm, optValue := DBL_MAX, x_n := img, img := img, attached := true }

/-- The method `gradientDescent`, as called by `assignLabeling` with the same grid for
both arguments: the grid of the caller afterwards, and the object. -/
def Photomontage.gradientDescent {Tp : Type} (pm : Photomontage Tp) (sv : Solver)
    (fuel : Nat) (img : Mat Int) : Option (Mat Int × Photomontage Tp) :=
  (gdLoop sv fuel (pm.gdInit img)).map fun r => (r.1.img, r.1.pm)

/-- The flow values of the labels adopted by `gradientDescent`, in the order of adoption. -/
def Photomontage.adoptedValues {Tp : Type} (pm : Photomontage Tp) (sv : Solver)
    (fuel : Nat) (img : Mat Int) : Option (List ℚ) :=
  (gdLoop sv fuel (pm.gdInit img)).map fun r => r.2

/-- The OpenCV primitive `cvRound` on a value that is held exactly: nearest integer,
ties to the even one. -/
def cvRound (q : ℚ) : Int :=
  if q - ⌊q⌋ < 1 / 2 then ⌊q⌋
  else if 1 / 2 < q - ⌊q⌋ then ⌊q⌋ + 1
  else if ⌊q⌋ % 2 = 0 then ⌊q⌋ else ⌊q⌋ + 1

/-- A `cv::Size`: the constructor takes the width first. -/
structure Size where
  width : Int
  height : Int
deriving DecidableEq, Repr

/-- The OpenCV primitive `resize(src, dst, dsize, 0, 0, INTER_NEAREST)`: the result has
`dsize.height` rows and `dsize.width` columns and each element is a copy of the source
element at the scaled-down position; an empty source or target size is rejected. -/
def resizeNearest {α : Type} (src : Mat α) (dsize : Size) : Option (Mat α) :=
  if src.rows = 0 ∨ src.cols = 0 ∨ dsize.width ≤ 0 ∨ dsize.height ≤ 0 then none
  else some
    { rows := dsize.height.toNat
      cols := dsize.width.toNat
      type := src.type
      data := fun y x =>
        src.data (min (y * src.rows / dsize.height.toNat) (src.rows - 1))
          (min (x * src.cols / dsize.width.toNat) (src.cols - 1)) }

/-- The all-zero labeling made by `img.create(...)` and `img.setTo(0)`. -/
def zeroLabeling (rows cols : Nat) : Mat Int :=
  Mat.filled rows cols CV_32SC1 (fun _ _ => 0)

/-- The downscale factor `l` of the multiscale branch of `assignLabeling`. -/
def Photomontage.scaleFactor {Tp : Type} (pm : Photomontage Tp) : Int :=
  min (cvRound ((pm.height : ℚ) / 600)) (cvRound ((pm.width : ℚ) / 800))

/-- The condition under which `assignLabeling` optimizes directly at full resolution. -/
def Photomontage.directBranch {Tp : Type} (pm : Photomontage Tp) : Bool :=
  pm.multiscale == false || (pm.height < EFFECTIVE_HEIGHT && pm.width < EFFECTIVE_WIDTH)

/-- The grid that the multiscale branch of `assignLabeling` creates with
`img.create(cv::Size(width/l, height/l), CV_32SC1)` and sets to zero. -/
def Photomontage.reducedLabeling {Tp : Type} (pm : Photomontage Tp) : Mat Int :=
  zeroLabeling ((pm.height : Int) / pm.scaleFactor).toNat ((pm.width : Int) / pm.scaleFactor).toNat

/-- The call `resize(img, img, cv::Size(height, width), 0.0, 0.0, cv::INTER_NEAREST)` of
the multiscale branch of `assignLabeling`. -/
def Photomontage.upsample {Tp : Type} (pm : Photomontage Tp) (img : Mat Int) :
    Option (Mat Int) :=
  resizeNearest img (Size.mk pm.height pm.width)

/-- The method `assignLabeling`: the labeling handed back in `img`, and the object.  The
two elided statements of the multiscale branch are taken to do nothing. -/
def Photomontage.assignLabeling {Tp : Type} (pm : Photomontage Tp) (sv : Solver)
    (fuel : Nat) : Option (Mat Int × Photomontage Tp) :=
  if pm.directBranch then
    pm.gradientDescent sv fuel (zeroLabeling pm.height pm.width)
  else if pm.scaleFactor = 0 then none
  else do
    let r ← pm.gradientDescent sv fuel pm.reducedLabeling
    let img ← pm.upsample r.1
    pure (img, r.2)

/-- The element that `assignResImage` copies to `(i, j)`:
`images[optimalLabeling.at<int>(i, j)].at<Tp>(i, j)`. -/
def Photomontage.resPixel {Tp : Type} (pm : Photomontage Tp) (optimalLabeling : Mat Int)
    (i j : Nat) : Option Tp := do
  let l ← optimalLabeling.atRC i j
  let im ← vecAt pm.images l
  im.atRC i j

/-- The method `assignResImage`: the composite image and the object.  Elements outside
the created grid are not storage of the image; the embedding fills them with the
default value. -/
def Photomontage.assignResImage {Tp : Type} [Inhabited Tp] (pm : Photomontage Tp)
    (sv : Solver) (fuel : Nat) : Option (Mat Tp × Photomontage Tp) := do
  let r ← pm.assignLabeling sv fuel
  if (List.range pm.height).all fun i =>
      (List.range pm.width).all fun j => (pm.resPixel r.1 i j).isSome then
    pure (Mat.filled pm.height pm.width pm.type
      (fun i j => (pm.resPixel r.1 i j).getD default), r.2)
  else none

/-- An empty `cv::Mat`, as made by the default constructor. -/
def Mat.empty : Mat Int := ⟨0, 0, 0, fun _ _ => 0⟩

/-- The constructor of `Photomontage`: `images[0]` and `masks[0]` are read, and
`CV_Assert(images[0].depth() != CV_8U && masks[0].depth() == CV_8U)` is checked. -/
def Photomontage.construct {Tp : Type} (norm2 : Tp → Tp → ℚ) (images : List (Mat Tp))
    (masks : List (Mat Nat)) (multiscale : Bool) : Option (Photomontage Tp) := do
  let image0 ← images.get? 0
  let mask0 ← masks.get? 0
  if image0.depth ≠ CV_8U ∧ mask0.depth = CV_8U then
    pure
      { norm2 := norm2
        images := images
        masks := masks
        labelings := List.replicate images.length Mat.empty
        distances := List.replicate images.length 0
        height := image0.rows
        width := image0.cols
        type := image0.type
        channels := image0.type / 8 + 1
        lsize := images.length
        multiscale := multiscale }
  else none

/-! ## Notions used to state the properties -/

/-- The mask value `masks[l].at<uchar>(i, j)`. -/
def Photomontage.maskAt {Tp : Type} (pm : Photomontage Tp) (l : Int) (i j : Nat) : Option Nat :=
  (vecAt pm.masks l).bind fun m => m.atRC i j

/-- The mask value of the label that the labeling `x` holds at `(i, j)`. -/
def Photomontage.labelMask {Tp : Type} (pm : Photomontage Tp) (x : Mat Int) (i j : Nat) :
    Option Nat :=
  (x.atRC i j).bind fun l => pm.maskAt l i j

/-- The terminal link that the terminal pass gives to the node `id` made for pixel `(i, j)`. -/
def Photomontage.terminalOp {Tp : Type} (pm : Photomontage Tp) (x : Mat Int) (alpha : Int)
    (id : Int) (i j : Nat) : GCOp :=
  GCOp.addTermWeights id (termWeight ((pm.maskAt alpha i j).getD 0))
    (termWeight ((pm.labelMask x i j).getD 0))

/-- The calls of one row of the terminal pass, the first node of the row having id `base`. -/
def Photomontage.terminalRowOps {Tp : Type} (pm : Photomontage Tp) (x : Mat Int) (alpha : Int)
    (base : Nat) (i n : Nat) : List GCOp :=
  (List.range n).flatMap fun j => [GCOp.addVtx, pm.terminalOp x alpha ((base + j : Nat) : Int) i j]

/-- The calls of the first `m` rows of the terminal pass on a graph that had `base` nodes. -/
def Photomontage.terminalOps {Tp : Type} (pm : Photomontage Tp) (x : Mat Int) (alpha : Int)
    (base : Nat) (m : Nat) : List GCOp :=
  (List.range m).flatMap fun i => pm.terminalRowOps x alpha (base + i * pm.width) i pm.width

/-- Sum of `f i j` over the pixels `i < h`, `j < w` of a grid. -/
def gridSum (h w : Nat) (f : Nat → Nat → ℚ) : ℚ :=
  ((List.range h).map fun i => ((List.range w).map fun j => f i j).sum).sum

/-- The mask penalty of the labeling `L` at `(i, j)`: `GCInfinity` where the mask of the
label chosen there is false, `0` where it is true. -/
def Photomontage.maskPenalty {Tp : Type} (pm : Photomontage Tp) (L : Mat Int) (i j : Nat) : ℚ :=
  termWeight ((pm.labelMask L i j).getD 0)

/-- The labeling that the decode loop of `singleExpansion` writes for the partition `S`. -/
def Photomontage.expansionLabeling {Tp : Type} (pm : Photomontage Tp) (x : Mat Int)
    (alpha : Int) (S : Int → Bool) : Mat Int :=
  Mat.filled pm.height pm.width CV_32SC1 (pm.decodedLabel x alpha S)

/-- Two objects of the class agree on everything but the working storage
(`labelings`, `distances`). -/
def Photomontage.SameInputs {Tp : Type} (pm pm1 : Photomontage Tp) : Prop :=
  pm1.norm2 = pm.norm2 ∧ pm1.images = pm.images ∧ pm1.masks = pm.masks ∧
    pm1.height = pm.height ∧ pm1.width = pm.width ∧ pm1.type = pm.type ∧
    pm1.channels = pm.channels ∧ pm1.lsize = pm.lsize ∧ pm1.multiscale = pm.multiscale

/-- The sizes that the constructor gives to the vectors of the class. -/
def Photomontage.WellSized {Tp : Type} (pm : Photomontage Tp) : Prop :=
  pm.images.length = pm.lsize ∧ pm.labelings.length = pm.lsize ∧ pm.distances.length = pm.lsize

/-- The object after `labelings[alpha]` has been rewritten with `L`. -/
def Photomontage.withLabeling {Tp : Type} (pm : Photomontage Tp) (alpha : Int) (L : Mat Int) :
    Photomontage Tp :=
  { pm with labelings := pm.labelings.set alpha.toNat L }

/-- Every label of the labeling `x` over the grid of `pm` is a valid index. -/
def Photomontage.ValidLabels {Tp : Type} (pm : Photomontage Tp) (x : Mat Int) : Prop :=
  ∀ i j, i < pm.height → j < pm.width → 0 ≤ x.data i j ∧ x.data i j < pm.lsize

/-- The loop invariant of `gradientDescent` when the working labeling has the size of
the grid: the working storage keeps its sizes, `x_n` still shares the buffer of the
caller, and holds a full-size labeling with valid labels. -/
def GDState.Inv {Tp : Type} (pm0 : Photomontage Tp) (s : GDState Tp) : Prop :=
  pm0.SameInputs s.pm ∧ s.pm.labelings.length = pm0.lsize ∧
    s.pm.distances.length = pm0.lsize ∧ s.attached = true ∧ s.img = s.x_n ∧
    s.x_n.rows = pm0.height ∧ s.x_n.cols = pm0.width ∧ s.x_n.type = CV_32SC1 ∧
    pm0.ValidLabels s.x_n

/-- Every candidate image has the size `height x width` of the grid. -/
def Photomontage.ImagesSized {Tp : Type} (pm : Photomontage Tp) : Prop :=
  ∀ im ∈ pm.images, im.rows = pm.height ∧ im.cols = pm.width

/-- The pixel `images[l].at<Tp>(i, j)`. -/
def Photomontage.pixelAt {Tp : Type} (pm : Photomontage Tp) (l : Int) (i j : Nat) : Option Tp :=
  (vecAt pm.images l).bind fun im => im.atRC i j

/-- The pairwise cost that the labeling `L` pays on the pixel pair `p`, `q`:
`dist(images[L(p)]@p, images[L(p)]@q, images[L(q)]@p, images[L(q)]@q)`; a pair that
cannot be read costs nothing. -/
def Photomontage.pairCost {Tp : Type} (pm : Photomontage Tp) (L : Mat Int) (p q : Nat × Nat) : ℚ :=
  match pm.pixelAt (L.data p.1 p.2) p.1 p.2, pm.pixelAt (L.data p.1 p.2) q.1 q.2,
      pm.pixelAt (L.data q.1 q.2) p.1 p.2, pm.pixelAt (L.data q.1 q.2) q.1 q.2 with
  | some a1, some a2, some b1, some b2 => pm.dist a1 a2 b1 b2
  | _, _, _, _ => 0

/-- The pairwise cost of the labeling `L` summed over all 4-connected pixel pairs: every
pixel with its right neighbour and every pixel with its lower neighbour. -/
def Photomontage.seamCost {Tp : Type} (pm : Photomontage Tp) (L : Mat Int) : ℚ :=
  gridSum pm.height (pm.width - 1) (fun i j => pm.pairCost L (i, j) (i, j + 1)) +
    gridSum (pm.height - 1) pm.width (fun i j => pm.pairCost L (i, j) (i + 1, j))

/-- The total cost of the labeling `L`: its mask penalties plus its pairwise cost. -/
def Photomontage.totalCost {Tp : Type} (pm : Photomontage Tp) (L : Mat Int) : ℚ :=
  gridSum pm.height pm.width (pm.maskPenalty L) + pm.seamCost L

/-- The labeling `x` gives every pixel of the grid a label whose mask is true there. -/
def Photomontage.MaskRespecting {Tp : Type} (pm : Photomontage Tp) (x : Mat Int) : Prop :=
  ∀ i j, i < pm.height → j < pm.width → ∃ m, pm.labelMask x i j = some m ∧ m ≠ 0

/-- There is one validity mask per label and every mask has the size of the grid. -/
def Photomontage.MasksSized {Tp : Type} (pm : Photomontage Tp) : Prop :=
  pm.masks.length = pm.lsize ∧ ∀ m ∈ pm.masks, m.rows = pm.height ∧ m.cols = pm.width

/-- All candidate images are the same grid. -/
def Photomontage.IdenticalImages {Tp : Type} (pm : Photomontage Tp) : Prop :=
  ∀ a ∈ pm.images, ∀ b ∈ pm.images, a = b

/-- Every validity mask is true at every pixel of the grid. -/
def Photomontage.MasksAllTrue {Tp : Type} (pm : Photomontage Tp) : Prop :=
  ∀ l : Nat, l < pm.lsize → ∀ i j, i < pm.height → j < pm.width →
    ∃ m, pm.maskAt l i j = some m ∧ m ≠ 0

/-- The calls of a pass that, for each of the first `n` pixels in row-major order, adds a
node and then makes the call `f p` for that pixel. -/
def pixelOps (f : Nat → GCOp) (n : Nat) : List GCOp :=
  (List.range n).flatMap fun p => [GCOp.addVtx, f p]

/-- Whether a call on the flow graph is a call of `addEdges`. -/
def GCOp.isAddEdges : GCOp → Bool
  | GCOp.addEdges _ _ _ _ => true
  | _ => false

/-- The number of `addEdges` calls made on a graph. -/
def GCGraph.edgeCalls (g : GCGraph) : Nat := g.ops.countP GCOp.isAddEdges

/-- The terminal-weight cost of the label `l` at pixel `(i, j)`: `0` if the mask of the
label is true there, `GCInfinity` otherwise. -/
def Photomontage.terminalCost {Tp : Type} (pm : Photomontage Tp) (l : Int) (i j : Nat) : ℚ :=
  termWeight ((pm.maskAt l i j).getD 0)

/-- The labeling of a grid of `h` rows and `w` columns that holds the labels of a table
`f` of labels below `n`. -/
def gridLabeling (h w n : Nat) (f : Fin h → Fin w → Fin n) : Mat Int :=
  Mat.filled h w CV_32SC1 fun i j =>
    if hi : i < h then (if hj : j < w then ((f ⟨i, hi⟩ ⟨j, hj⟩ : Nat) : Int) else 0) else 0

/-! ## A reference solver -/

/-- The node ids that one call mentions. -/
def GCOp.ids : GCOp → List Int
  | GCOp.addVtx => []
  | GCOp.addTermWeights i _ _ => [i]
  | GCOp.addEdges i j _ _ => [i, j]

/-- The node ids that the calls of a graph mention, each once. -/
def GCGraph.ids (g : GCGraph) : List Int := (g.ops.flatMap GCOp.ids).dedup

/-- The partition described by a table of sides (`true` is the source side); a node
that the table does not list is on the sink side. -/
def sideOf (table : List (Int × Bool)) : Int → Bool :=
  fun k => (table.lookup k).getD false

/-- Exhaustive search: the cheapest cut among those that extend `table` over the nodes
`ids`, with its capacity. -/
def minCutOver (g : GCGraph) : List Int → List (Int × Bool) → ℚ × List (Int × Bool)
  | [], table => (g.cutCapacity (sideOf table), table)
  | i :: rest, table =>
      if (minCutOver g rest ((i, false) :: table)).1 ≤ (minCutOver g rest ((i, true) :: table)).1
      then minCutOver g rest ((i, false) :: table)
      else minCutOver g rest ((i, true) :: table)

/-- A max-flow engine by exhaustive search over the partitions of the nodes. -/
def bruteForce : Solver where
  maxFlow := fun g => (minCutOver g g.ids []).1
  inSourceSegment := fun g => sideOf (minCutOver g g.ids []).2

/-! ## Concrete inputs -/

/-- Modelled from the spec: norm2 of norm2.hpp for one-channel pixels, the squared
Euclidean distance that the spec gives as the default seam metric. -/
def sqDiff (a b : ℚ) : ℚ := (a - b) * (a - b)

/-- A grid whose elements all hold `v`. -/
def constMat {α : Type} (rows cols type : Nat) (v : α) : Mat α := ⟨rows, cols, type, fun _ _ => v⟩

/-- The type code `CV_32FC1` (one channel of 32-bit floats). -/
def CV_32FC1 : Nat := 5

/-- The type code `CV_8UC1` (one channel of bytes). -/
def CV_8UC1 : Nat := 0

/-- Three candidate images on a 2 x 2 grid.  Images 0 and 1 are black; image 2 differs
from them at pixel `(1, 1)` only.  Label 0 is valid off the diagonal, label 1 everywhere
but at `(1, 1)`, label 2 at `(1, 1)` only, so every pixel has a valid label. -/
def pmDiag : Photomontage ℚ :=
  { norm2 := sqDiff
    images := [constMat 2 2 CV_32FC1 0, constMat 2 2 CV_32FC1 0,
      ⟨2, 2, CV_32FC1, fun i j => if i = 1 ∧ j = 1 then 70500 else 0⟩]
    masks := [⟨2, 2, CV_8UC1, fun i j => if i = j then 0 else 255⟩,
      ⟨2, 2, CV_8UC1, fun i j => if i = 1 ∧ j = 1 then 0 else 255⟩,
      ⟨2, 2, CV_8UC1, fun i j => if i = 1 ∧ j = 1 then 255 else 0⟩]
    labelings := List.replicate 3 Mat.empty
    distances := List.replicate 3 0
    height := 2
    width := 2
    type := CV_32FC1
    channels := 1
    lsize := 3
    multiscale := true }

/-- One candidate image on a grid of one row and two columns, its mask true everywhere. -/
def pmRow : Photomontage ℚ :=
  { norm2 := sqDiff
    images := [constMat 1 2 CV_32FC1 0]
    masks := [constMat 1 2 CV_8UC1 255]
    labelings := [Mat.empty]
    distances := [0]
    height := 1
    width := 2
    type := CV_32FC1
    channels := 1
    lsize := 1
    multiscale := true }

/-- Two candidate images on a grid of one row and two columns; the masks are split by
the vertical line between the two columns: mask 0 is true at column 0 only, mask 1 at
column 1 only. -/
def pmSplitRow : Photomontage ℚ :=
  { norm2 := sqDiff
    images := [constMat 1 2 CV_32FC1 0, constMat 1 2 CV_32FC1 1]
    masks := [⟨1, 2, CV_8UC1, fun _ j => if j = 0 then 255 else 0⟩,
      ⟨1, 2, CV_8UC1, fun _ j => if j = 0 then 0 else 255⟩]
    labelings := [Mat.empty, Mat.empty]
    distances := [0, 0]
    height := 1
    width := 2
    type := CV_32FC1
    channels := 1
    lsize := 2
    multiscale := false }

/-- Two candidate images on a 2 x 2 grid whose masks are split by the vertical line
between the two columns: mask 0 is true at column 0 only, mask 1 at column 1 only. -/
def pmHalves : Photomontage ℚ :=
  { norm2 := sqDiff
    images := [constMat 2 2 CV_32FC1 0, constMat 2 2 CV_32FC1 1]
    masks := [⟨2, 2, CV_8UC1, fun _ j => if j = 0 then 255 else 0⟩,
      ⟨2, 2, CV_8UC1, fun _ j => if j = 0 then 0 else 255⟩]
    labelings := [Mat.empty, Mat.empty]
    distances := [0, 0]
    height := 2
    width := 2
    type := CV_32FC1
    channels := 1
    lsize := 2
    multiscale := false }

/-- Three constant candidate images on a 2 x 2 grid with pixel values 0, 2 and 1.  The
masks of labels 0 and 1 are true everywhere, the mask of label 2 is false everywhere. -/
def pmJunction : Photomontage ℚ :=
  { norm2 := sqDiff
    images := [constMat 2 2 CV_32FC1 0, constMat 2 2 CV_32FC1 2, constMat 2 2 CV_32FC1 1]
    masks := [constMat 2 2 CV_8UC1 255, constMat 2 2 CV_8UC1 255, constMat 2 2 CV_8UC1 0]
    labelings := [Mat.empty, Mat.empty, Mat.empty]
    distances := [0, 0, 0]
    height := 2
    width := 2
    type := CV_32FC1
    channels := 1
    lsize := 3
    multiscale := false }

/-- The labeling of the 2 x 2 grid that holds label 1 at `(1, 1)` and label 0 elsewhere. -/
def cornerLabeling : Mat Int :=
  Mat.filled 2 2 CV_32SC1 (fun i j => if i = 1 ∧ j = 1 then 1 else 0)

/-- One candidate image of 600 rows and 800 columns, multiscale enabled. -/
def pmWide : Photomontage ℚ :=
  { norm2 := sqDiff
    images := [constMat 600 800 CV_32FC1 0]
    masks := [constMat 600 800 CV_8UC1 255]
    labelings := [Mat.empty]
    distances := [0]
    height := 600
    width := 800
    type := CV_32FC1
    channels := 1
    lsize := 1
    multiscale := true }

/-- One candidate image of 1200 rows and 1600 columns, multiscale enabled. -/
def pmLarge : Photomontage ℚ :=
  { norm2 := sqDiff
    images := [constMat 1200 1600 CV_32FC1 0]
    masks := [constMat 1200 1600 CV_8UC1 255]
    labelings := [Mat.empty]
    distances := [0]
    height := 1200
    width := 1600
    type := CV_32FC1
    channels := 1
    lsize := 1
    multiscale := true }

/-- The validity mask of label `m` on the 8 x 8 grid of `pmMany`, pixels being numbered
row by row: label 0 is valid at pixel 0 and at the pixels 52 to 63, label `m > 0` is
valid at pixel `m` only. -/
def manyMask (m : Nat) : Mat Nat :=
  ⟨8, 8, CV_8UC1, fun i j =>
    if m = 0 then (if i * 8 + j = 0 ∨ 52 ≤ i * 8 + j then 255 else 0)
    else (if i * 8 + j = m then 255 else 0)⟩

/-- Fifty-two identical candidate images on an 8 x 8 grid, with the masks `manyMask`:
every pixel has exactly one valid label, and all pairwise costs are zero. -/
def pmMany : Photomontage ℚ :=
  { norm2 := sqDiff
    images := List.replicate 52 (constMat 8 8 CV_32FC1 0)
    masks := (List.range 52).map manyMask
    labelings := List.replicate 52 Mat.empty
    distances := List.replicate 52 0
    height := 8
    width := 8
    type := CV_32FC1
    channels := 1
    lsize := 52
    multiscale := false }

/-- The cut of the 8 x 8 grid that puts the node of pixel 1 on the sink side and every
other node on the source side. -/
def onlyPixelOne : Int → Bool := fun k => decide (k ≠ 1)

/-- The penalty that a labeling of `pmMany` pays at least at pixel `p`, when every label
it uses is `0`, `a` or `b`: the pixels 1 to 51 other than `a` and `b` are invalid. -/
def strandedPenalty (a b : Nat) (i j : Nat) : ℚ :=
  if 1 ≤ i * 8 + j ∧ i * 8 + j ≤ 51 ∧ i * 8 + j ≠ a ∧ i * 8 + j ≠ b then GCInfinity else 0

/-- Two identical constant candidate images on a 2 x 2 grid, masks true everywhere. -/
def pmTwin : Photomontage ℚ :=
  { norm2 := sqDiff
    images := [constMat 2 2 CV_32FC1 7, constMat 2 2 CV_32FC1 7]
    masks := [constMat 2 2 CV_8UC1 255, constMat 2 2 CV_8UC1 255]
    labelings := [Mat.empty, Mat.empty]
    distances := [0, 0]
    height := 2
    width := 2
    type := CV_32FC1
    channels := 1
    lsize := 2
    multiscale := false }

/-- One candidate image of 640 rows and 360 columns (a portrait image), multiscale
enabled. -/
def pmTall : Photomontage ℚ :=
  { norm2 := sqDiff
    images := [constMat 640 360 CV_32FC1 0]
    masks := [constMat 640 360 CV_8UC1 255]
    labelings := [Mat.empty]
    distances := [0]
    height := 640
    width := 360
    type := CV_32FC1
    channels := 1
    lsize := 1
    multiscale := true }

/-- The labeling of the 2 x 2 grid that holds label 1 at `(0, 1)` and label 0 elsewhere. -/
def rightLabeling : Mat Int :=
  Mat.filled 2 2 CV_32SC1 (fun i j => if i = 0 ∧ j = 1 then 1 else 0)

/-- The object `pmDiag` with working storage that holds leftovers: labelings of another
size and arbitrary flow values. -/
def pmDiagUsed : Photomontage ℚ :=
  { pmDiag with
    labelings := [zeroLabeling 5 5, cornerLabeling, Mat.empty]
    distances := [3, 1, 2] }

/-- Three candidate images on a grid of one pixel: the mask of label 0 is false at the
pixel, the masks of labels 1 and 2 are true. -/
def pmPixel : Photomontage ℚ :=
  { norm2 := sqDiff
    images := [constMat 1 1 CV_32FC1 0, constMat 1 1 CV_32FC1 1, constMat 1 1 CV_32FC1 2]
    masks := [constMat 1 1 CV_8UC1 0, constMat 1 1 CV_8UC1 255, constMat 1 1 CV_8UC1 255]
    labelings := [Mat.empty, Mat.empty, Mat.empty]
    distances := [0, 0, 0]
    height := 1
    width := 1
    type := CV_32FC1
    channels := 1
    lsize := 3
    multiscale := true }

/-- One candidate image of 23171 rows and 23171 columns with its mask true everywhere,
optimized at full resolution. -/
def pmHuge : Photomontage ℚ :=
  { norm2 := sqDiff
    images := [constMat 23171 23171 CV_32FC1 0]
    masks := [constMat 23171 23171 CV_8UC1 255]
    labelings := [Mat.empty]
    distances := [0]
    height := 23171
    width := 23171
    type := CV_32FC1
    channels := 1
    lsize := 1
    multiscale := false }

/-! ## Lemmas about the embedding -/

theorem zeroLabeling_valid {Tp : Type} (pm : Photomontage Tp) (rows cols : Nat)
    (hl : 1 ≤ pm.lsize) : pm.ValidLabels (zeroLabeling rows cols) := by
  intro i j _ _
  simp only [zeroLabeling, Mat.filled]
  exact ⟨le_refl _, by exact_mod_cast hl⟩

theorem pmDiag_wellSized : pmDiag.WellSized := ⟨rfl, rfl, rfl⟩

theorem pmDiag_imagesSized : pmDiag.ImagesSized := by
  intro im him
  simp only [pmDiag, List.mem_cons, List.mem_singleton, List.not_mem_nil, or_false] at him
  rcases him with rfl | rfl | rfl <;> exact ⟨rfl, rfl⟩

theorem foldlM_none_of_mem {α β : Type} (f : β → α → Option β) :
    ∀ (l : List α) (b : β), (∃ a ∈ l, ∀ b1, f b1 a = none) → l.foldlM f b = none := by
  intro l
  induction l with
  | nil => intro b h; obtain ⟨a, ha, _⟩ := h; cases ha
  | cons x xs ih =>
    intro b h
    obtain ⟨a, ha, hf⟩ := h
    rw [List.foldlM_cons]
    cases hx : f b x with
    | none => rfl
    | some b1 =>
      simp only [Option.bind_eq_bind, Option.some_bind]
      rcases List.mem_cons.mp ha with rfl | hmem
      · rw [hf b] at hx; cases hx
      · exact ih b1 ⟨a, hmem, hf⟩

theorem foldlM_range_succ {β : Type} (f : β → Nat → Option β) (n : Nat) (b : β) :
    (List.range (n + 1)).foldlM f b = ((List.range n).foldlM f b).bind (fun b1 => f b1 n) := by
  rw [List.range_succ, List.foldlM_append]
  cases h : (List.range n).foldlM f b with
  | none => rfl
  | some b1 => simp [List.foldlM_cons]

theorem foldlM_inv {α β : Type} (f : β → α → Option β) (P : β → Prop) :
    ∀ (l : List α) (b b2 : β), (∀ a ∈ l, ∀ b0 b1, P b0 → f b0 a = some b1 → P b1) → P b →
      l.foldlM f b = some b2 → P b2 := by
  intro l
  induction l with
  | nil => intro b b2 _ hb h; simp at h; exact h ▸ hb
  | cons x xs ih =>
    intro b b2 hstep hb h
    rw [List.foldlM_cons] at h
    cases hx : f b x with
    | none => rw [hx] at h; cases h
    | some b1 =>
      rw [hx] at h
      simp only [Option.bind_eq_bind, Option.some_bind] at h
      exact ih b1 b2 (fun a ha => hstep a (List.mem_cons_of_mem _ ha))
        (hstep x (List.mem_cons_self _ _) b b1 hb hx) h

theorem terminalStep_spec {Tp : Type} (pm : Photomontage Tp) (x : Mat Int) (alpha : Int)
    (i j : Nat) (g g1 : GCGraph) (h : pm.terminalStep x alpha i j g = some g1) :
    g1 = ⟨g.vtxCapacity, g.edgeCapacity, g.vtxCount + 1,
          g.ops ++ [GCOp.addVtx, pm.terminalOp x alpha (g.vtxCount : Int) i j]⟩ ∧
      (pm.maskAt alpha i j).isSome ∧ (pm.labelMask x i j).isSome := by
  unfold Photomontage.terminalStep at h
  simp only [Option.bind_eq_bind, Option.pure_def] at h
  cases h1 : vecAt pm.masks alpha with
  | none => simp [h1] at h
  | some mAlpha =>
    cases h2 : mAlpha.atRC i j with
    | none => simp [h1, h2] at h
    | some mA =>
      cases h3 : x.atRC i j with
      | none => simp [h1, h2, h3] at h
      | some l =>
        cases h4 : vecAt pm.masks l with
        | none => simp [h1, h2, h3, h4] at h
        | some mLab =>
          cases h5 : mLab.atRC i j with
          | none => simp [h1, h2, h3, h4, h5] at h
          | some mL =>
            simp only [h1, h2, h3, h4, h5, Option.some_bind, Option.some.injEq] at h
            subst h
            simp [Photomontage.terminalOp, Photomontage.maskAt, Photomontage.labelMask, h1, h2, h3,
              h4, h5, GCGraph.addVtx, GCGraph.addTermWeights]

theorem terminalRow_spec {Tp : Type} (pm : Photomontage Tp) (x : Mat Int) (alpha : Int)
    (i : Nat) (g : GCGraph) :
    ∀ (n : Nat) (g1 : GCGraph),
      (List.range n).foldlM (fun g0 j => pm.terminalStep x alpha i j g0) g = some g1 →
      g1 = ⟨g.vtxCapacity, g.edgeCapacity, g.vtxCount + n,
            g.ops ++ pm.terminalRowOps x alpha g.vtxCount i n⟩ ∧
        ∀ j, j < n → (pm.maskAt alpha i j).isSome ∧ (pm.labelMask x i j).isSome := by
  intro n
  induction n with
  | zero =>
    intro g1 h
    simp at h
    subst h
    simp [Photomontage.terminalRowOps]
  | succ n ih =>
    intro g1 h
    rw [foldlM_range_succ] at h
    cases h0 : (List.range n).foldlM (fun g0 j => pm.terminalStep x alpha i j g0) g with
    | none => rw [h0] at h; cases h
    | some g0 =>
      rw [h0] at h
      simp only [Option.some_bind] at h
      obtain ⟨e0, hr0⟩ := ih g0 h0
      obtain ⟨e1, hm, hl⟩ := terminalStep_spec pm x alpha i n g0 g1 h
      constructor
      · rw [e1, e0]
        simp [Photomontage.terminalRowOps, List.range_succ, List.flatMap_append, Nat.add_assoc]
      · intro j hj
        rcases Nat.lt_succ_iff_lt_or_eq.mp hj with hlt | rfl
        · exact hr0 j hlt
        · exact ⟨hm, hl⟩

theorem terminalLinks_spec_aux {Tp : Type} (pm : Photomontage Tp) (x : Mat Int) (alpha : Int)
    (g : GCGraph) :
    ∀ (m : Nat) (g1 : GCGraph),
      (List.range m).foldlM
        (fun g0 i => (List.range pm.width).foldlM (fun g2 j => pm.terminalStep x alpha i j g2) g0)
        g = some g1 →
      g1 = ⟨g.vtxCapacity, g.edgeCapacity, g.vtxCount + m * pm.width,
            g.ops ++ pm.terminalOps x alpha g.vtxCount m⟩ ∧
        ∀ i j, i < m → j < pm.width →
          (pm.maskAt alpha i j).isSome ∧ (pm.labelMask x i j).isSome := by
  intro m
  induction m with
  | zero =>
    intro g1 h
    simp at h
    subst h
    simp [Photomontage.terminalOps]
  | succ m ih =>
    intro g1 h
    rw [foldlM_range_succ] at h
    cases h0 : (List.range m).foldlM
        (fun g0 i => (List.range pm.width).foldlM (fun g2 j => pm.terminalStep x alpha i j g2) g0)
        g with
    | none => rw [h0] at h; cases h
    | some g0 =>
      rw [h0] at h
      simp only [Option.some_bind] at h
      obtain ⟨e0, hr0⟩ := ih g0 h0
      obtain ⟨e1, hr1⟩ := terminalRow_spec pm x alpha m g0 pm.width g1 h
      constructor
      · rw [e1, e0]
        simp [Photomontage.terminalOps, List.range_succ, List.flatMap_append, Nat.add_assoc,
          Nat.succ_mul]
      · intro i j hi hj
        rcases Nat.lt_succ_iff_lt_or_eq.mp hi with hlt | rfl
        · exact hr0 i j hlt hj
        · exact hr1 j hj

theorem terminalLinks_spec {Tp : Type} (pm : Photomontage Tp) (x : Mat Int) (alpha : Int)
    (g g1 : GCGraph) (h : pm.terminalLinks x alpha g = some g1) :
    g1 = ⟨g.vtxCapacity, g.edgeCapacity, g.vtxCount + pm.height * pm.width,
          g.ops ++ pm.terminalOps x alpha g.vtxCount pm.height⟩ ∧
      ∀ i j, i < pm.height → j < pm.width →
        (pm.maskAt alpha i j).isSome ∧ (pm.labelMask x i j).isSome :=
  terminalLinks_spec_aux pm x alpha g pm.height g1 h

/-- What `setWeights` appends to the log of the graph. -/
theorem setWeights_spec {Tp : Type} (pm : Photomontage Tp) (g g1 : GCGraph) (pA pB : Point)
    (lA lB lX : Int) (h : pm.setWeights g pA pB lA lB lX = some g1) :
    ∃ extra : List GCOp, g1.ops = g.ops ++ extra ∧ g1.vtxCapacity = g.vtxCapacity ∧
      g1.edgeCapacity = g.edgeCapacity ∧ g.vtxCount ≤ g1.vtxCount ∧
      ((∀ a b, 0 ≤ pm.norm2 a b) → ∀ op ∈ extra, ∀ S, 0 ≤ GCOp.cut S op) := by
  unfold Photomontage.setWeights at h
  split at h
  · simp only [Option.bind_eq_bind, Option.pure_def, Option.bind_eq_some] at h
    obtain ⟨imA, _, imX, _, a1, _, a2, _, x1, _, x2, _, h⟩ := h
    simp only [Option.some.injEq] at h
    subst h
    refine ⟨[GCOp.addEdges (pm.nodeId pA) (pm.nodeId pB) (pm.dist a1 a2 x1 x2) (pm.dist a1 a2 x1 x2)],
      rfl, rfl, rfl, le_refl _, ?_⟩
    intro hn op hop S
    simp only [List.mem_singleton] at hop
    subst hop
    have hd : 0 ≤ pm.dist a1 a2 x1 x2 := add_nonneg (hn _ _) (hn _ _)
    simp only [GCOp.cut]
    split <;> split <;> linarith
  · simp only [Option.bind_eq_bind, Option.pure_def, Option.bind_eq_some] at h
    obtain ⟨imA, _, imB, _, imX, _, a1, _, a2, _, b1, _, b2, _, x1, _, x2, _, h⟩ := h
    simp only [Option.some.injEq] at h
    subst h
    refine ⟨[GCOp.addVtx, GCOp.addTermWeights (g.vtxCount : Int) 0 (pm.dist a1 a2 b1 b2),
      GCOp.addEdges (pm.nodeId pA) (g.vtxCount : Int) (pm.dist a1 a2 x1 x2) (pm.dist a1 a2 x1 x2),
      GCOp.addEdges (g.vtxCount : Int) (pm.nodeId pB) (pm.dist x1 x2 b1 b2) (pm.dist x1 x2 b1 b2)],
      ?_, rfl, rfl, ?_, ?_⟩
    · simp [GCGraph.addEdges, GCGraph.addTermWeights, GCGraph.addVtx]
    · simp [GCGraph.addEdges, GCGraph.addTermWeights, GCGraph.addVtx]
    · intro hn op hop S
      have hd : ∀ a b c d, 0 ≤ pm.dist a b c d := fun a b c d => add_nonneg (hn _ _) (hn _ _)
      simp only [List.mem_cons, List.mem_singleton, List.not_mem_nil, or_false] at hop
      rcases hop with rfl | rfl | rfl | rfl
      · simp [GCOp.cut]
      · simp only [GCOp.cut]; split
        · exact hd _ _ _ _
        · exact le_refl _
      · have := hd a1 a2 x1 x2
        simp only [GCOp.cut]
        split <;> split <;> linarith
      · have := hd x1 x2 b1 b2
        simp only [GCOp.cut]
        split <;> split <;> linarith

/-- What the neighbour pass appends to the log of the graph. -/
theorem neighborLinks_spec {Tp : Type} (pm : Photomontage Tp) (x : Mat Int) (alpha : Int)
    (g g1 : GCGraph) (h : pm.neighborLinks x alpha g = some g1) :
    ∃ extra : List GCOp, g1.ops = g.ops ++ extra ∧ g1.vtxCapacity = g.vtxCapacity ∧
      g1.edgeCapacity = g.edgeCapacity ∧ g.vtxCount ≤ g1.vtxCount ∧
      ((∀ a b, 0 ≤ pm.norm2 a b) → ∀ op ∈ extra, ∀ S, 0 ≤ GCOp.cut S op) := by
  refine foldlM_inv (pm.neighborStep x alpha)
    (fun g1 => ∃ extra : List GCOp, g1.ops = g.ops ++ extra ∧ g1.vtxCapacity = g.vtxCapacity ∧
      g1.edgeCapacity = g.edgeCapacity ∧ g.vtxCount ≤ g1.vtxCount ∧
      ((∀ a b, 0 ≤ pm.norm2 a b) → ∀ op ∈ extra, ∀ S, 0 ≤ GCOp.cut S op))
    (neighborCalls pm.height pm.width) g g1 ?_ ⟨[], by simp, rfl, rfl, le_refl _, by simp⟩ h
  intro c _ b0 b1 hb0 hstep
  obtain ⟨e0, ho, hc, he, hv, hn⟩ := hb0
  unfold Photomontage.neighborStep at hstep
  simp only [Option.bind_eq_bind, Option.bind_eq_some] at hstep
  obtain ⟨lA, _, lB, _, hsw⟩ := hstep
  obtain ⟨e1, ho1, hc1, he1, hv1, hn1⟩ := setWeights_spec pm b0 b1 c.pA c.pB lA lB alpha hsw
  refine ⟨e0 ++ e1, by rw [ho1, ho, List.append_assoc], hc1.trans hc, he1.trans he,
    le_trans hv hv1, ?_⟩
  intro hnn op hop S
  rcases List.mem_append.mp hop with h0 | h1
  · exact hn hnn op h0 S
  · exact hn1 hnn op h1 S

theorem atRC_natCast {α : Type} (m : Mat α) (i j : Nat) :
    m.atRC i j = if i < m.rows ∧ j < m.cols then some (m.data i j) else none := by
  unfold Mat.atRC
  simp

theorem atRC_some_of_lt {α : Type} (m : Mat α) (i j : Nat) (hi : i < m.rows) (hj : j < m.cols) :
    m.atRC i j = some (m.data i j) := by
  rw [atRC_natCast]; simp [hi, hj]

theorem atRC_eq_data_of_isSome {α : Type} (m : Mat α) (i j : Nat) (h : (m.atRC i j).isSome) :
    m.atRC i j = some (m.data i j) := by
  rw [atRC_natCast] at h ⊢
  split
  · rfl
  · rename_i hn; simp [hn] at h

theorem sum_map_flatMap {α β : Type} (f : α → List β) (c : β → ℚ) (l : List α) :
    ((l.flatMap f).map c).sum = (l.map fun a => ((f a).map c).sum).sum := by
  induction l with
  | nil => simp
  | cons a l ih => simp [List.flatMap_cons, List.map_append, List.sum_append, ih]

theorem terminalOps_cut {Tp : Type} (pm : Photomontage Tp) (x : Mat Int) (alpha : Int)
    (S : Int → Bool)
    (hr : ∀ i j, i < pm.height → j < pm.width → (pm.labelMask x i j).isSome) :
    ((pm.terminalOps x alpha 0 pm.height).map (GCOp.cut S)).sum =
      gridSum pm.height pm.width (pm.maskPenalty (pm.expansionLabeling x alpha S)) := by
  unfold Photomontage.terminalOps Photomontage.terminalRowOps gridSum
  rw [sum_map_flatMap]
  congr 1
  apply List.map_congr_left
  intro i hi
  rw [sum_map_flatMap]
  congr 1
  apply List.map_congr_left
  intro j hj
  have hi1 : i < pm.height := List.mem_range.mp hi
  have hj1 : j < pm.width := List.mem_range.mp hj
  have hx : (x.atRC i j).isSome := by
    have := hr i j hi1 hj1
    unfold Photomontage.labelMask at this
    cases h : x.atRC i j with
    | none => rw [h] at this; simp at this
    | some l => simp
  have hx1 := atRC_eq_data_of_isSome x i j hx
  have hL : (pm.expansionLabeling x alpha S).atRC i j =
      some (pm.decodedLabel x alpha S i j) :=
    atRC_some_of_lt (pm.expansionLabeling x alpha S) i j hi1 hj1
  simp only [List.map_cons, List.map_nil, List.sum_cons, List.sum_nil, GCOp.cut,
    Photomontage.terminalOp, Photomontage.maskPenalty, zero_add, add_zero]
  unfold Photomontage.labelMask
  rw [hL, hx1]
  simp only [Option.some_bind, Photomontage.decodedLabel]
  have hid : (((i * pm.width + j : Nat)) : Int) = (i : Int) * pm.width + j := by
    push_cast; ring
  rw [hid]
  cases hS : S ((i : Int) * pm.width + j) <;> simp

theorem sameInputs_refl {Tp : Type} (pm : Photomontage Tp) : pm.SameInputs pm :=
  ⟨rfl, rfl, rfl, rfl, rfl, rfl, rfl, rfl, rfl⟩

theorem sameInputs_trans {Tp : Type} {pm pm1 pm2 : Photomontage Tp} (h1 : pm.SameInputs pm1)
    (h2 : pm1.SameInputs pm2) : pm.SameInputs pm2 := by
  obtain ⟨a1, a2, a3, a4, a5, a6, a7, a8, a9⟩ := h1
  obtain ⟨b1, b2, b3, b4, b5, b6, b7, b8, b9⟩ := h2
  exact ⟨b1.trans a1, b2.trans a2, b3.trans a3, b4.trans a4, b5.trans a5, b6.trans a6,
    b7.trans a7, b8.trans a8, b9.trans a9⟩

theorem buildGraph_congr {Tp : Type} {pm pm1 : Photomontage Tp} (h : pm.SameInputs pm1)
    (x : Mat Int) (alpha : Int) : pm1.buildGraph x alpha = pm.buildGraph x alpha := by
  obtain ⟨a1, a2, a3, a4, a5, a6, a7, a8, a9⟩ := h
  cases pm; cases pm1
  simp only at a1 a2 a3 a4 a5 a6 a7 a8 a9
  subst a1 a2 a3 a4 a5 a6 a7 a8 a9
  rfl

theorem expansionLabeling_congr {Tp : Type} {pm pm1 : Photomontage Tp} (h : pm.SameInputs pm1)
    (x : Mat Int) (alpha : Int) (S : Int → Bool) :
    pm1.expansionLabeling x alpha S = pm.expansionLabeling x alpha S := by
  obtain ⟨a1, a2, a3, a4, a5, a6, a7, a8, a9⟩ := h
  cases pm; cases pm1
  simp only at a1 a2 a3 a4 a5 a6 a7 a8 a9
  subst a1 a2 a3 a4 a5 a6 a7 a8 a9
  rfl

theorem buildGraph_spec {Tp : Type} (pm : Photomontage Tp) (x : Mat Int) (alpha : Int)
    (g : GCGraph) (h : pm.buildGraph x alpha = some g) :
    ∃ links : List GCOp, g.ops = pm.terminalOps x alpha 0 pm.height ++ links ∧
      pm.height * pm.width ≤ g.vtxCount ∧
      (∀ i j, i < pm.height → j < pm.width →
        (pm.maskAt alpha i j).isSome ∧ (pm.labelMask x i j).isSome) ∧
      ((∀ a b, 0 ≤ pm.norm2 a b) → ∀ op ∈ links, ∀ S, 0 ≤ GCOp.cut S op) := by
  unfold Photomontage.buildGraph at h
  simp only [Option.bind_eq_bind, Option.bind_eq_some] at h
  obtain ⟨g1, ht, hn⟩ := h
  obtain ⟨e1, hr⟩ := terminalLinks_spec pm x alpha _ g1 ht
  obtain ⟨links, ho, _, _, hv, hnn⟩ := neighborLinks_spec pm x alpha g1 g hn
  refine ⟨links, ?_, ?_, hr, hnn⟩
  · rw [ho, e1]; simp [GCGraph.create]
  · rw [e1] at hv; simpa [GCGraph.create] using hv

theorem singleExpansion_spec {Tp : Type} (pm : Photomontage Tp) (sv : Solver) (x : Mat Int)
    (alpha : Int) (r : ℚ × Photomontage Tp) (h : pm.singleExpansion sv x alpha = some r) :
    ∃ g, pm.buildGraph x alpha = some g ∧ r.1 = sv.maxFlow g ∧ 0 ≤ alpha ∧
      alpha.toNat < pm.labelings.length ∧
      r.2 = pm.withLabeling alpha (pm.expansionLabeling x alpha (sv.inSourceSegment g)) := by
  unfold Photomontage.singleExpansion at h
  simp only [Option.bind_eq_bind, Option.bind_eq_some, Option.pure_def] at h
  obtain ⟨g, hg, labs, hset, hr⟩ := h
  unfold vecSet at hset
  split at hset
  · rename_i hc
    simp only [Option.some.injEq] at hset hr
    subst hset hr
    exact ⟨g, hg, rfl, hc.1, hc.2, rfl⟩
  · cases hset

theorem get?_set_self {α : Type} (l : List α) (n : Nat) (a : α) (h : n < l.length) :
    (l.set n a).get? n = some a := by
  simp [List.get?_eq_getElem?, List.getElem?_set, h]

theorem get?_set_other {α : Type} (l : List α) (n i : Nat) (a : α) (h : n ≠ i) :
    (l.set n a).get? i = l.get? i := by
  simp [List.get?_eq_getElem?, List.getElem?_set, h]

theorem expansionStep_spec {Tp : Type} (sv : Solver) (x : Mat Int) (pm pm1 : Photomontage Tp)
    (n : Nat) (h : Photomontage.expansionStep sv x pm n = some pm1) :
    ∃ g, pm.buildGraph x n = some g ∧ n < pm.labelings.length ∧ n < pm.distances.length ∧
      pm.SameInputs pm1 ∧
      pm1.labelings = pm.labelings.set n (pm.expansionLabeling x n (sv.inSourceSegment g)) ∧
      pm1.distances = pm.distances.set n (sv.maxFlow g) := by
  unfold Photomontage.expansionStep at h
  simp only [Option.bind_eq_bind, Option.bind_eq_some, Option.pure_def] at h
  obtain ⟨r, hse, ds, hset, hr⟩ := h
  obtain ⟨g, hg, hv, _, hlen, hr2⟩ := singleExpansion_spec pm sv x n r hse
  unfold vecSet at hset
  split at hset
  · rename_i hc
    simp only [Option.some.injEq] at hset hr
    subst hset hr
    rw [hr2] at hc ⊢
    simp only [Int.toNat_ofNat, Photomontage.withLabeling] at hc hlen ⊢
    exact ⟨g, hg, hlen, hc.2, ⟨rfl, rfl, rfl, rfl, rfl, rfl, rfl, rfl, rfl⟩, rfl, by rw [hv]⟩
  · cases hset

theorem expandAll_prefix {Tp : Type} (pm : Photomontage Tp) (sv : Solver) (x : Mat Int) :
    ∀ (n : Nat) (pm1 : Photomontage Tp),
      (List.range n).foldlM (Photomontage.expansionStep sv x) pm = some pm1 →
      pm.SameInputs pm1 ∧ pm1.labelings.length = pm.labelings.length ∧
        pm1.distances.length = pm.distances.length ∧
        (∀ i, i < n → ∃ g, pm.buildGraph x i = some g ∧
          pm1.distances.get? i = some (sv.maxFlow g) ∧
          pm1.labelings.get? i = some (pm.expansionLabeling x i (sv.inSourceSegment g))) ∧
        (∀ i, n ≤ i → pm1.distances.get? i = pm.distances.get? i ∧
          pm1.labelings.get? i = pm.labelings.get? i) := by
  intro n
  induction n with
  | zero =>
    intro pm1 h
    simp at h
    subst h
    exact ⟨sameInputs_refl _, rfl, rfl, fun i hi => absurd hi (Nat.not_lt_zero i),
      fun i _ => ⟨rfl, rfl⟩⟩
  | succ n ih =>
    intro pm1 h
    rw [foldlM_range_succ] at h
    cases h0 : (List.range n).foldlM (Photomontage.expansionStep sv x) pm with
    | none => rw [h0] at h; cases h
    | some pm0 =>
      rw [h0] at h
      simp only [Option.some_bind] at h
      obtain ⟨hs0, hl0, hd0, hdone, hrest⟩ := ih pm0 h0
      obtain ⟨g, hg, hnl, hnd, hs1, hlab, hdist⟩ := expansionStep_spec sv x pm0 pm1 n h
      refine ⟨sameInputs_trans hs0 hs1, ?_, ?_, ?_, ?_⟩
      · rw [hlab, List.length_set, hl0]
      · rw [hdist, List.length_set, hd0]
      · intro i hi
        rcases Nat.lt_succ_iff_lt_or_eq.mp hi with hlt | rfl
        · obtain ⟨gi, hgi, hdi, hli⟩ := hdone i hlt
          refine ⟨gi, hgi, ?_, ?_⟩
          · rw [hdist, get?_set_other _ _ _ _ (Nat.ne_of_gt hlt)]; exact hdi
          · rw [hlab, get?_set_other _ _ _ _ (Nat.ne_of_gt hlt)]; exact hli
        · refine ⟨g, ?_, ?_, ?_⟩
          · rw [← buildGraph_congr hs0]; exact hg
          · rw [hdist]; exact get?_set_self _ _ _ hnd
          · rw [hlab, expansionLabeling_congr hs0]; exact get?_set_self _ _ _ hnl
      · intro i hi
        have hne : n ≠ i := by omega
        obtain ⟨hd, hl⟩ := hrest i (by omega)
        constructor
        · rw [hdist, get?_set_other _ _ _ _ hne]; exact hd
        · rw [hlab, get?_set_other _ _ _ _ hne]; exact hl

theorem expandAll_spec {Tp : Type} (pm pm1 : Photomontage Tp) (sv : Solver) (x : Mat Int)
    (h : pm.expandAll sv x = some pm1) :
    pm.SameInputs pm1 ∧ pm1.labelings.length = pm.labelings.length ∧
      pm1.distances.length = pm.distances.length ∧
      (∀ i, i < pm.lsize → ∃ g, pm.buildGraph x i = some g ∧
        pm1.distances.get? i = some (sv.maxFlow g) ∧
        pm1.labelings.get? i = some (pm.expansionLabeling x i (sv.inSourceSegment g))) ∧
      (∀ i, pm.lsize ≤ i → pm1.distances.get? i = pm.distances.get? i ∧
        pm1.labelings.get? i = pm.labelings.get? i) :=
  expandAll_prefix pm sv x pm.lsize pm1 h

theorem minIdxFrom_lt : ∀ (l : List ℚ) (k : Nat) (v : ℚ) (best : Nat), best < k →
    minIdxFrom l k v best < k + l.length := by
  intro l
  induction l with
  | nil => intro k v best h; simpa [minIdxFrom] using h
  | cons a rest ih =>
    intro k v best h
    unfold minIdxFrom
    split
    · have := ih (k + 1) a k (Nat.lt_succ_self k)
      simp only [List.length_cons]; omega
    · have := ih (k + 1) v best (Nat.lt_succ_of_lt h)
      simp only [List.length_cons]; omega

theorem min_idx_lt (l : List ℚ) (h : l ≠ []) : min_idx l < l.length := by
  cases l with
  | nil => exact absurd rfl h
  | cons a rest =>
    have := minIdxFrom_lt rest 1 a 0 Nat.zero_lt_one
    simp only [min_idx, List.length_cons]; omega

theorem gdRound_spec {Tp : Type} (sv : Solver) (s : GDState Tp) (res : GDRound Tp)
    (h : gdRound sv s = some res) :
    ∃ pm1 minValue, s.pm.expandAll sv s.x_n = some pm1 ∧
      pm1.distances.get? (min_idx pm1.distances) = some minValue ∧
      ((minValue < (49 / 50 : ℚ) * s.optValue ∧
          ∃ src, pm1.labelings.get? (min_idx pm1.distances) = some src ∧
            res = GDRound.adopted (s.copyTo pm1 minValue src)) ∨
        (¬ minValue < (49 / 50 : ℚ) * s.optValue ∧
          res = GDRound.stopped { s with pm := pm1 })) := by
  unfold gdRound at h
  simp only [Option.bind_eq_bind, Option.bind_eq_some, Option.pure_def] at h
  obtain ⟨pm1, he, minValue, hmin, hres⟩ := h
  refine ⟨pm1, minValue, he, hmin, ?_⟩
  split at hres
  · rename_i hlt
    simp only [Option.bind_eq_some, Option.some.injEq] at hres
    obtain ⟨src, hsrc, hr⟩ := hres
    exact Or.inl ⟨hlt, src, hsrc, hr.symm⟩
  · rename_i hnlt
    simp only [Option.some.injEq] at hres
    exact Or.inr ⟨hnlt, hres.symm⟩

theorem gdLoop_inv {Tp : Type} (sv : Solver) (P Q : GDState Tp → Prop)
    (hadopt : ∀ s s1, P s → gdRound sv s = some (GDRound.adopted s1) → P s1)
    (hstop : ∀ s s1, P s → gdRound sv s = some (GDRound.stopped s1) → Q s1) :
    ∀ (fuel : Nat) (s : GDState Tp) (r : GDState Tp × List ℚ), P s →
      gdLoop sv fuel s = some r → Q r.1 := by
  intro fuel
  induction fuel with
  | zero => intro s r _ h; simp [gdLoop] at h
  | succ fuel ih =>
    intro s r hP h
    unfold gdLoop at h
    cases hr : gdRound sv s with
    | none => rw [hr] at h; simp at h
    | some res =>
      rw [hr] at h
      cases res with
      | stopped s1 =>
        simp only [Option.some.injEq] at h
        subst h
        exact hstop s s1 hP hr
      | adopted s1 =>
        simp only at h
        cases hl : gdLoop sv fuel s1 with
        | none => rw [hl] at h; simp at h
        | some r1 =>
          rw [hl] at h
          simp only [Option.some.injEq] at h
          subst h
          exact ih s1 r1 (hadopt s s1 hP hr) hl

theorem gdRound_adopted_spec {Tp : Type} (sv : Solver) (pm0 : Photomontage Tp)
    (s s1 : GDState Tp) (hI : s.Inv pm0) (h : gdRound sv s = some (GDRound.adopted s1)) :
    ∃ (alpha : Nat) (g : GCGraph), alpha < pm0.lsize ∧
      pm0.buildGraph s.x_n alpha = some g ∧
      s1.x_n = pm0.expansionLabeling s.x_n alpha (sv.inSourceSegment g) ∧
      s1.optValue = sv.maxFlow g ∧ sv.maxFlow g < (49 / 50 : ℚ) * s.optValue ∧
      (∀ i, i < pm0.lsize → ∃ gi, pm0.buildGraph s.x_n i = some gi ∧
        s1.pm.distances.get? i = some (sv.maxFlow gi)) ∧
      s1.img = s1.x_n ∧ s1.attached = true ∧ pm0.SameInputs s1.pm ∧
      s1.pm.labelings.length = pm0.lsize ∧ s1.pm.distances.length = pm0.lsize := by
  obtain ⟨hs, hl, hd, hatt, himg, hrows, hcols, htype, hvalid⟩ := hI
  obtain ⟨pm1, minValue, he, hmin, hcase⟩ := gdRound_spec sv s _ h
  obtain ⟨hs1, hl1, hd1, hdone, _⟩ := expandAll_spec s.pm pm1 sv s.x_n he
  have hls : s.pm.lsize = pm0.lsize := hs.2.2.2.2.2.2.2.1
  rcases hcase with ⟨hlt, src, hsrc, hres⟩ | ⟨_, hres⟩
  · have hidx : min_idx pm1.distances < pm0.lsize := by
      have hne : pm1.distances ≠ [] := by
        intro hnil; rw [hnil] at hmin; simp [min_idx] at hmin
      have := min_idx_lt pm1.distances hne
      rw [hd1, hd] at this; exact this
    obtain ⟨g, hg, hdi, hli⟩ := hdone (min_idx pm1.distances) (by rw [hls]; exact hidx)
    rw [hmin] at hdi
    rw [hsrc] at hli
    simp only [Option.some.injEq] at hdi hli
    rw [buildGraph_congr hs] at hg
    rw [expansionLabeling_congr hs] at hli
    have hs1eq : s1 = s.copyTo pm1 minValue src := by
      simp only [Option.some.injEq, GDRound.adopted.injEq] at hres; exact hres
    have hin : (s.x_n.rows = src.rows ∧ s.x_n.cols = src.cols) ∧ s.x_n.type = src.type := by
      rw [hli]
      simp [Photomontage.expansionLabeling, Mat.filled, hrows, hcols, htype]
    refine ⟨min_idx pm1.distances, g, hidx, hg, ?_, ?_, ?_, ?_, ?_, ?_, ?_, ?_, ?_⟩
    · rw [hs1eq]; simp [GDState.copyTo, hli]
    · rw [hs1eq]; simp [GDState.copyTo, hdi]
    · rw [← hdi]; exact hlt
    · intro i hi
      obtain ⟨gi, hgi, hdi2, _⟩ := hdone i (by rw [hls]; exact hi)
      rw [buildGraph_congr hs] at hgi
      exact ⟨gi, hgi, by rw [hs1eq]; simpa [GDState.copyTo] using hdi2⟩
    · rw [hs1eq]; simp [GDState.copyTo, hatt, hin]
    · rw [hs1eq]; simp [GDState.copyTo, hatt, hin]
    · rw [hs1eq]; simpa [GDState.copyTo] using sameInputs_trans hs hs1
    · rw [hs1eq]; simpa [GDState.copyTo] using hl1.trans hl
    · rw [hs1eq]; simpa [GDState.copyTo] using hd1.trans hd
  · simp at hres

theorem gdRound_stopped_spec {Tp : Type} (sv : Solver) (pm0 : Photomontage Tp)
    (s s1 : GDState Tp) (hI : s.Inv pm0) (h : gdRound sv s = some (GDRound.stopped s1)) :
    s1.Inv pm0 ∧ s1.x_n = s.x_n ∧ s1.optValue = s.optValue := by
  obtain ⟨hs, hl, hd, hatt, himg, hrows, hcols, htype, hvalid⟩ := hI
  obtain ⟨pm1, minValue, he, hmin, hcase⟩ := gdRound_spec sv s _ h
  obtain ⟨hs1, hl1, hd1, _, _⟩ := expandAll_spec s.pm pm1 sv s.x_n he
  rcases hcase with ⟨_, src, _, hres⟩ | ⟨_, hres⟩
  · simp at hres
  · simp only [Option.some.injEq, GDRound.stopped.injEq] at hres
    subst hres
    exact ⟨⟨sameInputs_trans hs hs1, hl1.trans hl, hd1.trans hd, hatt, himg, hrows, hcols,
      htype, hvalid⟩, rfl, rfl⟩

theorem expansionLabeling_valid {Tp : Type} (pm : Photomontage Tp) (x : Mat Int) (alpha : Nat)
    (S : Int → Bool) (hx : pm.ValidLabels x) (ha : alpha < pm.lsize) :
    pm.ValidLabels (pm.expansionLabeling x alpha S) := by
  intro i j hi hj
  simp only [Photomontage.expansionLabeling, Mat.filled, Photomontage.decodedLabel]
  split
  · exact hx i j hi hj
  · exact ⟨Int.ofNat_nonneg _, by exact_mod_cast ha⟩

theorem gdRound_adopted_inv {Tp : Type} (sv : Solver) (pm0 : Photomontage Tp)
    (s s1 : GDState Tp) (hI : s.Inv pm0) (h : gdRound sv s = some (GDRound.adopted s1)) :
    s1.Inv pm0 := by
  obtain ⟨alpha, g, ha, _, hx, _, _, _, himg, hatt, hs, hl, hd⟩ :=
    gdRound_adopted_spec sv pm0 s s1 hI h
  refine ⟨hs, hl, hd, hatt, himg, ?_, ?_, ?_, ?_⟩
  · rw [hx]; rfl
  · rw [hx]; rfl
  · rw [hx]; rfl
  · rw [hx]; exact expansionLabeling_valid pm0 s.x_n alpha _ hI.2.2.2.2.2.2.2.2 ha

theorem gdLoop_keeps_inv {Tp : Type} (sv : Solver) (pm0 : Photomontage Tp) (fuel : Nat)
    (s : GDState Tp) (r : GDState Tp × List ℚ) (hI : s.Inv pm0)
    (h : gdLoop sv fuel s = some r) : r.1.Inv pm0 :=
  gdLoop_inv sv (fun s => s.Inv pm0) (fun s => s.Inv pm0)
    (fun s s1 hP hr => gdRound_adopted_inv sv pm0 s s1 hP hr)
    (fun s s1 hP hr => (gdRound_stopped_spec sv pm0 s s1 hP hr).1) fuel s r hI h

theorem vecAt_mem {α : Type} (v : List α) (i : Int) (a : α) (h : vecAt v i = some a) : a ∈ v := by
  unfold vecAt at h
  split at h
  · exact List.get?_mem h
  · cases h

theorem setWeights_none_of_pB {Tp : Type} (pm : Photomontage Tp) (g : GCGraph) (pA pB : Point)
    (lA lB lX : Int) (hB : ∀ im ∈ pm.images, im.atPt pB = none) :
    pm.setWeights g pA pB lA lB lX = none := by
  unfold Photomontage.setWeights
  cases hA : vecAt pm.images lA with
  | none => split <;> simp
  | some imA =>
    have h2 : imA.atPt pB = none := hB imA (vecAt_mem _ _ _ hA)
    split
    · cases hX : vecAt pm.images lX with
      | none => simp
      | some imX =>
        cases h1 : imA.atPt pA with
        | none => simp [h1]
        | some a1 => simp [h2]
    · cases hBm : vecAt pm.images lB with
      | none => simp
      | some imB =>
        cases hX : vecAt pm.images lX with
        | none => simp
        | some imX =>
          cases h1 : imA.atPt pA with
          | none => simp [h1]
          | some a1 => simp [h2]

theorem neighborStep_none_of_pB {Tp : Type} (pm : Photomontage Tp) (x : Mat Int) (alpha : Int)
    (c : NeighborCall) (hB : ∀ im ∈ pm.images, im.atPt c.pB = none) (g : GCGraph) :
    pm.neighborStep x alpha g c = none := by
  unfold Photomontage.neighborStep
  cases h1 : x.atRC c.readA.1 c.readA.2 with
  | none => simp
  | some lA =>
    cases h2 : x.atRC c.readB.1 c.readB.2 with
    | none => simp
    | some lB => simp [setWeights_none_of_pB pm g c.pA c.pB lA lB alpha hB]

theorem corner_mem_neighborCalls (h w : Nat) (hh : 1 ≤ h) (hw : 1 ≤ w) (hne : h ≠ w) :
    ∃ c ∈ neighborCalls h w, c.pB = ⟨(h : Int) - 1, (w : Int) - 1⟩ := by
  rcases Nat.lt_or_gt_of_ne hne with hlt | hgt
  · obtain ⟨k, hk⟩ : ∃ k : Nat, k = w - 2 := ⟨_, rfl⟩
    refine ⟨⟨⟨(h : Int) - 1, (k : Int)⟩, ⟨(h : Int) - 1, (k : Int) + 1⟩,
      ((h : Int) - 1, (k : Int)), ((h : Int) - 1, (k : Int) + 1)⟩, ?_, ?_⟩
    · unfold neighborCalls
      apply List.mem_append_right
      have hkw : k < w - 1 := by omega
      exact List.mem_map_of_mem _ (List.mem_range.mpr hkw)
    · simp only [Point.mk.injEq, true_and]; omega
  · obtain ⟨k, hk⟩ : ∃ k : Nat, k = h - 2 := ⟨_, rfl⟩
    refine ⟨⟨⟨(k : Int), (w : Int) - 1⟩, ⟨(k : Int) + 1, (w : Int) - 1⟩,
      ((k : Int), (w : Int) - 1), ((k : Int) + 1, (w : Int) - 1)⟩, ?_, ?_⟩
    · unfold neighborCalls
      apply List.mem_append_left
      apply List.mem_flatMap.mpr
      have hkh : k < h - 1 := by omega
      refine ⟨k, List.mem_range.mpr hkh, ?_⟩
      apply List.mem_append_right
      simp
    · simp only [Point.mk.injEq, and_true]; omega

/-- On a grid that is not square the neighbour pass reads outside the images. -/
theorem neighborLinks_none_of_nonsquare {Tp : Type} (pm : Photomontage Tp) (x : Mat Int)
    (alpha : Int) (g : GCGraph) (hsz : pm.ImagesSized) (hh : 1 ≤ pm.height)
    (hw : 1 ≤ pm.width) (hne : pm.height ≠ pm.width) : pm.neighborLinks x alpha g = none := by
  obtain ⟨c, hc, hpB⟩ := corner_mem_neighborCalls pm.height pm.width hh hw hne
  apply foldlM_none_of_mem
  refine ⟨c, hc, fun b1 => neighborStep_none_of_pB pm x alpha c ?_ b1⟩
  intro im him
  obtain ⟨hr, hcl⟩ := hsz im him
  unfold Mat.atPt Mat.atRC
  rw [hpB, hr, hcl]
  simp only
  split
  · rename_i hcond; omega
  · rfl

theorem buildGraph_none_of_nonsquare {Tp : Type} (pm : Photomontage Tp) (x : Mat Int)
    (alpha : Int) (hsz : pm.ImagesSized) (hh : 1 ≤ pm.height)
    (hw : 1 ≤ pm.width) (hne : pm.height ≠ pm.width) : pm.buildGraph x alpha = none := by
  unfold Photomontage.buildGraph
  cases h : pm.terminalLinks x alpha
      (GCGraph.create (int32 (pm.actualEdges + int32 (pm.height * pm.width)))
        (int32 (2 * pm.actualEdges))) with
  | none => simp [h]
  | some g1 => simp [h, neighborLinks_none_of_nonsquare pm x alpha g1 hsz hh hw hne]

theorem minCutOver_reports (g : GCGraph) : ∀ (ids : List Int) (table : List (Int × Bool)),
    (minCutOver g ids table).1 = g.cutCapacity (sideOf (minCutOver g ids table).2) := by
  intro ids
  induction ids with
  | nil => intro table; rfl
  | cons i rest ih =>
    intro table
    unfold minCutOver
    split
    · exact ih _
    · exact ih _

theorem cut_congr (S T : Int → Bool) (op : GCOp) (h : ∀ k ∈ op.ids, S k = T k) :
    GCOp.cut S op = GCOp.cut T op := by
  cases op with
  | addVtx => rfl
  | addTermWeights i s t =>
    have := h i (by simp [GCOp.ids])
    simp [GCOp.cut, this]
  | addEdges i j w rw =>
    have hi := h i (by simp [GCOp.ids])
    have hj := h j (by simp [GCOp.ids])
    simp [GCOp.cut, hi, hj]

theorem cutCapacity_congr (g : GCGraph) (S T : Int → Bool) (h : ∀ k ∈ g.ids, S k = T k) :
    g.cutCapacity S = g.cutCapacity T := by
  unfold GCGraph.cutCapacity
  congr 1
  apply List.map_congr_left
  intro op hop
  apply cut_congr
  intro k hk
  apply h
  unfold GCGraph.ids
  rw [List.mem_dedup]
  exact List.mem_flatMap.mpr ⟨op, hop, hk⟩

theorem sideOf_cons (i : Int) (b : Bool) (table : List (Int × Bool)) (k : Int) :
    sideOf ((i, b) :: table) k = if k = i then b else sideOf table k := by
  unfold sideOf
  by_cases h : k = i
  · subst h; simp [List.lookup]
  · have : (k == i) = false := by simpa using h
    simp [List.lookup, this, h]

theorem minCutOver_le (g : GCGraph) : ∀ (ids : List Int) (table : List (Int × Bool))
    (S : Int → Bool), (∀ k ∈ g.ids, k ∉ ids → S k = sideOf table k) →
    (minCutOver g ids table).1 ≤ g.cutCapacity S := by
  intro ids
  induction ids with
  | nil =>
    intro table S h
    simp only [minCutOver]
    rw [cutCapacity_congr g S (sideOf table) (fun k hk => h k hk (List.not_mem_nil k))]
  | cons i rest ih =>
    intro table S h
    have hS : ∀ k ∈ g.ids, k ∉ rest → S k = sideOf ((i, S i) :: table) k := by
      intro k hk hnr
      rw [sideOf_cons]
      by_cases hki : k = i
      · subst hki; simp
      · simp only [hki, if_false]
        exact h k hk (by simp [hki, hnr])
    have hle := ih ((i, S i) :: table) S hS
    unfold minCutOver
    split
    · rename_i hc
      cases hSi : S i
      · rw [hSi] at hle; exact hle
      · rw [hSi] at hle; exact le_trans hc hle
    · rename_i hc
      cases hSi : S i
      · rw [hSi] at hle; exact le_trans (le_of_lt (not_le.mp hc)) hle
      · rw [hSi] at hle; exact hle

/-- Exhaustive search returns a minimum cut and its capacity. -/
theorem bruteForce_isMinCut : bruteForce.IsMinCut := by
  intro g
  refine ⟨minCutOver_reports g g.ids [], fun S => ?_⟩
  have h1 := minCutOver_le g g.ids [] S (fun k hk hn => absurd hk hn)
  have h2 := minCutOver_reports g g.ids []
  simp only [bruteForce]
  rw [← h2]; exact h1

theorem gdLoop_first_round {Tp : Type} (sv : Solver) (fuel : Nat) (s : GDState Tp)
    (r : GDState Tp × List ℚ) (h : gdLoop sv fuel s = some r) :
    ∃ res, gdRound sv s = some res := by
  cases fuel with
  | zero => simp [gdLoop] at h
  | succ fuel =>
    unfold gdLoop at h
    cases hr : gdRound sv s with
    | none => rw [hr] at h; simp at h
    | some res => exact ⟨res, rfl⟩

theorem gdRound_some_facts {Tp : Type} (sv : Solver) (s : GDState Tp) (res : GDRound Tp)
    (hl : s.pm.distances.length = s.pm.lsize) (h : gdRound sv s = some res) :
    1 ≤ s.pm.lsize ∧ ∃ g, s.pm.buildGraph s.x_n 0 = some g := by
  obtain ⟨pm1, minValue, he, hmin, _⟩ := gdRound_spec sv s res h
  obtain ⟨_, _, hd1, hdone, _⟩ := expandAll_spec s.pm pm1 sv s.x_n he
  have hne : pm1.distances ≠ [] := by
    intro hnil; rw [hnil] at hmin; simp [min_idx] at hmin
  have hpos : 1 ≤ s.pm.lsize := by
    have := List.length_pos.mpr hne
    omega
  obtain ⟨g, hg, _, _⟩ := hdone 0 (by omega)
  exact ⟨hpos, g, by simpa using hg⟩

theorem buildGraph_some_covers {Tp : Type} (pm : Photomontage Tp) (x : Mat Int) (alpha : Int)
    (g : GCGraph) (h : pm.buildGraph x alpha = some g) (hh : 1 ≤ pm.height) (hw : 1 ≤ pm.width) :
    pm.height ≤ x.rows ∧ pm.width ≤ x.cols := by
  obtain ⟨_, _, _, hr, _⟩ := buildGraph_spec pm x alpha g h
  have := (hr (pm.height - 1) (pm.width - 1) (by omega) (by omega)).2
  unfold Photomontage.labelMask at this
  rw [atRC_natCast] at this
  by_cases hc : pm.height - 1 < x.rows ∧ pm.width - 1 < x.cols
  · omega
  · simp [hc] at this

theorem cvRound_nonneg (q : ℚ) (hq : 0 ≤ q) : 0 ≤ cvRound q := by
  have hf : 0 ≤ ⌊q⌋ := Int.floor_nonneg.mpr hq
  unfold cvRound
  split
  · exact hf
  · split
    · omega
    · split <;> omega

theorem cvRound_zero : cvRound 0 = 0 := by
  simp [cvRound]

theorem resizeNearest_same {α : Type} (m : Mat α) (hr : 1 ≤ m.rows) (hc : 1 ≤ m.cols) :
    ∃ out, resizeNearest m (Size.mk m.cols m.rows) = some out ∧ out.rows = m.rows ∧
      out.cols = m.cols ∧ ∀ i j, i < m.rows → j < m.cols → out.data i j = m.data i j := by
  unfold resizeNearest
  have hcond : ¬ (m.rows = 0 ∨ m.cols = 0 ∨ ((m.cols : Nat) : Int) ≤ 0 ∨ ((m.rows : Nat) : Int) ≤ 0) := by
    omega
  simp only [hcond, if_false]
  refine ⟨_, rfl, by simp, by simp, ?_⟩
  intro i j hi hj
  simp only [Int.toNat_ofNat]
  have h1 : i * m.rows / m.rows = i := Nat.mul_div_cancel i (by omega)
  have h2 : j * m.cols / m.cols = j := Nat.mul_div_cancel j (by omega)
  rw [h1, h2]
  congr 1
  · exact Nat.min_eq_left (by omega)
  · exact Nat.min_eq_left (by omega)

theorem gdInit_inv {Tp : Type} (pm : Photomontage Tp) (hsz : pm.WellSized) (hl : 1 ≤ pm.lsize) :
    (pm.gdInit (zeroLabeling pm.height pm.width)).Inv pm := by
  refine ⟨sameInputs_refl pm, hsz.2.1, hsz.2.2, rfl, rfl, rfl, rfl, rfl, ?_⟩
  intro i j _ _
  simp only [Photomontage.gdInit, zeroLabeling, Mat.filled]
  exact ⟨le_refl _, by exact_mod_cast hl⟩

/-- What `gradientDescent` leaves when it is started on the all-zero labeling of the grid. -/
theorem gradientDescent_zero_spec {Tp : Type} (pm : Photomontage Tp) (sv : Solver) (fuel : Nat)
    (out : Mat Int × Photomontage Tp) (hsz : pm.WellSized)
    (h : pm.gradientDescent sv fuel (zeroLabeling pm.height pm.width) = some out) :
    1 ≤ pm.lsize ∧ out.1.rows = pm.height ∧ out.1.cols = pm.width ∧ pm.ValidLabels out.1 ∧
      pm.SameInputs out.2 ∧ out.2.WellSized := by
  unfold Photomontage.gradientDescent at h
  simp only [Option.map_eq_some'] at h
  obtain ⟨r, hr, hout⟩ := h
  subst hout
  obtain ⟨res, hres⟩ := gdLoop_first_round sv fuel _ r hr
  have hl : 1 ≤ pm.lsize := (gdRound_some_facts sv _ res hsz.2.2 hres).1
  obtain ⟨hs, hlab, hdist, _, himg, hrows, hcols, _, hvalid⟩ :=
    gdLoop_keeps_inv sv pm fuel _ r (gdInit_inv pm hsz hl) hr
  refine ⟨hl, ?_, ?_, ?_, hs, ?_⟩
  · simp only; rw [himg]; exact hrows
  · simp only; rw [himg]; exact hcols
  · simp only; rw [himg]; exact hvalid
  · exact ⟨by rw [hs.2.1, hs.2.2.2.2.2.2.2.1]; exact hsz.1,
      by rw [hs.2.2.2.2.2.2.2.1]; exact hlab, by rw [hs.2.2.2.2.2.2.2.1]; exact hdist⟩

theorem scaleFactor_pos_dims {Tp : Type} (pm : Photomontage Tp) (h : pm.scaleFactor ≠ 0) :
    1 ≤ pm.height ∧ 1 ≤ pm.width := by
  have h1 : 0 ≤ cvRound ((pm.height : ℚ) / 600) :=
    cvRound_nonneg _ (div_nonneg (Nat.cast_nonneg _) (by norm_num))
  have h2 : 0 ≤ cvRound ((pm.width : ℚ) / 800) :=
    cvRound_nonneg _ (div_nonneg (Nat.cast_nonneg _) (by norm_num))
  unfold Photomontage.scaleFactor at h
  constructor
  · by_contra hc
    have hz : pm.height = 0 := by omega
    apply h
    rw [hz]
    simp only [Nat.cast_zero, zero_div, cvRound_zero]
    exact min_eq_left h2
  · by_contra hc
    have hz : pm.width = 0 := by omega
    apply h
    rw [hz]
    simp only [Nat.cast_zero, zero_div, cvRound_zero]
    exact min_eq_right h1

theorem toNat_ediv_lt (h : Nat) (l : Int) (hh : 1 ≤ h) (hl : l ≠ 0) (hl1 : l ≠ 1) :
    ((h : Int) / l).toNat < h := by
  rcases lt_or_gt_of_ne hl with hneg | hpos
  · have : (h : Int) / l ≤ 0 := Int.ediv_nonpos (Int.ofNat_nonneg h) (le_of_lt hneg)
    have : ((h : Int) / l).toNat = 0 := Int.toNat_eq_zero.mpr this
    omega
  · have hl2 : 2 ≤ l := by omega
    have hlt : (h : Int) / l < h := by
      apply Int.ediv_lt_of_lt_mul hpos
      have : (1 : Int) ≤ h := by exact_mod_cast hh
      nlinarith
    have hnn : 0 ≤ (h : Int) / l := Int.ediv_nonneg (Int.ofNat_nonneg h) (le_of_lt hpos)
    omega

/-- What `assignLabeling` hands back when it returns. -/
theorem assignLabeling_spec {Tp : Type} (pm : Photomontage Tp) (sv : Solver) (fuel : Nat)
    (out : Mat Int × Photomontage Tp) (hsz : pm.WellSized) (him : pm.ImagesSized)
    (h : pm.assignLabeling sv fuel = some out) :
    1 ≤ pm.lsize ∧ out.1.rows = pm.height ∧ out.1.cols = pm.width ∧ pm.ValidLabels out.1 := by
  unfold Photomontage.assignLabeling at h
  split at h
  · obtain ⟨hl, hr, hc, hv, _, _⟩ := gradientDescent_zero_spec pm sv fuel out hsz h
    exact ⟨hl, hr, hc, hv⟩
  · split at h
    · cases h
    · rename_i hl0
      simp only [Option.bind_eq_bind, Option.bind_eq_some, Option.pure_def] at h
      obtain ⟨r, hgd, img, hup, hout⟩ := h
      simp only [Option.some.injEq] at hout
      subst hout
      obtain ⟨hh, hw⟩ := scaleFactor_pos_dims pm hl0
      -- the first round has built a graph on the reduced labeling
      have hgd1 := hgd
      unfold Photomontage.gradientDescent at hgd1
      simp only [Option.map_eq_some'] at hgd1
      obtain ⟨r0, hr0, _⟩ := hgd1
      obtain ⟨res, hres⟩ := gdLoop_first_round sv fuel _ r0 hr0
      obtain ⟨_, g, hg⟩ := gdRound_some_facts sv _ res hsz.2.2 hres
      simp only [Photomontage.gdInit] at hg
      obtain ⟨hcr, hcc⟩ := buildGraph_some_covers pm _ 0 g hg hh hw
      have hl1 : pm.scaleFactor = 1 := by
        by_contra hne
        have := toNat_ediv_lt pm.height pm.scaleFactor hh hl0 hne
        simp only [Photomontage.reducedLabeling, zeroLabeling, Mat.filled] at hcr
        omega
      have hsq : pm.height = pm.width := by
        by_contra hne
        rw [buildGraph_none_of_nonsquare pm _ 0 him hh hw hne] at hg
        cases hg
      have hred : pm.reducedLabeling = zeroLabeling pm.height pm.width := by
        simp [Photomontage.reducedLabeling, hl1]
      rw [hred] at hgd
      obtain ⟨hl, hr, hc, hv, _, _⟩ := gradientDescent_zero_spec pm sv fuel r hsz hgd
      unfold Photomontage.upsample at hup
      have hsize : Size.mk (pm.height : Int) (pm.width : Int) = Size.mk r.1.cols r.1.rows := by
        rw [hr, hc, hsq]
      rw [hsize] at hup
      obtain ⟨o, ho, hor, hoc, hod⟩ := resizeNearest_same r.1 (by omega) (by omega)
      rw [ho] at hup
      simp only [Option.some.injEq] at hup
      subst hup
      refine ⟨hl, by simp only; rw [hor, hr], by simp only; rw [hoc, hc], ?_⟩
      intro i j hi hj
      simp only
      rw [hod i j (by omega) (by omega)]
      exact hv i j hi hj

/-- On a grid that is not square `gradientDescent` never returns: its first call of
`singleExpansion` reads outside the images. -/
theorem gradientDescent_none_of_nonsquare {Tp : Type} (pm : Photomontage Tp) (sv : Solver)
    (fuel : Nat) (x : Mat Int) (hsz : pm.WellSized) (him : pm.ImagesSized)
    (hh : 1 ≤ pm.height) (hw : 1 ≤ pm.width) (hne : pm.height ≠ pm.width) :
    pm.gradientDescent sv fuel x = none := by
  cases h : pm.gradientDescent sv fuel x with
  | none => rfl
  | some out =>
    unfold Photomontage.gradientDescent at h
    simp only [Option.map_eq_some'] at h
    obtain ⟨r, hr, _⟩ := h
    obtain ⟨res, hres⟩ := gdLoop_first_round sv fuel _ r hr
    obtain ⟨_, g, hg⟩ := gdRound_some_facts sv _ res hsz.2.2 hres
    simp only [Photomontage.gdInit] at hg
    rw [buildGraph_none_of_nonsquare pm x 0 him hh hw hne] at hg
    cases hg

theorem assignLabeling_none_of_nonsquare {Tp : Type} (pm : Photomontage Tp) (sv : Solver)
    (fuel : Nat) (hsz : pm.WellSized) (him : pm.ImagesSized)
    (hh : 1 ≤ pm.height) (hw : 1 ≤ pm.width) (hne : pm.height ≠ pm.width) :
    pm.assignLabeling sv fuel = none := by
  unfold Photomontage.assignLabeling
  split
  · exact gradientDescent_none_of_nonsquare pm sv fuel _ hsz him hh hw hne
  · split
    · rfl
    · simp [gradientDescent_none_of_nonsquare pm sv fuel _ hsz him hh hw hne]

theorem imagesSized_of_all {Tp : Type} (pm : Photomontage Tp)
    (h : pm.images.all (fun im => decide (im.rows = pm.height ∧ im.cols = pm.width)) = true) :
    pm.ImagesSized := by
  intro im him
  have := List.all_eq_true.mp h im him
  simpa using this

theorem terminalRowOps_length {Tp : Type} (pm : Photomontage Tp) (x : Mat Int) (alpha : Int)
    (base i : Nat) : ∀ n, (pm.terminalRowOps x alpha base i n).length = 2 * n := by
  intro n
  induction n with
  | zero => simp [Photomontage.terminalRowOps]
  | succ n ih =>
    unfold Photomontage.terminalRowOps at ih ⊢
    rw [List.range_succ, List.flatMap_append, List.length_append, ih]
    simp
    omega

theorem terminalOps_length {Tp : Type} (pm : Photomontage Tp) (x : Mat Int) (alpha : Int)
    (base : Nat) : ∀ m, (pm.terminalOps x alpha base m).length = 2 * (m * pm.width) := by
  intro m
  induction m with
  | zero => simp [Photomontage.terminalOps]
  | succ m ih =>
    unfold Photomontage.terminalOps at ih ⊢
    rw [List.range_succ, List.flatMap_append, List.length_append, ih]
    simp [terminalRowOps_length]
    ring

/-- The capacity of a cut of the graph of `singleExpansion` is the mask penalty of the
decoded labeling plus the capacity of the cut neighbour links. -/
theorem buildGraph_cutCapacity {Tp : Type} (pm : Photomontage Tp) (x : Mat Int) (alpha : Int)
    (g : GCGraph) (S : Int → Bool) (h : pm.buildGraph x alpha = some g) :
    g.cutCapacity S =
      gridSum pm.height pm.width (pm.maskPenalty (pm.expansionLabeling x alpha S)) +
        ((g.ops.drop (2 * (pm.height * pm.width))).map (GCOp.cut S)).sum := by
  obtain ⟨links, hops, _, hr, _⟩ := buildGraph_spec pm x alpha g h
  have hlen := terminalOps_length pm x alpha 0 pm.height
  unfold GCGraph.cutCapacity
  rw [hops, List.map_append, List.sum_append,
    terminalOps_cut pm x alpha S (fun i j hi hj => (hr i j hi hj).2)]
  congr 2
  rw [← hlen, List.drop_left]

theorem sum_nonneg_of_forall (l : List ℚ) (h : ∀ a ∈ l, 0 ≤ a) : 0 ≤ l.sum := by
  induction l with
  | nil => simp
  | cons a l ih =>
    rw [List.sum_cons]
    exact add_nonneg (h a (List.mem_cons_self _ _))
      (ih (fun b hb => h b (List.mem_cons_of_mem _ hb)))

theorem links_cut_nonneg {Tp : Type} (pm : Photomontage Tp) (x : Mat Int) (alpha : Int)
    (g : GCGraph) (S : Int → Bool) (h : pm.buildGraph x alpha = some g)
    (hn : ∀ a b, 0 ≤ pm.norm2 a b) :
    0 ≤ ((g.ops.drop (2 * (pm.height * pm.width))).map (GCOp.cut S)).sum := by
  obtain ⟨links, hops, _, _, hnn⟩ := buildGraph_spec pm x alpha g h
  have hlen := terminalOps_length pm x alpha 0 pm.height
  rw [hops, ← hlen, List.drop_left]
  apply sum_nonneg_of_forall
  intro a ha
  obtain ⟨op, hop, rfl⟩ := List.mem_map.mp ha
  exact hnn hn op hop S

theorem termWeight_nonneg (m : Nat) : 0 ≤ termWeight m := by
  unfold termWeight GCInfinity
  split <;> norm_num

theorem sum_map_ge_of_mem (l : List Nat) (f : Nat → ℚ) (hf : ∀ a ∈ l, 0 ≤ f a) (a : Nat)
    (ha : a ∈ l) : f a ≤ (l.map f).sum := by
  induction l with
  | nil => cases ha
  | cons b l ih =>
    rw [List.map_cons, List.sum_cons]
    have hrest : 0 ≤ (l.map f).sum := by
      apply sum_nonneg_of_forall
      intro c hc
      obtain ⟨d, hd, rfl⟩ := List.mem_map.mp hc
      exact hf d (List.mem_cons_of_mem _ hd)
    rcases List.mem_cons.mp ha with rfl | hmem
    · linarith
    · have := ih (fun c hc => hf c (List.mem_cons_of_mem _ hc)) hmem
      have := hf b (List.mem_cons_self _ _)
      linarith

theorem gridSum_ge_entry (h w : Nat) (f : Nat → Nat → ℚ) (hf : ∀ i j, 0 ≤ f i j) (i j : Nat)
    (hi : i < h) (hj : j < w) : f i j ≤ gridSum h w f := by
  unfold gridSum
  have h1 : f i j ≤ ((List.range w).map fun j => f i j).sum :=
    sum_map_ge_of_mem (List.range w) (fun j => f i j) (fun a _ => hf i a) j
      (List.mem_range.mpr hj)
  have h2 := sum_map_ge_of_mem (List.range h) (fun i => ((List.range w).map fun j => f i j).sum)
    (fun a _ => sum_nonneg_of_forall _ (fun b hb => by
      obtain ⟨d, _, rfl⟩ := List.mem_map.mp hb
      exact hf a d)) i (List.mem_range.mpr hi)
  exact le_trans h1 h2

/-- A flow value below `GCInfinity` leaves no pixel with a label whose mask is false. -/
theorem expansion_valid_of_cheap {Tp : Type} (pm : Photomontage Tp) (sv : Solver) (x : Mat Int)
    (alpha : Int) (g : GCGraph) (hrep : sv.ReportsCut) (hn : ∀ a b, 0 ≤ pm.norm2 a b)
    (h : pm.buildGraph x alpha = some g) (hv : sv.maxFlow g < GCInfinity) (i j : Nat)
    (hi : i < pm.height) (hj : j < pm.width) :
    ∃ m, pm.labelMask (pm.expansionLabeling x alpha (sv.inSourceSegment g)) i j = some m ∧
      m ≠ 0 := by
  obtain ⟨_, _, _, hr, _⟩ := buildGraph_spec pm x alpha g h
  have hcap := buildGraph_cutCapacity pm x alpha g (sv.inSourceSegment g) h
  have hl := links_cut_nonneg pm x alpha g (sv.inSourceSegment g) h hn
  have hp := gridSum_ge_entry pm.height pm.width
    (pm.maskPenalty (pm.expansionLabeling x alpha (sv.inSourceSegment g)))
    (fun a b => termWeight_nonneg _) i j hi hj
  rw [hrep g, hcap] at hv
  have hpen : pm.maskPenalty (pm.expansionLabeling x alpha (sv.inSourceSegment g)) i j <
      GCInfinity := by linarith
  -- the label mask of the decoded labeling is read inside the masks
  have hsome : (pm.labelMask (pm.expansionLabeling x alpha (sv.inSourceSegment g)) i j).isSome := by
    obtain ⟨hmA, hmL⟩ := hr i j hi hj
    unfold Photomontage.labelMask at hmL ⊢
    rw [atRC_some_of_lt (pm.expansionLabeling x alpha (sv.inSourceSegment g)) i j hi hj]
    simp only [Option.some_bind, Photomontage.expansionLabeling, Mat.filled,
      Photomontage.decodedLabel]
    split
    · cases hx : x.atRC i j with
      | none => rw [hx] at hmL; simp at hmL
      | some l =>
        have := atRC_eq_data_of_isSome x i j (by rw [hx]; rfl)
        rw [hx] at this hmL
        simp only [Option.some.injEq] at this
        subst this
        simpa using hmL
    · exact hmA
  cases hm : pm.labelMask (pm.expansionLabeling x alpha (sv.inSourceSegment g)) i j with
  | none => rw [hm] at hsome; cases hsome
  | some m =>
    refine ⟨m, rfl, ?_⟩
    intro h0
    unfold Photomontage.maskPenalty at hpen
    rw [hm, h0] at hpen
    simp [termWeight] at hpen

theorem gdRound_stopped_optValue {Tp : Type} (sv : Solver) (s s1 : GDState Tp)
    (h : gdRound sv s = some (GDRound.stopped s1)) : s1.optValue = s.optValue := by
  obtain ⟨pm1, minValue, _, _, hcase⟩ := gdRound_spec sv s _ h
  rcases hcase with ⟨_, src, _, hres⟩ | ⟨_, hres⟩
  · simp at hres
  · simp only [Option.some.injEq, GDRound.stopped.injEq] at hres
    subst hres
    rfl

theorem gdLoop_optValue {Tp : Type} (sv : Solver) : ∀ (fuel : Nat) (s : GDState Tp)
    (r : GDState Tp × List ℚ), gdLoop sv fuel s = some r →
    r.1.optValue = (r.2.getLast?).getD s.optValue := by
  intro fuel
  induction fuel with
  | zero => intro s r h; simp [gdLoop] at h
  | succ fuel ih =>
    intro s r h
    unfold gdLoop at h
    cases hr : gdRound sv s with
    | none => rw [hr] at h; simp at h
    | some res =>
      rw [hr] at h
      cases res with
      | stopped s1 =>
        simp only [Option.some.injEq] at h
        subst h
        simpa using gdRound_stopped_optValue sv s s1 hr
      | adopted s1 =>
        simp only at h
        cases hl : gdLoop sv fuel s1 with
        | none => rw [hl] at h; simp at h
        | some r1 =>
          rw [hl] at h
          simp only [Option.some.injEq] at h
          subst h
          have := ih s1 r1 hl
          rw [this]
          cases hv : r1.2 with
          | nil => simp
          | cons a l =>
            simp only [List.getLast?_cons_cons]
            rw [List.getLast?_eq_getLast (a :: l) (List.cons_ne_nil a l)]
            rfl

theorem dblMax_ge_infinity : GCInfinity ≤ DBL_MAX := by
  unfold GCInfinity DBL_MAX
  norm_num

theorem sqDiff_nonneg (a b : ℚ) : 0 ≤ sqDiff a b := mul_self_nonneg _

theorem gridSum_nonneg (h w : Nat) (f : Nat → Nat → ℚ) (hf : ∀ i j, 0 ≤ f i j) :
    0 ≤ gridSum h w f := by
  unfold gridSum
  apply sum_nonneg_of_forall
  intro a ha
  obtain ⟨i, _, rfl⟩ := List.mem_map.mp ha
  apply sum_nonneg_of_forall
  intro b hb
  obtain ⟨j, _, rfl⟩ := List.mem_map.mp hb
  exact hf i j

/-- With non-negative pairwise costs, a solver that reports the capacity of its cut
returns non-negative flow values on the graphs of `singleExpansion`. -/
theorem flow_nonneg_of_reportsCut {Tp : Type} (pm : Photomontage Tp) (sv : Solver)
    (hrep : sv.ReportsCut) (hn : ∀ a b, 0 ≤ pm.norm2 a b) (x : Mat Int) (alpha : Int)
    (g : GCGraph) (h : pm.buildGraph x alpha = some g) : 0 ≤ sv.maxFlow g := by
  rw [hrep g, buildGraph_cutCapacity pm x alpha g _ h]
  exact add_nonneg (gridSum_nonneg _ _ _ (fun i j => termWeight_nonneg _))
    (links_cut_nonneg pm x alpha g _ h hn)

theorem dblMax_nonneg : 0 ≤ DBL_MAX := by
  unfold DBL_MAX
  norm_num

theorem gdLoop_chain {Tp : Type} (sv : Solver) (pm : Photomontage Tp)
    (hnn : ∀ x alpha g, pm.buildGraph x alpha = some g → 0 ≤ sv.maxFlow g) :
    ∀ (fuel : Nat) (s : GDState Tp) (r : GDState Tp × List ℚ), s.Inv pm → 0 ≤ s.optValue →
      gdLoop sv fuel s = some r →
      List.Chain (fun a b => b < (49 / 50 : ℚ) * a ∧ b ≤ a) s.optValue r.2 := by
  intro fuel
  induction fuel with
  | zero => intro s r _ _ h; simp [gdLoop] at h
  | succ fuel ih =>
    intro s r hI h0 h
    unfold gdLoop at h
    cases hr : gdRound sv s with
    | none => rw [hr] at h; simp at h
    | some res =>
      rw [hr] at h
      cases res with
      | stopped s1 =>
        simp only [Option.some.injEq] at h
        subst h
        exact List.Chain.nil
      | adopted s1 =>
        simp only at h
        cases hl : gdLoop sv fuel s1 with
        | none => rw [hl] at h; simp at h
        | some r1 =>
          rw [hl] at h
          simp only [Option.some.injEq] at h
          subst h
          obtain ⟨alpha, g, _, hg, _, hopt, hlt, _⟩ := gdRound_adopted_spec sv pm s s1 hI hr
          have hpos : 0 ≤ s1.optValue := by rw [hopt]; exact hnn _ _ g hg
          refine List.Chain.cons ⟨by rw [hopt]; exact hlt, ?_⟩
            (ih s1 r1 (gdRound_adopted_inv sv pm s s1 hI hr) hpos hl)
          rw [hopt]
          linarith

theorem upsample_dims {Tp : Type} (pm : Photomontage Tp) (img out : Mat Int)
    (h : pm.upsample img = some out) : out.rows = pm.width ∧ out.cols = pm.height := by
  unfold Photomontage.upsample resizeNearest at h
  split at h
  · cases h
  · simp only [Option.some.injEq] at h
    subst h
    simp

theorem upsample_some {Tp : Type} (pm : Photomontage Tp) (img : Mat Int) (hr : 1 ≤ img.rows)
    (hc : 1 ≤ img.cols) (hh : 1 ≤ pm.height) (hw : 1 ≤ pm.width) :
    ∃ out, pm.upsample img = some out := by
  unfold Photomontage.upsample resizeNearest
  have hcond : ¬ (img.rows = 0 ∨ img.cols = 0 ∨ ((pm.height : Nat) : Int) ≤ 0 ∨
      ((pm.width : Nat) : Int) ≤ 0) := by omega
  simp only [hcond, if_false]
  exact ⟨_, rfl⟩

/-- The working labeling has to cover the grid: otherwise the terminal pass of the
first `singleExpansion` reads outside it and `gradientDescent` does not return. -/
theorem gradientDescent_none_of_small {Tp : Type} (pm : Photomontage Tp) (sv : Solver)
    (fuel : Nat) (x : Mat Int) (hsz : pm.WellSized) (hh : 1 ≤ pm.height) (hw : 1 ≤ pm.width)
    (hx : x.rows < pm.height ∨ x.cols < pm.width) : pm.gradientDescent sv fuel x = none := by
  cases h : pm.gradientDescent sv fuel x with
  | none => rfl
  | some out =>
    unfold Photomontage.gradientDescent at h
    simp only [Option.map_eq_some'] at h
    obtain ⟨r, hr, _⟩ := h
    obtain ⟨res, hres⟩ := gdLoop_first_round sv fuel _ r hr
    obtain ⟨_, g, hg⟩ := gdRound_some_facts sv _ res hsz.2.2 hres
    simp only [Photomontage.gdInit] at hg
    have := buildGraph_some_covers pm x 0 g hg hh hw
    omega

/-- Where the neighbour pass points: on a grid with at least one row and one column,
each call passes positions whose `x` is a row index of the grid and whose `y` is a
column index, and reads the two labels at (row `x`, column `y`). -/
theorem neighborCalls_bounds (h w : Nat) (hh : 1 ≤ h) (hw : 1 ≤ w) (c : NeighborCall)
    (hc : c ∈ neighborCalls h w) :
    (0 ≤ c.pA.x ∧ c.pA.x < h ∧ 0 ≤ c.pA.y ∧ c.pA.y < w) ∧
      (0 ≤ c.pB.x ∧ c.pB.x < h ∧ 0 ≤ c.pB.y ∧ c.pB.y < w) ∧
      c.readA = (c.pA.x, c.pA.y) ∧ c.readB = (c.pB.x, c.pB.y) := by
  unfold neighborCalls at hc
  simp only [List.mem_append, List.mem_flatMap, List.mem_map, List.mem_range, List.mem_cons,
    List.mem_singleton, List.not_mem_nil, or_false] at hc
  rcases hc with ⟨i, hi, hrow⟩ | ⟨i, hi, rfl⟩
  · rcases hrow with ⟨j, hj, rfl | rfl⟩ | rfl
    · refine ⟨⟨?_, ?_, ?_, ?_⟩, ⟨?_, ?_, ?_, ?_⟩, rfl, rfl⟩ <;> simp only <;> omega
    · refine ⟨⟨?_, ?_, ?_, ?_⟩, ⟨?_, ?_, ?_, ?_⟩, rfl, rfl⟩ <;> simp only <;> omega
    · refine ⟨⟨?_, ?_, ?_, ?_⟩, ⟨?_, ?_, ?_, ?_⟩, rfl, rfl⟩ <;> simp only <;> omega
  · refine ⟨⟨?_, ?_, ?_, ?_⟩, ⟨?_, ?_, ?_, ?_⟩, rfl, rfl⟩ <;> simp only <;> omega

theorem foldlM_some_of_forall {α β : Type} (f : β → α → Option β) :
    ∀ (l : List α) (b : β), (∀ a ∈ l, ∀ b0, ∃ b1, f b0 a = some b1) →
      ∃ b1, l.foldlM f b = some b1 := by
  intro l
  induction l with
  | nil => intro b _; exact ⟨b, rfl⟩
  | cons x xs ih =>
    intro b h
    obtain ⟨b1, hb1⟩ := h x (List.mem_cons_self _ _) b
    obtain ⟨b2, hb2⟩ := ih b1 (fun a ha => h a (List.mem_cons_of_mem _ ha))
    exact ⟨b2, by rw [List.foldlM_cons, hb1]; exact hb2⟩

theorem atRC_int_some {α : Type} (m : Mat α) (i j : Int) (hi0 : 0 ≤ i) (hi : i < m.rows)
    (hj0 : 0 ≤ j) (hj : j < m.cols) : m.atRC i j = some (m.data i.toNat j.toNat) := by
  unfold Mat.atRC
  simp [hi0, hi, hj0, hj]

theorem vecAt_some_of_lt {α : Type} (v : List α) (i : Int) (h0 : 0 ≤ i) (h : i < v.length) :
    ∃ a, vecAt v i = some a ∧ a ∈ v := by
  have hlt : i.toNat < v.length := by omega
  refine ⟨v.get ⟨i.toNat, hlt⟩, ?_, List.get_mem v _ hlt⟩
  unfold vecAt
  simp only [h0, if_true]
  exact List.get?_eq_get hlt

theorem maskAt_some {Tp : Type} (pm : Photomontage Tp) (hms : pm.MasksSized) (l : Int)
    (hl0 : 0 ≤ l) (hl : l < pm.lsize) (i j : Nat) (hi : i < pm.height) (hj : j < pm.width) :
    ∃ m, pm.maskAt l i j = some m := by
  obtain ⟨mk, hmk, hmem⟩ := vecAt_some_of_lt pm.masks l hl0 (by rw [hms.1]; exact hl)
  obtain ⟨hr, hc⟩ := hms.2 mk hmem
  refine ⟨mk.data i j, ?_⟩
  unfold Photomontage.maskAt
  rw [hmk]
  simp only [Option.some_bind]
  exact atRC_some_of_lt mk i j (by omega) (by omega)

theorem terminalStep_some {Tp : Type} (pm : Photomontage Tp) (x : Mat Int) (alpha : Int)
    (hms : pm.MasksSized) (hxr : pm.height ≤ x.rows) (hxc : pm.width ≤ x.cols)
    (hv : pm.ValidLabels x) (ha0 : 0 ≤ alpha) (ha : alpha < pm.lsize) (i j : Nat)
    (hi : i < pm.height) (hj : j < pm.width) (g : GCGraph) :
    ∃ g1, pm.terminalStep x alpha i j g = some g1 := by
  obtain ⟨mA, hmA⟩ := maskAt_some pm hms alpha ha0 ha i j hi hj
  obtain ⟨hl0, hl⟩ := hv i j hi hj
  obtain ⟨mL, hmL⟩ := maskAt_some pm hms (x.data i j) hl0 hl i j hi hj
  have hx := atRC_some_of_lt x i j (by omega) (by omega)
  unfold Photomontage.maskAt at hmA hmL
  unfold Photomontage.terminalStep
  cases h1 : vecAt pm.masks alpha with
  | none => rw [h1] at hmA; simp at hmA
  | some mkA =>
    rw [h1] at hmA
    simp only [Option.some_bind] at hmA
    cases h2 : vecAt pm.masks (x.data i j) with
    | none => rw [h2] at hmL; simp at hmL
    | some mkL =>
      rw [h2] at hmL
      simp only [Option.some_bind] at hmL
      simp only [Option.bind_eq_bind, Option.some_bind, hmA, hx, h2, hmL, Option.pure_def]
      exact ⟨_, rfl⟩

theorem terminalLinks_some {Tp : Type} (pm : Photomontage Tp) (x : Mat Int) (alpha : Int)
    (hms : pm.MasksSized) (hxr : pm.height ≤ x.rows) (hxc : pm.width ≤ x.cols)
    (hv : pm.ValidLabels x) (ha0 : 0 ≤ alpha) (ha : alpha < pm.lsize) (g : GCGraph) :
    ∃ g1, pm.terminalLinks x alpha g = some g1 := by
  unfold Photomontage.terminalLinks
  apply foldlM_some_of_forall
  intro i hi g0
  apply foldlM_some_of_forall
  intro j hj g2
  exact terminalStep_some pm x alpha hms hxr hxc hv ha0 ha i j (List.mem_range.mp hi)
    (List.mem_range.mp hj) g2

theorem image_atPt_some {Tp : Type} (pm : Photomontage Tp) (hsz : pm.WellSized)
    (him : pm.ImagesSized) (hsq : pm.height = pm.width) (l : Int) (hl0 : 0 ≤ l)
    (hl : l < pm.lsize) : ∃ im, vecAt pm.images l = some im ∧ im ∈ pm.images ∧
      ∀ p : Point, 0 ≤ p.x → p.x < pm.height → 0 ≤ p.y → p.y < pm.width →
        ∃ v, im.atPt p = some v := by
  obtain ⟨im, him1, hmem⟩ := vecAt_some_of_lt pm.images l hl0 (by rw [hsz.1]; exact hl)
  obtain ⟨hr, hc⟩ := him im hmem
  refine ⟨im, him1, hmem, fun p hx0 hx hy0 hy => ⟨im.data p.y.toNat p.x.toNat, ?_⟩⟩
  unfold Mat.atPt
  exact atRC_int_some im p.y p.x hy0 (by rw [hr]; omega) hx0 (by rw [hc]; omega)

theorem setWeights_some {Tp : Type} (pm : Photomontage Tp) (hsz : pm.WellSized)
    (him : pm.ImagesSized) (hsq : pm.height = pm.width) (g : GCGraph) (pA pB : Point)
    (lA lB lX : Int) (hA : 0 ≤ lA ∧ lA < pm.lsize) (hB : 0 ≤ lB ∧ lB < pm.lsize)
    (hX : 0 ≤ lX ∧ lX < pm.lsize)
    (hpA : 0 ≤ pA.x ∧ pA.x < pm.height ∧ 0 ≤ pA.y ∧ pA.y < pm.width)
    (hpB : 0 ≤ pB.x ∧ pB.x < pm.height ∧ 0 ≤ pB.y ∧ pB.y < pm.width) :
    ∃ g1, pm.setWeights g pA pB lA lB lX = some g1 := by
  obtain ⟨imA, hiA, _, hrA⟩ := image_atPt_some pm hsz him hsq lA hA.1 hA.2
  obtain ⟨imB, hiB, _, hrB⟩ := image_atPt_some pm hsz him hsq lB hB.1 hB.2
  obtain ⟨imX, hiX, _, hrX⟩ := image_atPt_some pm hsz him hsq lX hX.1 hX.2
  obtain ⟨a1, ha1⟩ := hrA pA hpA.1 hpA.2.1 hpA.2.2.1 hpA.2.2.2
  obtain ⟨a2, ha2⟩ := hrA pB hpB.1 hpB.2.1 hpB.2.2.1 hpB.2.2.2
  obtain ⟨b1, hb1⟩ := hrB pA hpA.1 hpA.2.1 hpA.2.2.1 hpA.2.2.2
  obtain ⟨b2, hb2⟩ := hrB pB hpB.1 hpB.2.1 hpB.2.2.1 hpB.2.2.2
  obtain ⟨x1, hx1⟩ := hrX pA hpA.1 hpA.2.1 hpA.2.2.1 hpA.2.2.2
  obtain ⟨x2, hx2⟩ := hrX pB hpB.1 hpB.2.1 hpB.2.2.1 hpB.2.2.2
  unfold Photomontage.setWeights
  split
  · simp only [Option.bind_eq_bind, hiA, hiX, ha1, ha2, hx1, hx2, Option.some_bind,
      Option.pure_def]
    exact ⟨_, rfl⟩
  · simp only [Option.bind_eq_bind, hiA, hiB, hiX, ha1, ha2, hb1, hb2, hx1, hx2,
      Option.some_bind, Option.pure_def]
    exact ⟨_, rfl⟩

theorem neighborLinks_some {Tp : Type} (pm : Photomontage Tp) (x : Mat Int) (alpha : Int)
    (hsz : pm.WellSized) (him : pm.ImagesSized) (hsq : pm.height = pm.width)
    (hxr : pm.height ≤ x.rows) (hxc : pm.width ≤ x.cols) (hv : pm.ValidLabels x)
    (ha0 : 0 ≤ alpha) (ha : alpha < pm.lsize) (g : GCGraph) :
    ∃ g1, pm.neighborLinks x alpha g = some g1 := by
  unfold Photomontage.neighborLinks
  apply foldlM_some_of_forall
  intro c hc g0
  have hh : 1 ≤ pm.height := by
    by_contra hn
    have h0 : pm.height = 0 := by omega
    have hw0 : pm.width = 0 := by omega
    rw [h0, hw0] at hc
    simp [neighborCalls] at hc
  obtain ⟨hpA, hpB, hrA, hrB⟩ := neighborCalls_bounds pm.height pm.width hh (by omega) c hc
  have hlA : x.atRC c.readA.1 c.readA.2 = some (x.data c.pA.x.toNat c.pA.y.toNat) := by
    rw [hrA]
    exact atRC_int_some x _ _ hpA.1 (by omega) hpA.2.2.1 (by omega)
  have hlB : x.atRC c.readB.1 c.readB.2 = some (x.data c.pB.x.toNat c.pB.y.toNat) := by
    rw [hrB]
    exact atRC_int_some x _ _ hpB.1 (by omega) hpB.2.2.1 (by omega)
  unfold Photomontage.neighborStep
  simp only [Option.bind_eq_bind, hlA, hlB, Option.some_bind]
  exact setWeights_some pm hsz him hsq g0 c.pA c.pB _ _ alpha
    (hv _ _ (by omega) (by omega)) (hv _ _ (by omega) (by omega)) ⟨ha0, ha⟩ hpA hpB

/-- On a square grid `singleExpansion` builds its graph for every full-size labeling
with valid labels and every valid trial label. -/
theorem buildGraph_some_of_square {Tp : Type} (pm : Photomontage Tp) (x : Mat Int)
    (alpha : Int) (hsz : pm.WellSized) (him : pm.ImagesSized) (hms : pm.MasksSized)
    (hsq : pm.height = pm.width) (hxr : pm.height ≤ x.rows) (hxc : pm.width ≤ x.cols)
    (hv : pm.ValidLabels x) (ha0 : 0 ≤ alpha) (ha : alpha < pm.lsize) :
    ∃ g, pm.buildGraph x alpha = some g := by
  unfold Photomontage.buildGraph
  obtain ⟨g1, hg1⟩ := terminalLinks_some pm x alpha hms hxr hxc hv ha0 ha
    (GCGraph.create (int32 (pm.actualEdges + int32 (pm.height * pm.width)))
        (int32 (2 * pm.actualEdges)))
  obtain ⟨g2, hg2⟩ := neighborLinks_some pm x alpha hsz him hsq hxr hxc hv ha0 ha g1
  simp only [Option.bind_eq_bind, hg1, Option.some_bind]
  exact ⟨g2, hg2⟩

theorem expandAll_some {Tp : Type} (pm : Photomontage Tp) (sv : Solver) (x : Mat Int)
    (hsz : pm.WellSized)
    (hb : ∀ i : Nat, i < pm.lsize → ∃ g, pm.buildGraph x i = some g) :
    ∃ pm1, pm.expandAll sv x = some pm1 := by
  have key : ∀ n, n ≤ pm.lsize →
      ∃ pm1, (List.range n).foldlM (Photomontage.expansionStep sv x) pm = some pm1 := by
    intro n
    induction n with
    | zero => intro _; exact ⟨pm, rfl⟩
    | succ n ih =>
      intro hn
      obtain ⟨pm0, h0⟩ := ih (by omega)
      obtain ⟨hs0, hl0, hd0, _, _⟩ := expandAll_prefix pm sv x n pm0 h0
      obtain ⟨g, hg⟩ := hb n (by omega)
      rw [← buildGraph_congr hs0] at hg
      rw [foldlM_range_succ, h0]
      simp only [Option.some_bind]
      unfold Photomontage.expansionStep Photomontage.singleExpansion
      have hlen : n < pm0.labelings.length := by rw [hl0, hsz.2.1]; omega
      have hdlen : n < pm0.distances.length := by rw [hd0, hsz.2.2]; omega
      simp only [Option.bind_eq_bind, hg, Option.some_bind, vecSet, Int.toNat_ofNat,
        Int.ofNat_nonneg, hlen, hdlen, and_self, if_true, Option.pure_def]
      exact ⟨_, rfl⟩
  exact key pm.lsize (le_refl _)

theorem minIdxFrom_min : ∀ (rest pre : List ℚ) (k : Nat) (v : ℚ) (best : Nat),
    pre.length = k → pre.get? best = some v → (∀ a ∈ pre, v ≤ a) →
    ∃ m, (pre ++ rest).get? (minIdxFrom rest k v best) = some m ∧
      ∀ a ∈ pre ++ rest, m ≤ a := by
  intro rest
  induction rest with
  | nil =>
    intro pre k v best _ hb hmin
    refine ⟨v, ?_, ?_⟩
    · simpa [minIdxFrom] using hb
    · simpa using hmin
  | cons a rest ih =>
    intro pre k v best hk hb hmin
    have happ : pre ++ a :: rest = (pre ++ [a]) ++ rest := by simp
    unfold minIdxFrom
    split
    · rename_i hlt
      rw [happ]
      apply ih (pre ++ [a]) (k + 1) a k
      · simp [hk]
      · rw [List.get?_eq_getElem?, ← hk]
        simp
      · intro b hb2
        rcases List.mem_append.mp hb2 with h1 | h1
        · exact le_of_lt (lt_of_lt_of_le hlt (hmin b h1))
        · simp only [List.mem_singleton] at h1
          rw [h1]
    · rename_i hnlt
      rw [happ]
      apply ih (pre ++ [a]) (k + 1) v best
      · simp [hk]
      · have hbl : best < pre.length := by
          rw [List.get?_eq_getElem?] at hb
          exact (List.getElem?_eq_some_iff.mp hb).1
        rw [List.get?_eq_getElem?, List.getElem?_append_left hbl, ← List.get?_eq_getElem?]
        exact hb
      · intro b hb2
        rcases List.mem_append.mp hb2 with h1 | h1
        · exact hmin b h1
        · simp only [List.mem_singleton] at h1
          rw [h1]
          exact not_lt.mp hnlt

/-- The element at `min_idx` is a smallest element of the vector. -/
theorem min_idx_min (l : List ℚ) (h : l ≠ []) :
    ∃ m, l.get? (min_idx l) = some m ∧ ∀ a ∈ l, m ≤ a := by
  cases l with
  | nil => exact absurd rfl h
  | cons a rest =>
    have := minIdxFrom_min rest [a] 1 a 0 rfl rfl (by simp)
    simpa [min_idx] using this

theorem dist_self_zero {Tp : Type} (pm : Photomontage Tp) (h0 : ∀ a, pm.norm2 a a = 0)
    (im1 im2 : Mat Tp) (heq : im1 = im2) (p q : Point) (a1 a2 b1 b2 : Tp)
    (h1 : im1.atPt p = some a1) (h2 : im1.atPt q = some a2) (h3 : im2.atPt p = some b1)
    (h4 : im2.atPt q = some b2) : pm.dist a1 a2 b1 b2 = 0 := by
  subst heq
  rw [h1] at h3
  rw [h2] at h4
  simp only [Option.some.injEq] at h3 h4
  subst h3 h4
  simp [Photomontage.dist, h0]

theorem setWeights_zero {Tp : Type} (pm : Photomontage Tp) (hid : pm.IdenticalImages)
    (h0 : ∀ a, pm.norm2 a a = 0) (g g1 : GCGraph) (pA pB : Point)
    (lA lB lX : Int) (h : pm.setWeights g pA pB lA lB lX = some g1) :
    ∃ extra : List GCOp, g1.ops = g.ops ++ extra ∧ ∀ op ∈ extra, ∀ S, GCOp.cut S op = 0 := by
  unfold Photomontage.setWeights at h
  split at h
  · simp only [Option.bind_eq_bind, Option.pure_def, Option.bind_eq_some] at h
    obtain ⟨imA, hA, imX, hX, a1, ha1, a2, ha2, x1, hx1, x2, hx2, h⟩ := h
    simp only [Option.some.injEq] at h
    subst h
    have hd := dist_self_zero pm h0 imA imX
      (hid imA (vecAt_mem _ _ _ hA) imX (vecAt_mem _ _ _ hX)) pA pB a1 a2 x1 x2 ha1 ha2 hx1 hx2
    refine ⟨[GCOp.addEdges (pm.nodeId pA) (pm.nodeId pB) (pm.dist a1 a2 x1 x2)
      (pm.dist a1 a2 x1 x2)], rfl, ?_⟩
    intro op hop S
    simp only [List.mem_singleton] at hop
    subst hop
    simp [GCOp.cut, hd]
  · simp only [Option.bind_eq_bind, Option.pure_def, Option.bind_eq_some] at h
    obtain ⟨imA, hA, imB, hB, imX, hX, a1, ha1, a2, ha2, b1, hb1, b2, hb2, x1, hx1, x2, hx2,
      h⟩ := h
    simp only [Option.some.injEq] at h
    subst h
    have hAB := dist_self_zero pm h0 imA imB
      (hid imA (vecAt_mem _ _ _ hA) imB (vecAt_mem _ _ _ hB)) pA pB a1 a2 b1 b2 ha1 ha2 hb1 hb2
    have hAX := dist_self_zero pm h0 imA imX
      (hid imA (vecAt_mem _ _ _ hA) imX (vecAt_mem _ _ _ hX)) pA pB a1 a2 x1 x2 ha1 ha2 hx1 hx2
    have hXB := dist_self_zero pm h0 imX imB
      (hid imX (vecAt_mem _ _ _ hX) imB (vecAt_mem _ _ _ hB)) pA pB x1 x2 b1 b2 hx1 hx2 hb1 hb2
    refine ⟨[GCOp.addVtx, GCOp.addTermWeights (g.vtxCount : Int) 0 (pm.dist a1 a2 b1 b2),
      GCOp.addEdges (pm.nodeId pA) (g.vtxCount : Int) (pm.dist a1 a2 x1 x2) (pm.dist a1 a2 x1 x2),
      GCOp.addEdges (g.vtxCount : Int) (pm.nodeId pB) (pm.dist x1 x2 b1 b2) (pm.dist x1 x2 b1 b2)],
      ?_, ?_⟩
    · simp [GCGraph.addEdges, GCGraph.addTermWeights, GCGraph.addVtx]
    · intro op hop S
      simp only [List.mem_cons, List.mem_singleton, List.not_mem_nil, or_false] at hop
      rcases hop with rfl | rfl | rfl | rfl <;> simp [GCOp.cut, hAB, hAX, hXB]

theorem neighborLinks_zero {Tp : Type} (pm : Photomontage Tp) (hid : pm.IdenticalImages)
    (h0 : ∀ a, pm.norm2 a a = 0) (x : Mat Int) (alpha : Int)
    (g g1 : GCGraph) (h : pm.neighborLinks x alpha g = some g1) :
    ∃ extra : List GCOp, g1.ops = g.ops ++ extra ∧ ∀ op ∈ extra, ∀ S, GCOp.cut S op = 0 := by
  refine foldlM_inv (pm.neighborStep x alpha)
    (fun g1 => ∃ extra : List GCOp, g1.ops = g.ops ++ extra ∧
      ∀ op ∈ extra, ∀ S, GCOp.cut S op = 0)
    (neighborCalls pm.height pm.width) g g1 ?_ ⟨[], by simp, by simp⟩ h
  intro c _ b0 b1 hb0 hstep
  obtain ⟨e0, ho, hz⟩ := hb0
  unfold Photomontage.neighborStep at hstep
  simp only [Option.bind_eq_bind, Option.bind_eq_some] at hstep
  obtain ⟨lA, _, lB, _, hsw⟩ := hstep
  obtain ⟨e1, ho1, hz1⟩ := setWeights_zero pm hid h0 b0 b1 c.pA c.pB lA lB alpha hsw
  refine ⟨e0 ++ e1, by rw [ho1, ho, List.append_assoc], ?_⟩
  intro op hop S
  rcases List.mem_append.mp hop with h1 | h1
  · exact hz op h1 S
  · exact hz1 op h1 S

theorem sum_eq_zero_of_forall (l : List ℚ) (h : ∀ a ∈ l, a = 0) : l.sum = 0 := by
  induction l with
  | nil => simp
  | cons a l ih =>
    rw [List.sum_cons, h a (List.mem_cons_self _ _),
      ih (fun b hb => h b (List.mem_cons_of_mem _ hb))]
    simp

/-- With identical candidate images every neighbour link has capacity zero: the capacity
of a cut is the mask penalty of the decoded labeling. -/
theorem cutCapacity_of_identical {Tp : Type} (pm : Photomontage Tp) (hid : pm.IdenticalImages)
    (h0 : ∀ a, pm.norm2 a a = 0) (x : Mat Int) (alpha : Int) (g : GCGraph) (S : Int → Bool)
    (h : pm.buildGraph x alpha = some g) :
    g.cutCapacity S =
      gridSum pm.height pm.width (pm.maskPenalty (pm.expansionLabeling x alpha S)) := by
  have hcap := buildGraph_cutCapacity pm x alpha g S h
  have hh := h
  unfold Photomontage.buildGraph at hh
  simp only [Option.bind_eq_bind, Option.bind_eq_some] at hh
  obtain ⟨g1, ht, hn⟩ := hh
  obtain ⟨e1, _⟩ := terminalLinks_spec pm x alpha _ g1 ht
  obtain ⟨links, ho, hz⟩ := neighborLinks_zero pm hid h0 x alpha g1 g hn
  have hlen := terminalOps_length pm x alpha 0 pm.height
  have hdrop : g.ops.drop (2 * (pm.height * pm.width)) = links := by
    rw [ho, e1]
    simp only [GCGraph.create, List.nil_append]
    rw [← hlen, List.drop_left]
  rw [hcap, hdrop, sum_eq_zero_of_forall _ (fun a ha => by
    obtain ⟨op, hop, rfl⟩ := List.mem_map.mp ha
    exact hz op hop S)]
  simp

theorem rangeSum_succ (n : Nat) (G : Nat → ℚ) :
    ((List.range (n + 1)).map G).sum = ((List.range n).map G).sum + G n := by
  rw [List.range_succ, List.map_append, List.sum_append]
  simp

theorem rangeSum_indicator (a : Nat) (c : ℚ) : ∀ n : Nat,
    ((List.range n).map (fun p => if p = a then c else 0)).sum = if a < n then c else 0 := by
  intro n
  induction n with
  | zero => simp
  | succ n ih =>
    rw [rangeSum_succ, ih]
    by_cases h1 : a < n
    · have h2 : n ≠ a := by omega
      have h3 : a < n + 1 := by omega
      simp [h1, h2, h3]
    · by_cases h2 : n = a
      · have h3 : a < n + 1 := by omega
        simp [h1, h2, h3]
      · have h3 : ¬ a < n + 1 := by omega
        simp [h1, h2, h3]

theorem rangeSum_sub3 (f g k : Nat → ℚ) : ∀ n : Nat,
    ((List.range n).map (fun p => f p - g p - k p)).sum =
      ((List.range n).map f).sum - ((List.range n).map g).sum - ((List.range n).map k).sum := by
  intro n
  induction n with
  | zero => simp
  | succ n ih =>
    rw [rangeSum_succ, rangeSum_succ, rangeSum_succ, rangeSum_succ, ih]
    ring

theorem rangeSum_mono (f g : Nat → ℚ) : ∀ n : Nat, (∀ p, p < n → f p ≤ g p) →
    ((List.range n).map f).sum ≤ ((List.range n).map g).sum := by
  intro n
  induction n with
  | zero => intro _; simp
  | succ n ih =>
    intro h
    rw [rangeSum_succ, rangeSum_succ]
    have := ih (fun p hp => h p (by omega))
    have := h n (by omega)
    linarith

theorem gridSum_flatten (w : Nat) (G : Nat → ℚ) : ∀ h : Nat,
    gridSum h w (fun i j => G (i * w + j)) = ((List.range (h * w)).map G).sum := by
  intro h
  induction h with
  | zero => simp [gridSum]
  | succ h ih =>
    have hs : gridSum (h + 1) w (fun i j => G (i * w + j)) =
        gridSum h w (fun i j => G (i * w + j)) +
          ((List.range w).map (fun j => G (h * w + j))).sum := by
      unfold gridSum
      rw [rangeSum_succ]
    rw [hs, ih, Nat.succ_mul, List.range_add, List.map_append, List.sum_append, List.map_map]
    rfl

theorem gridSum_mono (h w : Nat) (f g : Nat → Nat → ℚ)
    (hfg : ∀ i j, i < h → j < w → f i j ≤ g i j) : gridSum h w f ≤ gridSum h w g := by
  unfold gridSum
  apply rangeSum_mono
  intro i hi
  apply rangeSum_mono
  intro j hj
  exact hfg i j hi hj

theorem strandedBase_sum :
    ((List.range (8 * 8)).map (fun p => if 1 ≤ p ∧ p ≤ 51 then GCInfinity else 0)).sum
      = 51 * GCInfinity := by decide!

/-- On the grid of `pmMany`, labels taken among `0`, `a` and `b` leave at least 49 of
the pixels 1 to 51 with an invalid label. -/
theorem strandedPenalty_sum (a b : Nat) :
    49 * GCInfinity ≤ gridSum 8 8 (strandedPenalty a b) := by
  have hc : (0 : ℚ) ≤ GCInfinity := by unfold GCInfinity; norm_num
  have hflat := gridSum_flatten 8
    (fun p => (if 1 ≤ p ∧ p ≤ 51 then GCInfinity else 0) - (if p = a then GCInfinity else 0) -
      (if p = b then GCInfinity else 0)) 8
  have hle : gridSum 8 8 (fun i j =>
      (fun p => (if 1 ≤ p ∧ p ≤ 51 then GCInfinity else 0) - (if p = a then GCInfinity else 0) -
        (if p = b then GCInfinity else 0)) (i * 8 + j)) ≤ gridSum 8 8 (strandedPenalty a b) := by
    apply gridSum_mono
    intro i j _ _
    simp only [strandedPenalty]
    generalize i * 8 + j = p
    split_ifs <;> first | linarith | (exfalso; omega)
  rw [hflat, rangeSum_sub3, strandedBase_sum, rangeSum_indicator, rangeSum_indicator] at hle
  have h1 : (if a < 8 * 8 then GCInfinity else 0) ≤ GCInfinity := by split <;> linarith
  have h2 : (if b < 8 * 8 then GCInfinity else 0) ≤ GCInfinity := by split <;> linarith
  linarith

theorem gdRound_adopts {Tp : Type} (sv : Solver) (s : GDState Tp) (pm1 : Photomontage Tp)
    (minValue : ℚ) (src : Mat Int) (hexp : s.pm.expandAll sv s.x_n = some pm1)
    (hmin : pm1.distances.get? (min_idx pm1.distances) = some minValue)
    (hsrc : pm1.labelings.get? (min_idx pm1.distances) = some src)
    (hlt : minValue < (49 / 50 : ℚ) * s.optValue) :
    gdRound sv s = some (GDRound.adopted (s.copyTo pm1 minValue src)) := by
  unfold gdRound
  simp only [hexp, Option.bind_eq_bind, Option.some_bind, hmin, hlt, if_true, hsrc,
    Option.pure_def]

theorem gdRound_stops {Tp : Type} (sv : Solver) (s : GDState Tp) (pm1 : Photomontage Tp)
    (minValue : ℚ) (hexp : s.pm.expandAll sv s.x_n = some pm1)
    (hmin : pm1.distances.get? (min_idx pm1.distances) = some minValue)
    (hlt : ¬ minValue < (49 / 50 : ℚ) * s.optValue) :
    gdRound sv s = some (GDRound.stopped { s with pm := pm1 }) := by
  unfold gdRound
  simp only [hexp, Option.bind_eq_bind, Option.some_bind, hmin, hlt, if_false,
    Option.pure_def]

theorem pairCost_zero_of_identical {Tp : Type} (pm : Photomontage Tp)
    (hid : pm.IdenticalImages) (h0 : ∀ a, pm.norm2 a a = 0) (L : Mat Int) (p q : Nat × Nat) :
    pm.pairCost L p q = 0 := by
  unfold Photomontage.pairCost
  split
  · rename_i a1 a2 b1 b2 h1 h2 h3 h4
    unfold Photomontage.pixelAt at h1 h2 h3 h4
    simp only [Option.bind_eq_some] at h1 h2 h3 h4
    obtain ⟨im1, hv1, hr1⟩ := h1
    obtain ⟨im2, hv2, hr2⟩ := h2
    obtain ⟨im3, hv3, hr3⟩ := h3
    obtain ⟨im4, hv4, hr4⟩ := h4
    have e12 := hid im1 (vecAt_mem _ _ _ hv1) im3 (vecAt_mem _ _ _ hv3)
    have e24 := hid im2 (vecAt_mem _ _ _ hv2) im4 (vecAt_mem _ _ _ hv4)
    subst e12 e24
    rw [hr1] at hr3
    rw [hr2] at hr4
    simp only [Option.some.injEq] at hr3 hr4
    subst hr3 hr4
    simp [Photomontage.dist, h0]
  · rfl

theorem gridSum_zero (h w : Nat) (f : Nat → Nat → ℚ) (hf : ∀ i j, f i j = 0) :
    gridSum h w f = 0 := by
  unfold gridSum
  apply sum_eq_zero_of_forall
  intro a ha
  obtain ⟨i, _, rfl⟩ := List.mem_map.mp ha
  apply sum_eq_zero_of_forall
  intro b hb
  obtain ⟨j, _, rfl⟩ := List.mem_map.mp hb
  exact hf i j

theorem seamCost_zero_of_identical {Tp : Type} (pm : Photomontage Tp)
    (hid : pm.IdenticalImages) (h0 : ∀ a, pm.norm2 a a = 0) (L : Mat Int) :
    pm.seamCost L = 0 := by
  unfold Photomontage.seamCost
  rw [gridSum_zero _ _ _ (fun i j => pairCost_zero_of_identical pm hid h0 L _ _),
    gridSum_zero _ _ _ (fun i j => pairCost_zero_of_identical pm hid h0 L _ _)]
  simp

theorem sqDiff_self (a : ℚ) : sqDiff a a = 0 := by simp [sqDiff]

theorem pmMany_wellSized : pmMany.WellSized := ⟨rfl, rfl, rfl⟩

theorem pmMany_imagesSized : pmMany.ImagesSized := by
  intro im him
  simp only [pmMany, List.mem_replicate] at him
  rw [him.2]
  exact ⟨rfl, rfl⟩

theorem pmMany_masksSized : pmMany.MasksSized := by
  refine ⟨rfl, ?_⟩
  intro m hm
  simp only [pmMany, List.mem_map] at hm
  obtain ⟨k, _, rfl⟩ := hm
  exact ⟨rfl, rfl⟩

theorem pmMany_identical : pmMany.IdenticalImages := by
  intro a ha b hb
  simp only [pmMany, List.mem_replicate] at ha hb
  rw [ha.2, hb.2]

theorem pmMany_maskAt (l : Nat) (hl : l < 52) (i j : Nat) (hi : i < 8) (hj : j < 8) :
    pmMany.maskAt l i j = some ((manyMask l).data i j) := by
  unfold Photomontage.maskAt vecAt
  have hget : pmMany.masks.get? l = some (manyMask l) := by
    simp only [pmMany, List.get?_eq_getElem?, List.getElem?_map]
    rw [List.getElem?_range hl]
    rfl
  simp only [Int.ofNat_nonneg, if_true, Int.toNat_ofNat, hget, Option.some_bind]
  exact atRC_some_of_lt (manyMask l) i j hi hj

/-- On `pmMany`, a labeling that uses only the labels `0`, `a` and `b` pays at least
the penalty `strandedPenalty a b` at every pixel. -/
theorem pmMany_penalty_ge (L : Mat Int) (a b : Nat) (ha : a < 52) (hb : b < 52)
    (hr : L.rows = 8) (hc : L.cols = 8)
    (hL : ∀ i j, i < 8 → j < 8 → L.data i j = 0 ∨ L.data i j = a ∨ L.data i j = b)
    (i j : Nat) (hi : i < 8) (hj : j < 8) :
    strandedPenalty a b i j ≤ pmMany.maskPenalty L i j := by
  have hat := atRC_some_of_lt L i j (by omega) (by omega)
  unfold Photomontage.maskPenalty Photomontage.labelMask
  rw [hat]
  simp only [Option.some_bind]
  have hlab : ∃ l : Nat, l < 52 ∧ L.data i j = (l : Int) ∧ (l = 0 ∨ l = a ∨ l = b) := by
    rcases hL i j hi hj with h | h | h
    · exact ⟨0, by decide, by simpa using h, Or.inl rfl⟩
    · exact ⟨a, ha, h, Or.inr (Or.inl rfl)⟩
    · exact ⟨b, hb, h, Or.inr (Or.inr rfl)⟩
  obtain ⟨l, hl, hle, hcases⟩ := hlab
  rw [hle, pmMany_maskAt l hl i j hi hj]
  simp only [Option.getD_some, strandedPenalty, manyMask]
  have hc0 : (0 : ℚ) ≤ GCInfinity := by unfold GCInfinity; norm_num
  by_cases hp : 1 ≤ i * 8 + j ∧ i * 8 + j ≤ 51 ∧ i * 8 + j ≠ a ∧ i * 8 + j ≠ b
  · have hzero : (if l = 0 then (if i * 8 + j = 0 ∨ 52 ≤ i * 8 + j then 255 else 0)
        else (if i * 8 + j = l then 255 else 0)) = 0 := by
      by_cases hl0 : l = 0
      · have h52 : ¬ (i * 8 + j = 0 ∨ 52 ≤ i * 8 + j) := by omega
        rw [if_pos hl0, if_neg h52]
      · have hne : ¬ (i * 8 + j = l) := by
          rcases hcases with h | h | h <;> omega
        rw [if_neg hl0, if_neg hne]
    rw [hzero]
    simp [hp, termWeight]
  · simp only [hp, if_false]
    exact termWeight_nonneg _

theorem onlyPixelOne_penalty :
    gridSum 8 8 (pmMany.maskPenalty
      (pmMany.expansionLabeling (zeroLabeling 8 8) ((1 : Nat) : Int) onlyPixelOne))
      = 50 * GCInfinity := by decide!

theorem expansion_of_expansion_labels (x : Mat Int) (a b : Nat) (S T : Int → Bool)
    (hx : ∀ i j, x.data i j = 0) (i j : Nat) :
    (pmMany.expansionLabeling (pmMany.expansionLabeling x a S) b T).data i j = 0 ∨
      (pmMany.expansionLabeling (pmMany.expansionLabeling x a S) b T).data i j = a ∨
      (pmMany.expansionLabeling (pmMany.expansionLabeling x a S) b T).data i j = b := by
  simp only [Photomontage.expansionLabeling, Mat.filled, Photomontage.decodedLabel]
  split
  · split
    · exact Or.inl (hx i j)
    · exact Or.inr (Or.inl rfl)
  · exact Or.inr (Or.inr rfl)

/-- The run of `gradientDescent` on `pmMany` with a minimum-cut solver: the first round
adopts a label at a flow value of at most `50 * 10^10`, the second round finds no flow
value below `49 * 10^10` and leaves the loop, and the labeling left has a pixel whose
label is invalid there. -/
theorem pmMany_run (sv : Solver) (hmc : sv.IsMinCut) :
    ∃ out, pmMany.gradientDescent sv 2 (zeroLabeling 8 8) = some out ∧
      ∃ i j, i < 8 ∧ j < 8 ∧ pmMany.labelMask out.1 i j = some 0 := by
  have hrep : sv.ReportsCut := fun g => (hmc g).1
  have hc0 : (0 : ℚ) ≤ GCInfinity := by unfold GCInfinity; norm_num
  -- the first round
  have hvalid0 : pmMany.ValidLabels (zeroLabeling 8 8) :=
    zeroLabeling_valid pmMany 8 8 (by decide)
  have hb0 : ∀ i : Nat, i < pmMany.lsize →
      ∃ g, pmMany.buildGraph (zeroLabeling 8 8) i = some g := fun i hi =>
    buildGraph_some_of_square pmMany _ i pmMany_wellSized pmMany_imagesSized
      pmMany_masksSized rfl (le_refl _) (le_refl _) hvalid0 (Int.ofNat_nonneg i)
      (by exact_mod_cast hi)
  obtain ⟨pm1, hexp1⟩ := expandAll_some pmMany sv (zeroLabeling 8 8) pmMany_wellSized hb0
  obtain ⟨hs1, hl1, hd1, hdone1, _⟩ := expandAll_spec pmMany pm1 sv _ hexp1
  have hlen1 : pm1.distances.length = 52 := hd1
  have hne1 : pm1.distances ≠ [] := by
    intro h; rw [h] at hlen1; simp at hlen1
  obtain ⟨m1, hmin1, hle1⟩ := min_idx_min pm1.distances hne1
  have hidx1 : min_idx pm1.distances < 52 := by
    have := min_idx_lt _ hne1; omega
  obtain ⟨gA, hgA, hdA, hlabA⟩ := hdone1 _ hidx1
  obtain ⟨g1, hg1, hd_1, _⟩ := hdone1 1 (by decide)
  have hm1 : m1 ≤ 50 * GCInfinity := by
    have h1 : m1 ≤ sv.maxFlow g1 := hle1 _ (List.get?_mem hd_1)
    have h2 : sv.maxFlow g1 ≤ g1.cutCapacity onlyPixelOne := by
      rw [(hmc g1).1]; exact (hmc g1).2 _
    rw [cutCapacity_of_identical pmMany pmMany_identical sqDiff_self _ _ g1 _ hg1] at h2
    exact le_trans h1 (le_trans h2 (le_of_eq onlyPixelOne_penalty))
  have hlt1 : m1 < (49 / 50 : ℚ) * (pmMany.gdInit (zeroLabeling 8 8)).optValue := by
    have : 50 * GCInfinity < (49 / 50 : ℚ) * DBL_MAX := by
      unfold GCInfinity DBL_MAX; norm_num
    exact lt_of_le_of_lt hm1 this
  have hr1 := gdRound_adopts sv (pmMany.gdInit (zeroLabeling 8 8)) pm1 m1 _ hexp1 hmin1 hlabA
    hlt1
  have hI1 := gdRound_adopted_inv sv pmMany _ _ (gdInit_inv pmMany pmMany_wellSized (by decide))
    hr1
  generalize hs1def : (pmMany.gdInit (zeroLabeling 8 8)).copyTo pm1 m1
    (pmMany.expansionLabeling (zeroLabeling 8 8) (min_idx pm1.distances)
      (sv.inSourceSegment gA)) = s1 at hr1 hI1
  have hx1 : s1.x_n = pmMany.expansionLabeling (zeroLabeling 8 8) (min_idx pm1.distances)
      (sv.inSourceSegment gA) := by rw [← hs1def]; rfl
  have hopt1 : s1.optValue = m1 := by rw [← hs1def]; rfl
  obtain ⟨hsame1, hll1, hdl1, _, himg1, hrows1, hcols1, _, hvalid1⟩ := hI1
  -- the second round
  have hwf1 : s1.pm.WellSized :=
    ⟨by rw [hsame1.2.1, hsame1.2.2.2.2.2.2.2.1]; rfl,
      by rw [hsame1.2.2.2.2.2.2.2.1]; exact hll1, by rw [hsame1.2.2.2.2.2.2.2.1]; exact hdl1⟩
  have hls1 : s1.pm.lsize = 52 := hsame1.2.2.2.2.2.2.2.1
  have hb1 : ∀ i : Nat, i < s1.pm.lsize → ∃ g, s1.pm.buildGraph s1.x_n i = some g := by
    intro i hi
    rw [buildGraph_congr hsame1]
    exact buildGraph_some_of_square pmMany _ i pmMany_wellSized pmMany_imagesSized
      pmMany_masksSized rfl (by rw [hrows1]) (by rw [hcols1]) hvalid1 (Int.ofNat_nonneg i)
      (by rw [hls1] at hi; exact_mod_cast hi)
  obtain ⟨pm2, hexp2⟩ := expandAll_some s1.pm sv s1.x_n hwf1 hb1
  obtain ⟨_, _, hd2, hdone2, _⟩ := expandAll_spec s1.pm pm2 sv _ hexp2
  have hlen2 : pm2.distances.length = 52 := by rw [hd2, hdl1]; rfl
  have hne2 : pm2.distances ≠ [] := by
    intro h; rw [h] at hlen2; simp at hlen2
  have hidx2 : min_idx pm2.distances < 52 := by
    have := min_idx_lt _ hne2; omega
  obtain ⟨gB, hgB, hdB, _⟩ := hdone2 _ (by rw [hls1]; exact hidx2)
  have hm2 : 49 * GCInfinity ≤ sv.maxFlow gB := by
    rw [buildGraph_congr hsame1] at hgB
    rw [hrep gB, cutCapacity_of_identical pmMany pmMany_identical sqDiff_self _ _ gB _ hgB]
    refine le_trans (strandedPenalty_sum (min_idx pm1.distances) (min_idx pm2.distances))
      (gridSum_mono _ _ _ _ (fun i j hi hj =>
        pmMany_penalty_ge _ (min_idx pm1.distances) (min_idx pm2.distances) hidx1 hidx2 rfl rfl
          (fun i j _ _ => ?_) i j hi hj))
    rw [hx1]
    exact expansion_of_expansion_labels (zeroLabeling 8 8) _ _ _ _ (fun _ _ => rfl) i j
  have hnlt : ¬ sv.maxFlow gB < (49 / 50 : ℚ) * s1.optValue := by
    rw [hopt1]
    intro hlt
    linarith
  have hr2 := gdRound_stops sv s1 pm2 _ hexp2 hdB hnlt
  have hloop : gdLoop sv 2 (pmMany.gdInit (zeroLabeling 8 8)) =
      some ({ s1 with pm := pm2 }, [s1.optValue]) := by
    simp only [gdLoop, hr1, hr2]
  refine ⟨(s1.img, pm2), ?_, ?_⟩
  · unfold Photomontage.gradientDescent
    rw [hloop]
    rfl
  · -- a pixel among 1 and 2 that the adopted label does not serve
    simp only
    rw [himg1, hx1]
    have hchoice : ∃ q : Nat, (q = 1 ∨ q = 2) ∧ q ≠ min_idx pm1.distances := by
      by_cases h : min_idx pm1.distances = 1
      · exact ⟨2, Or.inr rfl, by omega⟩
      · exact ⟨1, Or.inl rfl, fun hq => h hq.symm⟩
    obtain ⟨q, hq, hqne⟩ := hchoice
    refine ⟨0, q, by decide, by omega, ?_⟩
    unfold Photomontage.labelMask
    rw [atRC_some_of_lt _ 0 q (by show 0 < 8; decide) (by show q < 8; omega)]
    simp only [Option.some_bind, Photomontage.expansionLabeling, Mat.filled,
      Photomontage.decodedLabel, zeroLabeling]
    split
    · have := pmMany_maskAt 0 (by decide) 0 q (by decide) (by omega)
      simp only [Nat.cast_zero] at this
      rw [this]
      have h52 : ¬ (0 * 8 + q = 0 ∨ 52 ≤ 0 * 8 + q) := by omega
      simp only [manyMask, if_true, if_neg h52]
    · rw [pmMany_maskAt _ hidx1 0 q (by decide) (by omega)]
      simp only [manyMask]
      by_cases h0 : min_idx pm1.distances = 0
      · have h52 : ¬ (0 * 8 + q = 0 ∨ 52 ≤ 0 * 8 + q) := by omega
        rw [if_pos h0, if_neg h52]
      · have hne : ¬ (0 * 8 + q = min_idx pm1.distances) := by omega
        rw [if_neg h0, if_neg hne]

theorem resPixel_of_valid {Tp : Type} (pm : Photomontage Tp) (L : Mat Int)
    (hsz : pm.WellSized) (him : pm.ImagesSized) (hr : L.rows = pm.height)
    (hc : L.cols = pm.width) (hv : pm.ValidLabels L) (i j : Nat) (hi : i < pm.height)
    (hj : j < pm.width) :
    ∃ im, L.atRC i j = some (L.data i j) ∧ vecAt pm.images (L.data i j) = some im ∧
      im.atRC i j = some (im.data i j) ∧ pm.resPixel L i j = some (im.data i j) := by
  have h1 : L.atRC i j = some (L.data i j) := atRC_some_of_lt L i j (by omega) (by omega)
  obtain ⟨h0, hlt⟩ := hv i j hi hj
  have hlen : (L.data i j).toNat < pm.images.length := by
    rw [hsz.1]; omega
  have h2 : vecAt pm.images (L.data i j) = some (pm.images.get ⟨(L.data i j).toNat, hlen⟩) := by
    unfold vecAt
    simp only [h0, if_true]
    exact List.get?_eq_get hlen
  obtain ⟨hir, hic⟩ := him _ (List.get_mem pm.images _ hlen)
  have h3 := atRC_some_of_lt (pm.images.get ⟨(L.data i j).toNat, hlen⟩) i j (by omega) (by omega)
  refine ⟨_, h1, h2, h3, ?_⟩
  unfold Photomontage.resPixel
  rw [h1]
  simp only [Option.bind_eq_bind, Option.some_bind]
  rw [h2]
  simp only [Option.some_bind]
  exact h3

/-- The constructor gives the vectors of the class the sizes that `WellSized` records
and takes the grid size from the first image. -/
theorem construct_wellSized {Tp : Type} (norm2 : Tp → Tp → ℚ) (images : List (Mat Tp))
    (masks : List (Mat Nat)) (multiscale : Bool) (pm : Photomontage Tp)
    (h : Photomontage.construct norm2 images masks multiscale = some pm) :
    pm.WellSized ∧ pm.images = images ∧ pm.masks = masks ∧ pm.lsize = images.length ∧
      ∃ image0, images.get? 0 = some image0 ∧ pm.height = image0.rows ∧
        pm.width = image0.cols := by
  unfold Photomontage.construct at h
  simp only [Option.bind_eq_bind, Option.bind_eq_some, Option.pure_def] at h
  obtain ⟨image0, h0, mask0, _, hif⟩ := h
  split at hif
  · simp only [Option.some.injEq] at hif
    subst hif
    exact ⟨⟨rfl, by simp, by simp⟩, rfl, rfl, rfl, image0, h0, rfl, rfl⟩
  · cases hif

theorem maskPenalty_zero_of_allTrue {Tp : Type} (pm : Photomontage Tp) (hmt : pm.MasksAllTrue)
    (L : Mat Int) (hr : L.rows = pm.height) (hc : L.cols = pm.width) (hv : pm.ValidLabels L)
    (i j : Nat) (hi : i < pm.height) (hj : j < pm.width) : pm.maskPenalty L i j = 0 := by
  obtain ⟨h0, hlt⟩ := hv i j hi hj
  obtain ⟨l, hl⟩ : ∃ l : Nat, L.data i j = (l : Int) := ⟨(L.data i j).toNat, by omega⟩
  obtain ⟨m, hm, hne⟩ := hmt l (by rw [hl] at hlt; exact_mod_cast hlt) i j hi hj
  unfold Photomontage.maskPenalty Photomontage.labelMask
  rw [atRC_some_of_lt L i j (by omega) (by omega), hl]
  simp only [Option.some_bind, hm, Option.getD_some, termWeight, hne, ne_eq, not_false_eq_true,
    if_true]

theorem gridSum_zero_on (h w : Nat) (f : Nat → Nat → ℚ)
    (hf : ∀ i j, i < h → j < w → f i j = 0) : gridSum h w f = 0 := by
  unfold gridSum
  apply sum_eq_zero_of_forall
  intro a ha
  obtain ⟨i, hi, rfl⟩ := List.mem_map.mp ha
  apply sum_eq_zero_of_forall
  intro b hb
  obtain ⟨j, hj, rfl⟩ := List.mem_map.mp hb
  exact hf i j (List.mem_range.mp hi) (List.mem_range.mp hj)

/-- With identical candidate images and masks that are true everywhere, every flow value
that a solver reporting its cut computes for a labeling with valid labels is zero. -/
theorem flow_zero_of_identical {Tp : Type} (pm : Photomontage Tp) (sv : Solver)
    (hrep : sv.ReportsCut) (hid : pm.IdenticalImages) (h0 : ∀ a, pm.norm2 a a = 0)
    (hmt : pm.MasksAllTrue) (x : Mat Int) (alpha : Nat) (g : GCGraph)
    (hv : pm.ValidLabels x) (ha : alpha < pm.lsize)
    (h : pm.buildGraph x alpha = some g) : sv.maxFlow g = 0 := by
  rw [hrep g, cutCapacity_of_identical pm hid h0 x alpha g _ h]
  exact gridSum_zero_on _ _ _ (fun i j hi hj =>
    maskPenalty_zero_of_allTrue pm hmt _ rfl rfl
      (expansionLabeling_valid pm x alpha _ hv ha) i j hi hj)

/-- The statement of C3 on square grids, in the direct branch: with identical candidate
images, masks true everywhere and a solver that reports the capacity of its cut, the
optimization ends in its second round, the one adopted flow value is 0, and the
composite image equals the first candidate image at every pixel. -/
theorem identical_images_square_grid {Tp : Type} [Inhabited Tp] (pm : Photomontage Tp)
    (sv : Solver) (hrep : sv.ReportsCut) (hsz : pm.WellSized) (him : pm.ImagesSized)
    (hms : pm.MasksSized) (hsq : pm.height = pm.width) (hl : 1 ≤ pm.lsize)
    (hid : pm.IdenticalImages) (h0 : ∀ a, pm.norm2 a a = 0) (hmt : pm.MasksAllTrue)
    (hdir : pm.directBranch = true) :
    pm.adoptedValues sv 2 (zeroLabeling pm.height pm.width) = some [0] ∧
      ∃ out image0, pm.assignResImage sv 2 = some out ∧ pm.images.get? 0 = some image0 ∧
        out.1.rows = pm.height ∧ out.1.cols = pm.width ∧
        ∀ i j, i < pm.height → j < pm.width → out.1.data i j = image0.data i j := by
  -- the first round
  have hvalid0 : pm.ValidLabels (zeroLabeling pm.height pm.width) :=
    zeroLabeling_valid pm _ _ hl
  have hI0 := gdInit_inv pm hsz hl
  have hb0 : ∀ i : Nat, i < pm.lsize →
      ∃ g, pm.buildGraph (zeroLabeling pm.height pm.width) i = some g := fun i hi =>
    buildGraph_some_of_square pm _ i hsz him hms hsq (le_refl _) (le_refl _) hvalid0
      (Int.ofNat_nonneg i) (by exact_mod_cast hi)
  obtain ⟨pm1, hexp1⟩ := expandAll_some pm sv _ hsz hb0
  obtain ⟨hs1, hl1, hd1, hdone1, _⟩ := expandAll_spec pm pm1 sv _ hexp1
  have hne1 : pm1.distances ≠ [] := by
    intro h
    have : pm1.distances.length = pm.lsize := by rw [hd1, hsz.2.2]
    rw [h] at this
    simp at this
    omega
  have hidx1 : min_idx pm1.distances < pm.lsize := by
    have := min_idx_lt _ hne1
    rw [hd1, hsz.2.2] at this
    exact this
  obtain ⟨gA, hgA, hdA, hlabA⟩ := hdone1 _ hidx1
  have hfA : sv.maxFlow gA = 0 :=
    flow_zero_of_identical pm sv hrep hid h0 hmt _ _ gA hvalid0 hidx1 hgA
  rw [hfA] at hdA
  have hlt1 : (0 : ℚ) < (49 / 50 : ℚ) * (pm.gdInit (zeroLabeling pm.height pm.width)).optValue := by
    simp only [Photomontage.gdInit, DBL_MAX]
    norm_num
  have hr1 := gdRound_adopts sv (pm.gdInit (zeroLabeling pm.height pm.width)) pm1 0 _ hexp1
    hdA hlabA hlt1
  have hI1 := gdRound_adopted_inv sv pm _ _ hI0 hr1
  generalize hs1def : (pm.gdInit (zeroLabeling pm.height pm.width)).copyTo pm1 0
    (pm.expansionLabeling (zeroLabeling pm.height pm.width) (min_idx pm1.distances)
      (sv.inSourceSegment gA)) = s1 at hr1 hI1
  have hopt1 : s1.optValue = 0 := by rw [← hs1def]; rfl
  obtain ⟨hsame1, hll1, hdl1, _, himg1, hrows1, hcols1, _, hvalid1⟩ := hI1
  -- the second round
  have hls1 : s1.pm.lsize = pm.lsize := hsame1.2.2.2.2.2.2.2.1
  have hwf1 : s1.pm.WellSized :=
    ⟨by rw [hsame1.2.1, hls1]; exact hsz.1, by rw [hls1]; exact hll1, by rw [hls1]; exact hdl1⟩
  have hb1 : ∀ i : Nat, i < s1.pm.lsize → ∃ g, s1.pm.buildGraph s1.x_n i = some g := by
    intro i hi
    rw [buildGraph_congr hsame1]
    exact buildGraph_some_of_square pm _ i hsz him hms hsq (by rw [hrows1]) (by rw [hcols1])
      hvalid1 (Int.ofNat_nonneg i) (by rw [hls1] at hi; exact_mod_cast hi)
  obtain ⟨pm2, hexp2⟩ := expandAll_some s1.pm sv s1.x_n hwf1 hb1
  obtain ⟨_, _, hd2, hdone2, _⟩ := expandAll_spec s1.pm pm2 sv _ hexp2
  have hne2 : pm2.distances ≠ [] := by
    intro h
    have : pm2.distances.length = pm.lsize := by rw [hd2, hdl1]
    rw [h] at this
    simp at this
    omega
  have hidx2 : min_idx pm2.distances < pm.lsize := by
    have := min_idx_lt _ hne2
    rw [hd2, hdl1] at this
    exact this
  obtain ⟨gB, hgB, hdB, _⟩ := hdone2 _ (by rw [hls1]; exact hidx2)
  have hnlt : ¬ sv.maxFlow gB < (49 / 50 : ℚ) * s1.optValue := by
    rw [buildGraph_congr hsame1] at hgB
    rw [hopt1, flow_zero_of_identical pm sv hrep hid h0 hmt _ _ gB hvalid1 hidx2 hgB]
    norm_num
  have hr2 := gdRound_stops sv s1 pm2 _ hexp2 hdB hnlt
  have hloop : gdLoop sv 2 (pm.gdInit (zeroLabeling pm.height pm.width)) =
      some ({ s1 with pm := pm2 }, [s1.optValue]) := by
    simp only [gdLoop, hr1, hr2]
  have hgd : pm.gradientDescent sv 2 (zeroLabeling pm.height pm.width) = some (s1.img, pm2) := by
    unfold Photomontage.gradientDescent
    rw [hloop]
    rfl
  refine ⟨?_, ?_⟩
  · unfold Photomontage.adoptedValues
    rw [hloop, hopt1]
    rfl
  · -- the composite image
    have hlab : pm.assignLabeling sv 2 = some (s1.img, pm2) := by
      unfold Photomontage.assignLabeling
      rw [if_pos hdir]
      exact hgd
    have hlen0 : 0 < pm.images.length := by rw [hsz.1]; omega
    have hvimg : pm.ValidLabels s1.img := by rw [himg1]; exact hvalid1
    have hall : ((List.range pm.height).all fun i =>
        (List.range pm.width).all fun j => (pm.resPixel s1.img i j).isSome) = true := by
      simp only [List.all_eq_true, List.mem_range]
      intro i hi j hj
      obtain ⟨im, _, _, _, h4⟩ := resPixel_of_valid pm s1.img hsz him (by rw [himg1, hrows1])
        (by rw [himg1, hcols1]) hvimg i j hi hj
      rw [h4]; rfl
    have hres : pm.assignResImage sv 2 = some (Mat.filled pm.height pm.width pm.type
        (fun i j => (pm.resPixel s1.img i j).getD default), pm2) := by
      unfold Photomontage.assignResImage
      simp only [hlab, Option.bind_eq_bind, Option.some_bind, hall, if_true, Option.pure_def]
    refine ⟨_, pm.images.get ⟨0, hlen0⟩, hres, List.get?_eq_get hlen0, rfl, rfl, ?_⟩
    · intro i j hi hj
      obtain ⟨im, _, h2, _, h4⟩ := resPixel_of_valid pm s1.img hsz him (by rw [himg1, hrows1])
        (by rw [himg1, hcols1]) hvimg i j hi hj
      simp only [Mat.filled, h4, Option.getD_some]
      rw [hid im (vecAt_mem _ _ _ h2) _ (List.get_mem pm.images 0 hlen0)]

theorem pmTwin_masksAllTrue : pmTwin.MasksAllTrue := by
  intro l hl i j hi hj
  have hl2 : l < 2 := hl
  have hi2 : i < 2 := hi
  have hj2 : j < 2 := hj
  refine ⟨255, ?_, by decide⟩
  interval_cases l <;> interval_cases i <;> interval_cases j <;> rfl

/-- The square-grid statement applied to two identical 2 x 2 images and the exhaustive
solver. -/
theorem identical_images_square_grid_instance :
    pmTwin.adoptedValues bruteForce 2 (zeroLabeling pmTwin.height pmTwin.width) = some [0] ∧
      ∃ out image0, pmTwin.assignResImage bruteForce 2 = some out ∧
        pmTwin.images.get? 0 = some image0 ∧ out.1.rows = pmTwin.height ∧
        out.1.cols = pmTwin.width ∧
        ∀ i j, i < pmTwin.height → j < pmTwin.width → out.1.data i j = image0.data i j :=
  identical_images_square_grid pmTwin bruteForce (fun g => (bruteForce_isMinCut g).1)
    ⟨rfl, rfl, rfl⟩
    (by
      intro im him
      simp only [pmTwin, List.mem_cons, List.mem_singleton, List.not_mem_nil, or_false] at him
      rcases him with rfl | rfl <;> exact ⟨rfl, rfl⟩)
    ⟨rfl, by
      intro m hm
      simp only [pmTwin, List.mem_cons, List.mem_singleton, List.not_mem_nil, or_false] at hm
      rcases hm with rfl | rfl <;> exact ⟨rfl, rfl⟩⟩
    rfl (by show 1 ≤ 2; decide)
    (by
      intro a ha b hb
      simp only [pmTwin, List.mem_cons, List.mem_singleton, List.not_mem_nil, or_false] at ha hb
      rcases ha with rfl | rfl <;> rcases hb with rfl | rfl <;> rfl)
    sqDiff_self pmTwin_masksAllTrue rfl

/-! ## Further lemmas: the terminal pass, counts of calls, the working storage -/

theorem pixelOps_succ (f : Nat → GCOp) (n : Nat) :
    pixelOps f (n + 1) = pixelOps f n ++ [GCOp.addVtx, f n] := by
  unfold pixelOps
  rw [List.range_succ, List.flatMap_append]
  simp

theorem pixelOps_length (f : Nat → GCOp) : ∀ n, (pixelOps f n).length = 2 * n := by
  intro n
  induction n with
  | zero => rfl
  | succ n ih => rw [pixelOps_succ, List.length_append, ih]; simp; omega

theorem pixelOps_get (f : Nat → GCOp) : ∀ n p, p < n →
    (pixelOps f n).get? (2 * p) = some GCOp.addVtx ∧
      (pixelOps f n).get? (2 * p + 1) = some (f p) := by
  intro n
  induction n with
  | zero => intro p hp; omega
  | succ n ih =>
    intro p hp
    rw [pixelOps_succ]
    simp only [List.get?_eq_getElem?] at ih ⊢
    by_cases hlt : p < n
    · obtain ⟨h1, h2⟩ := ih p hlt
      have hl := pixelOps_length f n
      constructor
      · rw [List.getElem?_append_left (by omega)]; exact h1
      · rw [List.getElem?_append_left (by omega)]; exact h2
    · have hpn : p = n := by omega
      subst hpn
      have hl := pixelOps_length f p
      constructor
      · rw [List.getElem?_append_right (by omega), hl]
        simp
      · rw [List.getElem?_append_right (by omega), hl]
        have : 2 * p + 1 - 2 * p = 1 := by omega
        rw [this]
        rfl

theorem pixelOps_take (f : Nat → GCOp) : ∀ n p, p ≤ n →
    (pixelOps f n).take (2 * p) = pixelOps f p := by
  intro n
  induction n with
  | zero =>
    intro p hp
    have : p = 0 := by omega
    subst this
    rfl
  | succ n ih =>
    intro p hp
    by_cases hle : p ≤ n
    · rw [pixelOps_succ, List.take_append_of_le_length (by rw [pixelOps_length]; omega)]
      exact ih p hle
    · have hpn : p = n + 1 := by omega
      subst hpn
      rw [List.take_of_length_le (by rw [pixelOps_length])]

theorem pixelOps_count (f : Nat → GCOp) (hf : ∀ p, f p ≠ GCOp.addVtx) :
    ∀ n, (pixelOps f n).count GCOp.addVtx = n := by
  intro n
  induction n with
  | zero => rfl
  | succ n ih =>
    rw [pixelOps_succ, List.count_append, ih]
    have h1 : (f n == GCOp.addVtx) = false := by
      simp only [beq_eq_false_iff_ne, ne_eq]
      exact hf n
    simp [List.count_cons, h1]

theorem flatMap_range_congr {β : Type} (F G : Nat → List β) : ∀ b : Nat,
    (∀ j, j < b → F j = G j) → (List.range b).flatMap F = (List.range b).flatMap G := by
  intro b
  induction b with
  | zero => intro _; rfl
  | succ b ih =>
    intro h
    rw [List.range_succ, List.flatMap_append, List.flatMap_append,
      ih (fun j hj => h j (by omega))]
    simp [h b (by omega)]

theorem pixelOps_add (f : Nat → GCOp) (a : Nat) : ∀ b,
    pixelOps f (a + b) =
      pixelOps f a ++ (List.range b).flatMap fun j => [GCOp.addVtx, f (a + j)] := by
  intro b
  induction b with
  | zero => simp
  | succ b ih =>
    rw [← Nat.add_assoc, pixelOps_succ, ih, List.range_succ, List.flatMap_append]
    simp

theorem terminalOps_eq_pixelOps {Tp : Type} (pm : Photomontage Tp) (x : Mat Int) (alpha : Int) :
    ∀ m, pm.terminalOps x alpha 0 m =
      pixelOps (fun p => pm.terminalOp x alpha ((p : Nat) : Int) (p / pm.width) (p % pm.width))
        (m * pm.width) := by
  intro m
  induction m with
  | zero => simp [Photomontage.terminalOps, pixelOps]
  | succ m ih =>
    have hs : pm.terminalOps x alpha 0 (m + 1) =
        pm.terminalOps x alpha 0 m ++ pm.terminalRowOps x alpha (0 + m * pm.width) m pm.width := by
      unfold Photomontage.terminalOps
      rw [List.range_succ, List.flatMap_append]
      simp
    rw [hs, ih, Nat.succ_mul, pixelOps_add]
    congr 1
    unfold Photomontage.terminalRowOps
    apply flatMap_range_congr
    intro j hj
    have hw : 0 < pm.width := by omega
    have h1 : (m * pm.width + j) / pm.width = m := by
      rw [Nat.add_comm, Nat.add_mul_div_right _ _ hw, Nat.div_eq_of_lt hj]; omega
    have h2 : (m * pm.width + j) % pm.width = j := by
      rw [Nat.add_comm, Nat.add_mul_mod_self_right, Nat.mod_eq_of_lt hj]
    simp only [h1, h2, Nat.zero_add]

theorem setWeights_counts {Tp : Type} (pm : Photomontage Tp) (g g1 : GCGraph) (pA pB : Point)
    (lA lB lX : Int) (h : pm.setWeights g pA pB lA lB lX = some g1) :
    g1.vtxCount ≤ g.vtxCount + 1 ∧ g1.edgeCalls ≤ g.edgeCalls + 2 ∧
      g1.vtxCapacity = g.vtxCapacity ∧ g1.edgeCapacity = g.edgeCapacity ∧
      g.edgeCalls + 1 ≤ g1.edgeCalls := by
  unfold Photomontage.setWeights at h
  split at h
  · simp only [Option.bind_eq_bind, Option.pure_def, Option.bind_eq_some] at h
    obtain ⟨imA, _, imX, _, a1, _, a2, _, x1, _, x2, _, h⟩ := h
    simp only [Option.some.injEq] at h
    subst h
    refine ⟨by simp [GCGraph.addEdges], ?_, rfl, rfl, ?_⟩
    · simp [GCGraph.edgeCalls, GCGraph.addEdges, List.countP_append, GCOp.isAddEdges]
    · simp [GCGraph.edgeCalls, GCGraph.addEdges, List.countP_append, GCOp.isAddEdges]
  · simp only [Option.bind_eq_bind, Option.pure_def, Option.bind_eq_some] at h
    obtain ⟨imA, _, imB, _, imX, _, a1, _, a2, _, b1, _, b2, _, x1, _, x2, _, h⟩ := h
    simp only [Option.some.injEq] at h
    subst h
    refine ⟨by simp [GCGraph.addEdges, GCGraph.addTermWeights, GCGraph.addVtx], ?_, rfl, rfl, ?_⟩
    · simp [GCGraph.edgeCalls, GCGraph.addEdges, GCGraph.addTermWeights, GCGraph.addVtx,
        List.countP_append, GCOp.isAddEdges, List.countP_cons]
    · simp [GCGraph.edgeCalls, GCGraph.addEdges, GCGraph.addTermWeights, GCGraph.addVtx,
        List.countP_append, GCOp.isAddEdges, List.countP_cons]

theorem neighborFold_counts {Tp : Type} (pm : Photomontage Tp) (x : Mat Int) (alpha : Int) :
    ∀ (cs : List NeighborCall) (g g1 : GCGraph),
      cs.foldlM (pm.neighborStep x alpha) g = some g1 →
      g1.vtxCount ≤ g.vtxCount + cs.length ∧ g1.edgeCalls ≤ g.edgeCalls + 2 * cs.length ∧
        g1.vtxCapacity = g.vtxCapacity ∧ g1.edgeCapacity = g.edgeCapacity ∧
        g.edgeCalls + cs.length ≤ g1.edgeCalls := by
  intro cs
  induction cs with
  | nil =>
    intro g g1 h
    simp only [List.foldlM_nil, Option.pure_def, Option.some.injEq] at h
    subst h
    exact ⟨by simp, by simp, rfl, rfl, by simp⟩
  | cons c cs ih =>
    intro g g1 h
    rw [List.foldlM_cons] at h
    simp only [Option.bind_eq_bind, Option.bind_eq_some] at h
    obtain ⟨g2, hstep, hrest⟩ := h
    unfold Photomontage.neighborStep at hstep
    simp only [Option.bind_eq_bind, Option.bind_eq_some] at hstep
    obtain ⟨lA, _, lB, _, hsw⟩ := hstep
    obtain ⟨h1, h2, h3, h4, h5⟩ := setWeights_counts pm g g2 c.pA c.pB lA lB alpha hsw
    obtain ⟨k1, k2, k3, k4, k5⟩ := ih g2 g1 hrest
    refine ⟨?_, ?_, k3.trans h3, k4.trans h4, ?_⟩
    · simp only [List.length_cons]; omega
    · simp only [List.length_cons]; omega
    · simp only [List.length_cons]; omega

theorem flatMap_range_length {β : Type} (F : Nat → List β) (c : Nat)
    (hF : ∀ i, (F i).length = c) : ∀ n, ((List.range n).flatMap F).length = n * c := by
  intro n
  induction n with
  | zero => simp
  | succ n ih =>
    rw [List.range_succ, List.flatMap_append, List.length_append, ih]
    simp [hF n, Nat.succ_mul]

theorem neighborCalls_length (h w : Nat) :
    (neighborCalls h w).length = (h - 1) * (2 * (w - 1) + 1) + (w - 1) := by
  unfold neighborCalls
  rw [List.length_append, List.length_map, List.length_range]
  congr 1
  apply flatMap_range_length
  intro i
  rw [List.length_append]
  have h2 := flatMap_range_length (fun (j : Nat) =>
      [ (⟨⟨(i : Int), (j : Int)⟩, ⟨(i : Int), (j : Int) + 1⟩,
            ((i : Int), (j : Int)), ((i : Int), (j : Int) + 1)⟩ : NeighborCall),
        (⟨⟨(i : Int), (j : Int)⟩, ⟨(i : Int) + 1, (j : Int)⟩,
            ((i : Int), (j : Int)), ((i : Int) + 1, (j : Int))⟩ : NeighborCall) ]) 2
    (fun _ => rfl) (w - 1)
  rw [h2]
  simp
  omega

theorem int32_of_range (z : Int) (h0 : -2147483648 ≤ z) (h1 : z ≤ 2147483647) :
    int32 z = z := by
  unfold int32
  omega

/-- As long as `2*actualEdges` fits in an `int`, the sizes computed for the graph are
the mathematical values, and `actualEdges` is the number of invocations of `setWeights`. -/
theorem actualEdges_of_range {Tp : Type} (pm : Photomontage Tp)
    (hh : 1 ≤ pm.height) (hw : 1 ≤ pm.width)
    (hb : 2 * ((pm.height - 1) * pm.width + pm.height * (pm.width - 1)) ≤ 2147483647) :
    pm.actualEdges = ((neighborCalls pm.height pm.width).length : Int) ∧
      pm.actualEdges = ((pm.height : Int) - 1) * pm.width + pm.height * ((pm.width : Int) - 1) ∧
      int32 (pm.actualEdges + int32 (pm.height * pm.width)) =
        pm.actualEdges + pm.height * pm.width ∧
      int32 (2 * pm.actualEdges) = 2 * pm.actualEdges := by
  obtain ⟨a, ha⟩ : ∃ a : Nat, pm.height = a + 1 := ⟨pm.height - 1, by omega⟩
  obtain ⟨b, hb2⟩ : ∃ b : Nat, pm.width = b + 1 := ⟨pm.width - 1, by omega⟩
  rw [neighborCalls_length]
  unfold Photomontage.actualEdges
  rw [ha, hb2] at hb ⊢
  simp only [Nat.add_sub_cancel] at hb ⊢
  have e1 : a * (b + 1) = a * b + a := by ring
  have e2 : (a + 1) * b = a * b + b := by ring
  have e3 : (((a + 1 : Nat) : Int) - 1) * ((b + 1 : Nat) : Int) = ((a * b : Nat) : Int) + a := by
    push_cast; ring
  have e4 : ((a + 1 : Nat) : Int) * (((b + 1 : Nat) : Int) - 1) = ((a * b : Nat) : Int) + b := by
    push_cast; ring
  have e5 : ((a + 1 : Nat) : Int) * ((b + 1 : Nat) : Int) = ((a * b : Nat) : Int) + a + b + 1 := by
    push_cast; ring
  have e6 : (((a * (2 * b + 1) + b : Nat)) : Int) = 2 * ((a * b : Nat) : Int) + a + b := by
    push_cast; ring
  rw [e1, e2] at hb
  rw [e3, e4, e5, e6]
  generalize a * b = p at hb ⊢
  clear e1 e2 e3 e4 e5 e6 ha hb2 hh hw
  have h1 : int32 ((p : Int) + a) = (p : Int) + a := int32_of_range _ (by omega) (by omega)
  have h2 : int32 ((p : Int) + b) = (p : Int) + b := int32_of_range _ (by omega) (by omega)
  have h3 : int32 ((p : Int) + a + ((p : Int) + b)) = (p : Int) + a + ((p : Int) + b) :=
    int32_of_range _ (by omega) (by omega)
  have h4 : int32 ((p : Int) + a + b + 1) = (p : Int) + a + b + 1 :=
    int32_of_range _ (by omega) (by omega)
  rw [h1, h2, h3, h4]
  refine ⟨by ring, rfl, ?_, ?_⟩
  · exact int32_of_range _ (by omega) (by omega)
  · exact int32_of_range _ (by omega) (by omega)

theorem pixelOps_edgeCalls (f : Nat → GCOp) (hf : ∀ p, (f p).isAddEdges = false) :
    ∀ n, (pixelOps f n).countP GCOp.isAddEdges = 0 := by
  intro n
  induction n with
  | zero => rfl
  | succ n ih =>
    rw [pixelOps_succ, List.countP_append, ih]
    have h1 := hf n
    simp only [List.countP_cons, List.countP_nil, h1]
    rfl

theorem expansionStep_eq {Tp : Type} (sv : Solver) (x : Mat Int) (pm : Photomontage Tp)
    (n : Nat) :
    Photomontage.expansionStep sv x pm n =
      (pm.buildGraph x n).bind fun g =>
        if n < pm.labelings.length ∧ n < pm.distances.length then
          some { pm with
            labelings := pm.labelings.set n (pm.expansionLabeling x n (sv.inSourceSegment g))
            distances := pm.distances.set n (sv.maxFlow g) }
        else none := by
  unfold Photomontage.expansionStep Photomontage.singleExpansion
  cases hb : pm.buildGraph x n with
  | none => simp
  | some g =>
    simp only [Option.bind_eq_bind, Option.some_bind, Option.pure_def, vecSet,
      Int.toNat_ofNat, Int.ofNat_nonneg, Nat.cast_nonneg, true_and]
    by_cases h1 : n < pm.labelings.length
    · by_cases h2 : n < pm.distances.length
      · simp [h1, h2, Photomontage.expansionLabeling]
      · simp [h1, h2]
    · simp [h1]

/-- Two objects with the same inputs whose working storage has the same sizes. -/
theorem expandAll_rel {Tp : Type} (sv : Solver) (x : Mat Int) (a b : Photomontage Tp)
    (hs : a.SameInputs b) (hl : a.labelings.length = b.labelings.length)
    (hd : a.distances.length = b.distances.length) :
    ∀ n : Nat,
      ((List.range n).foldlM (Photomontage.expansionStep sv x) a = none ∧
        (List.range n).foldlM (Photomontage.expansionStep sv x) b = none) ∨
      ∃ a1 b1, (List.range n).foldlM (Photomontage.expansionStep sv x) a = some a1 ∧
        (List.range n).foldlM (Photomontage.expansionStep sv x) b = some b1 ∧
        a1.SameInputs b1 ∧ a1.labelings.length = b1.labelings.length ∧
        a1.distances.length = b1.distances.length ∧
        ∀ i, i < n → a1.labelings.get? i = b1.labelings.get? i ∧
          a1.distances.get? i = b1.distances.get? i := by
  intro n
  induction n with
  | zero =>
    right
    exact ⟨a, b, rfl, rfl, hs, hl, hd, fun i hi => absurd hi (by omega)⟩
  | succ n ih =>
    rw [foldlM_range_succ, foldlM_range_succ]
    rcases ih with ⟨h1, h2⟩ | ⟨a1, b1, h1, h2, hs1, hl1, hd1, hget⟩
    · left
      rw [h1, h2]
      exact ⟨rfl, rfl⟩
    · rw [h1, h2]
      simp only [Option.some_bind, expansionStep_eq, buildGraph_congr hs1 x n, ← hl1, ← hd1]
      cases hb : a1.buildGraph x n with
      | none => left; exact ⟨rfl, rfl⟩
      | some g =>
        simp only [Option.some_bind]
        by_cases hc : n < a1.labelings.length ∧ n < a1.distances.length
        · right
          rw [if_pos hc, if_pos hc]
          refine ⟨_, _, rfl, rfl, hs1, ?_, ?_, ?_⟩
          · simp only [List.length_set]; exact hl1
          · simp only [List.length_set]; exact hd1
          · intro i hi
            by_cases hin : i = n
            · subst hin
              simp only [expansionLabeling_congr hs1]
              rw [get?_set_self _ _ _ hc.1, get?_set_self _ _ _ (hl1 ▸ hc.1),
                get?_set_self _ _ _ hc.2, get?_set_self _ _ _ (hd1 ▸ hc.2)]
              exact ⟨rfl, rfl⟩
            · have hne : n ≠ i := fun h => hin h.symm
              simp only [get?_set_other _ _ _ _ hne]
              exact hget i (by omega)
        · left
          rw [if_neg hc, if_neg hc]
          exact ⟨rfl, rfl⟩

theorem photomontage_eq_of_storage {Tp : Type} (a b : Photomontage Tp) (hs : a.SameInputs b)
    (hl : a.labelings = b.labelings) (hd : a.distances = b.distances) : b = a := by
  obtain ⟨h1, h2, h3, h4, h5, h6, h7, h8, h9⟩ := hs
  cases a
  cases b
  simp only at h1 h2 h3 h4 h5 h6 h7 h8 h9 hl hd
  subst h1 h2 h3 h4 h5 h6 h7 h8 h9 hl hd
  rfl

theorem list_eq_of_get? {α : Type} (l1 l2 : List α) (hlen : l1.length = l2.length)
    (h : ∀ i, i < l1.length → l1.get? i = l2.get? i) : l1 = l2 := by
  apply List.ext_get?
  intro i
  by_cases hi : i < l1.length
  · exact h i hi
  · rw [List.get?_eq_none.mpr (by omega), List.get?_eq_none.mpr (by omega)]

/-- The inner loop of `gradientDescent` leaves the same object whatever the working
storage held before, provided the storage has one slot per label. -/
theorem expandAll_eq {Tp : Type} (sv : Solver) (x : Mat Int) (a b : Photomontage Tp)
    (hs : a.SameInputs b) (hla : a.labelings.length = a.lsize)
    (hda : a.distances.length = a.lsize) (hlb : b.labelings.length = a.lsize)
    (hdb : b.distances.length = a.lsize) : b.expandAll sv x = a.expandAll sv x := by
  unfold Photomontage.expandAll
  rw [hs.2.2.2.2.2.2.2.1]
  rcases expandAll_rel sv x a b hs (hla.trans hlb.symm) (hda.trans hdb.symm) a.lsize with
    ⟨h1, h2⟩ | ⟨a1, b1, h1, h2, hs1, hl1, hd1, hget⟩
  · rw [h1, h2]
  · rw [h1, h2]
    have hpa := expandAll_prefix a sv x a.lsize a1 h1
    have hlen1 : a1.labelings.length = a.lsize := hpa.2.1.trans hla
    have hlen2 : a1.distances.length = a.lsize := hpa.2.2.1.trans hda
    have e1 : a1.labelings = b1.labelings :=
      list_eq_of_get? _ _ hl1 (fun i hi => (hget i (by omega)).1)
    have e2 : a1.distances = b1.distances :=
      list_eq_of_get? _ _ hd1 (fun i hi => (hget i (by omega)).2)
    rw [photomontage_eq_of_storage a1 b1 hs1 e1 e2]

theorem gdRound_eq {Tp : Type} (sv : Solver) (s : GDState Tp) (pm1 : Photomontage Tp)
    (hs : s.pm.SameInputs pm1) (hla : s.pm.labelings.length = s.pm.lsize)
    (hda : s.pm.distances.length = s.pm.lsize) (hlb : pm1.labelings.length = s.pm.lsize)
    (hdb : pm1.distances.length = s.pm.lsize) :
    gdRound sv { s with pm := pm1 } = gdRound sv s := by
  unfold gdRound
  simp only [expandAll_eq sv s.x_n s.pm pm1 hs hla hda hlb hdb]
  rfl

theorem gdLoop_eq {Tp : Type} (sv : Solver) (fuel : Nat) (s : GDState Tp)
    (pm1 : Photomontage Tp) (hs : s.pm.SameInputs pm1)
    (hla : s.pm.labelings.length = s.pm.lsize) (hda : s.pm.distances.length = s.pm.lsize)
    (hlb : pm1.labelings.length = s.pm.lsize) (hdb : pm1.distances.length = s.pm.lsize) :
    gdLoop sv fuel { s with pm := pm1 } = gdLoop sv fuel s := by
  cases fuel with
  | zero => rfl
  | succ fuel =>
    unfold gdLoop
    rw [gdRound_eq sv s pm1 hs hla hda hlb hdb]

theorem gradientDescent_eq {Tp : Type} (sv : Solver) (fuel : Nat) (img : Mat Int)
    (pm pm1 : Photomontage Tp) (hs : pm.SameInputs pm1)
    (hla : pm.labelings.length = pm.lsize) (hda : pm.distances.length = pm.lsize)
    (hlb : pm1.labelings.length = pm.lsize) (hdb : pm1.distances.length = pm.lsize) :
    pm1.gradientDescent sv fuel img = pm.gradientDescent sv fuel img := by
  unfold Photomontage.gradientDescent
  have h := gdLoop_eq sv fuel (pm.gdInit img) pm1 hs hla hda hlb hdb
  have e : pm1.gdInit img = { pm.gdInit img with pm := pm1 } := rfl
  rw [e, h]

theorem assignLabeling_eq {Tp : Type} (sv : Solver) (fuel : Nat)
    (pm pm1 : Photomontage Tp) (hs : pm.SameInputs pm1)
    (hla : pm.labelings.length = pm.lsize) (hda : pm.distances.length = pm.lsize)
    (hlb : pm1.labelings.length = pm.lsize) (hdb : pm1.distances.length = pm.lsize) :
    pm1.assignLabeling sv fuel = pm.assignLabeling sv fuel := by
  obtain ⟨_, _, _, h4, h5, _, _, _, h9⟩ := id hs
  unfold Photomontage.assignLabeling
  have e1 : pm1.directBranch = pm.directBranch := by
    unfold Photomontage.directBranch; rw [h4, h5, h9]
  have e2 : pm1.scaleFactor = pm.scaleFactor := by
    unfold Photomontage.scaleFactor; rw [h4, h5]
  have e3 : pm1.reducedLabeling = pm.reducedLabeling := by
    unfold Photomontage.reducedLabeling; rw [h4, h5, e2]
  have e4 : ∀ img, pm1.upsample img = pm.upsample img := by
    intro img; unfold Photomontage.upsample; rw [h4, h5]
  rw [e1, e2, e3, h4, h5]
  simp only [e4, gradientDescent_eq sv fuel _ pm pm1 hs hla hda hlb hdb]

theorem assignResImage_eq {Tp : Type} [Inhabited Tp] (sv : Solver) (fuel : Nat)
    (pm pm1 : Photomontage Tp) (hs : pm.SameInputs pm1)
    (hla : pm.labelings.length = pm.lsize) (hda : pm.distances.length = pm.lsize)
    (hlb : pm1.labelings.length = pm.lsize) (hdb : pm1.distances.length = pm.lsize) :
    pm1.assignResImage sv fuel = pm.assignResImage sv fuel := by
  obtain ⟨_, h2, _, h4, h5, h6, _, _, _⟩ := id hs
  unfold Photomontage.assignResImage
  have e : ∀ L i j, pm1.resPixel L i j = pm.resPixel L i j := by
    intro L i j; unfold Photomontage.resPixel; rw [h2]
  rw [assignLabeling_eq sv fuel pm pm1 hs hla hda hlb hdb, h4, h5, h6]
  simp only [e]

/-- The loop of `gradientDescent` changes nothing but the contents of the working
storage. -/
theorem gdLoop_storage {Tp : Type} (sv : Solver) (fuel : Nat) (s : GDState Tp)
    (r : GDState Tp × List ℚ) (h : gdLoop sv fuel s = some r) :
    s.pm.SameInputs r.1.pm ∧ r.1.pm.labelings.length = s.pm.labelings.length ∧
      r.1.pm.distances.length = s.pm.distances.length := by
  have hstep : ∀ (t : GDState Tp) (res : GDRound Tp) (t1 : GDState Tp),
      (s.pm.SameInputs t.pm ∧ t.pm.labelings.length = s.pm.labelings.length ∧
        t.pm.distances.length = s.pm.distances.length) →
      gdRound sv t = some res → (res = GDRound.adopted t1 ∨ res = GDRound.stopped t1) →
      (s.pm.SameInputs t1.pm ∧ t1.pm.labelings.length = s.pm.labelings.length ∧
        t1.pm.distances.length = s.pm.distances.length) := by
    intro t res t1 ⟨h1, h2, h3⟩ hr hres
    obtain ⟨pm1, minValue, hexp, _, hcase⟩ := gdRound_spec sv t res hr
    obtain ⟨k1, k2, k3, _, _⟩ := expandAll_spec t.pm pm1 sv t.x_n hexp
    have hpm : t1.pm = pm1 := by
      rcases hcase with ⟨_, src, _, hres1⟩ | ⟨_, hres1⟩
      · rcases hres with h | h
        · rw [h] at hres1
          cases hres1
          rfl
        · rw [h] at hres1
          cases hres1
      · rcases hres with h | h
        · rw [h] at hres1
          cases hres1
        · rw [h] at hres1
          cases hres1
          rfl
    rw [hpm]
    exact ⟨sameInputs_trans h1 k1, k2.trans h2, k3.trans h3⟩
  exact gdLoop_inv sv
    (fun t => s.pm.SameInputs t.pm ∧ t.pm.labelings.length = s.pm.labelings.length ∧
        t.pm.distances.length = s.pm.distances.length)
    (fun t => s.pm.SameInputs t.pm ∧ t.pm.labelings.length = s.pm.labelings.length ∧
        t.pm.distances.length = s.pm.distances.length)
    (fun t t1 ht hr => hstep t _ t1 ht hr (Or.inl rfl))
    (fun t t1 ht hr => hstep t _ t1 ht hr (Or.inr rfl))
    fuel s r ⟨sameInputs_refl _, rfl, rfl⟩ h

theorem assignResImage_storage {Tp : Type} [Inhabited Tp] (sv : Solver) (fuel : Nat)
    (pm : Photomontage Tp) (out : Mat Tp × Photomontage Tp)
    (h : pm.assignResImage sv fuel = some out) :
    pm.SameInputs out.2 ∧ out.2.labelings.length = pm.labelings.length ∧
      out.2.distances.length = pm.distances.length := by
  have hgd : ∀ img (r : Mat Int × Photomontage Tp), pm.gradientDescent sv fuel img = some r →
      pm.SameInputs r.2 ∧ r.2.labelings.length = pm.labelings.length ∧
        r.2.distances.length = pm.distances.length := by
    intro img r hr
    unfold Photomontage.gradientDescent at hr
    simp only [Option.map_eq_some'] at hr
    obtain ⟨r0, hr0, rfl⟩ := hr
    exact gdLoop_storage sv fuel (pm.gdInit img) r0 hr0
  unfold Photomontage.assignResImage at h
  simp only [Option.bind_eq_bind, Option.bind_eq_some] at h
  obtain ⟨r, hr, hif⟩ := h
  split at hif
  · simp only [Option.pure_def, Option.some.injEq] at hif
    subst hif
    unfold Photomontage.assignLabeling at hr
    split at hr
    · exact hgd _ r hr
    · split at hr
      · cases hr
      · simp only [Option.bind_eq_bind, Option.bind_eq_some, Option.pure_def,
          Option.some.injEq] at hr
        obtain ⟨r1, hr1, img, _, rfl⟩ := hr
        exact hgd _ r1 hr1
  · cases hif

/-! ## Further lemmas: the grid of one pixel, termination -/

theorem minIdxFrom_first : ∀ (rest pre : List ℚ) (k : Nat) (v : ℚ) (best : Nat),
    pre.length = k → pre.get? best = some v → (∀ a ∈ pre, v ≤ a) →
    (∀ i, i < best → ∀ a, pre.get? i = some a → v < a) →
    ∀ i, i < minIdxFrom rest k v best → ∀ a, (pre ++ rest).get? i = some a →
      ∃ m, (pre ++ rest).get? (minIdxFrom rest k v best) = some m ∧ m < a := by
  intro rest
  induction rest with
  | nil =>
    intro pre k v best _ hb _ hfirst i hi a ha
    simp only [minIdxFrom, List.append_nil] at hi ha ⊢
    exact ⟨v, hb, hfirst i hi a ha⟩
  | cons a rest ih =>
    intro pre k v best hk hb hmin hfirst
    have happ : pre ++ a :: rest = (pre ++ [a]) ++ rest := by simp
    have hbl : best < pre.length := by
      rw [List.get?_eq_getElem?] at hb
      exact (List.getElem?_eq_some_iff.mp hb).1
    unfold minIdxFrom
    split
    · rename_i hlt
      rw [happ]
      apply ih (pre ++ [a]) (k + 1) a k
      · simp [hk]
      · rw [List.get?_eq_getElem?, ← hk]
        simp
      · intro b hb2
        rcases List.mem_append.mp hb2 with h1 | h1
        · exact le_of_lt (lt_of_lt_of_le hlt (hmin b h1))
        · simp only [List.mem_singleton] at h1
          rw [h1]
      · intro i hi b hb2
        rw [List.get?_eq_getElem?, List.getElem?_append_left (by omega)] at hb2
        have hmem : b ∈ pre := by
          obtain ⟨hlt2, heq⟩ := List.getElem?_eq_some_iff.mp hb2
          rw [← heq]
          exact List.getElem_mem hlt2
        exact lt_of_lt_of_le hlt (hmin b hmem)
    · rename_i hnlt
      rw [happ]
      apply ih (pre ++ [a]) (k + 1) v best
      · simp [hk]
      · rw [List.get?_eq_getElem?, List.getElem?_append_left hbl, ← List.get?_eq_getElem?]
        exact hb
      · intro b hb2
        rcases List.mem_append.mp hb2 with h1 | h1
        · exact hmin b h1
        · simp only [List.mem_singleton] at h1
          rw [h1]
          exact not_lt.mp hnlt
      · intro i hi b hb2
        rw [List.get?_eq_getElem?, List.getElem?_append_left (by omega),
          ← List.get?_eq_getElem?] at hb2
        exact hfirst i hi b hb2

/-- The element at `min_idx` is strictly smaller than every element before it: among
equal smallest elements the first index wins. -/
theorem min_idx_first (l : List ℚ) (i : Nat) (a : ℚ) (hi : i < min_idx l)
    (ha : l.get? i = some a) : ∃ m, l.get? (min_idx l) = some m ∧ m < a := by
  cases l with
  | nil => simp [min_idx] at hi
  | cons b rest =>
    have := minIdxFrom_first rest [b] 1 b 0 rfl rfl (by simp) (fun i hi => absurd hi (by omega))
      i (by simpa [min_idx] using hi) a (by simpa using ha)
    simpa [min_idx] using this

theorem neighborCalls_pixel : neighborCalls 1 1 = [] := by decide

/-- On a grid of one pixel the graph handed to the solver holds the node of the pixel
with its terminal link and nothing else. -/
theorem buildGraph_pixel {Tp : Type} (pm : Photomontage Tp) (x : Mat Int) (alpha : Int)
    (g : GCGraph) (hh : pm.height = 1) (hw : pm.width = 1)
    (h : pm.buildGraph x alpha = some g) :
    g.ops = [GCOp.addVtx, pm.terminalOp x alpha 0 0 0] := by
  unfold Photomontage.buildGraph at h
  simp only [Option.bind_eq_bind, Option.bind_eq_some] at h
  obtain ⟨g1, hg1, hg2⟩ := h
  unfold Photomontage.neighborLinks at hg2
  rw [hh, hw, neighborCalls_pixel] at hg2
  simp only [List.foldlM_nil, Option.pure_def, Option.some.injEq] at hg2
  subst hg2
  obtain ⟨hshape, _⟩ := terminalLinks_spec pm x alpha _ g1 hg1
  rw [hshape]
  simp only [GCGraph.create, List.nil_append]
  rw [terminalOps_eq_pixelOps, hh, hw]
  rfl

theorem buildGraph_pixel_some {Tp : Type} (pm : Photomontage Tp) (x : Mat Int) (alpha : Int)
    (hh : pm.height = 1) (hw : pm.width = 1) (hms : pm.MasksSized)
    (hxr : pm.height ≤ x.rows) (hxc : pm.width ≤ x.cols) (hv : pm.ValidLabels x)
    (ha0 : 0 ≤ alpha) (ha : alpha < pm.lsize) : ∃ g, pm.buildGraph x alpha = some g := by
  obtain ⟨g1, hg1⟩ := terminalLinks_some pm x alpha hms hxr hxc hv ha0 ha
    (GCGraph.create (int32 (pm.actualEdges + int32 (pm.height * pm.width)))
        (int32 (2 * pm.actualEdges)))
  refine ⟨g1, ?_⟩
  unfold Photomontage.buildGraph
  simp only [hg1, Option.bind_eq_bind, Option.some_bind]
  unfold Photomontage.neighborLinks
  rw [hh, hw, neighborCalls_pixel]
  rfl

/-- On a grid of one pixel the capacity of a cut is the terminal-weight cost of the
label that the decode loop writes for it. -/
theorem cutCapacity_pixel {Tp : Type} (pm : Photomontage Tp) (x : Mat Int) (alpha : Int)
    (g : GCGraph) (S : Int → Bool) (hh : pm.height = 1) (hw : pm.width = 1)
    (hxr : pm.height ≤ x.rows) (hxc : pm.width ≤ x.cols)
    (h : pm.buildGraph x alpha = some g) :
    g.cutCapacity S = pm.terminalCost (if S 0 then x.data 0 0 else alpha) 0 0 := by
  unfold GCGraph.cutCapacity
  rw [buildGraph_pixel pm x alpha g hh hw h]
  have hx : x.atRC 0 0 = some (x.data 0 0) :=
    atRC_some_of_lt x 0 0 (by omega) (by omega)
  have hx0 : x.atRC ((0 : Nat) : Int) ((0 : Nat) : Int) = some (x.data 0 0) := hx
  simp only [List.map_cons, List.map_nil, List.sum_cons, List.sum_nil, GCOp.cut,
    Photomontage.terminalOp, Photomontage.terminalCost, Photomontage.labelMask, hx0,
    Option.some_bind, zero_add, add_zero]
  split <;> rfl

theorem termWeight_le (m : Nat) : termWeight m ≤ GCInfinity := by
  unfold termWeight
  split
  · unfold GCInfinity; norm_num
  · exact le_refl _

theorem infinity_lt_dblMax : GCInfinity < (49 / 50 : ℚ) * DBL_MAX := by
  unfold GCInfinity DBL_MAX
  norm_num

/-- One expansion on a grid of one pixel, with a minimum-cut solver: the flow value is
the terminal-weight cost of the label written, which is the current label or the trial
label, whichever costs less. -/
theorem pixel_expansion {Tp : Type} (pm : Photomontage Tp) (sv : Solver) (hmc : sv.IsMinCut)
    (x : Mat Int) (alpha : Int) (g : GCGraph) (hh : pm.height = 1) (hw : pm.width = 1)
    (hxr : pm.height ≤ x.rows) (hxc : pm.width ≤ x.cols)
    (h : pm.buildGraph x alpha = some g) :
    sv.maxFlow g =
        pm.terminalCost ((pm.expansionLabeling x alpha (sv.inSourceSegment g)).data 0 0) 0 0 ∧
      ((pm.expansionLabeling x alpha (sv.inSourceSegment g)).data 0 0 = x.data 0 0 ∨
        (pm.expansionLabeling x alpha (sv.inSourceSegment g)).data 0 0 = alpha) ∧
      sv.maxFlow g ≤ pm.terminalCost (x.data 0 0) 0 0 ∧
      sv.maxFlow g ≤ pm.terminalCost alpha 0 0 := by
  obtain ⟨hrep, hmin⟩ := hmc g
  have hdata : (pm.expansionLabeling x alpha (sv.inSourceSegment g)).data 0 0 =
      if sv.inSourceSegment g 0 then x.data 0 0 else alpha := by
    simp [Photomontage.expansionLabeling, Mat.filled, Photomontage.decodedLabel]
  have hcut := cutCapacity_pixel pm x alpha g (sv.inSourceSegment g) hh hw hxr hxc h
  refine ⟨by rw [hrep, hcut, hdata], ?_, ?_, ?_⟩
  · rw [hdata]
    split
    · exact Or.inl rfl
    · exact Or.inr rfl
  · have h1 := hmin (fun _ => true)
    have h2 := cutCapacity_pixel pm x alpha g (fun _ => true) hh hw hxr hxc h
    simp only [if_true] at h2
    rw [hrep]
    exact h2 ▸ h1
  · have h1 := hmin (fun _ => false)
    have h2 := cutCapacity_pixel pm x alpha g (fun _ => false) hh hw hxr hxc h
    simp only [Bool.false_eq_true, if_false] at h2
    rw [hrep]
    exact h2 ▸ h1

/-- The run of `gradientDescent` on a grid of one pixel, with a minimum-cut solver: the
first round adopts a label, the second round leaves the loop, and the label of the
pixel is then a label of lowest terminal-weight cost, the lowest index among them. -/
theorem single_pixel_run {Tp : Type} (pm : Photomontage Tp) (sv : Solver) (hmc : sv.IsMinCut)
    (hh : pm.height = 1) (hw : pm.width = 1) (hsz : pm.WellSized) (hms : pm.MasksSized)
    (hl : 1 ≤ pm.lsize) :
    ∃ s1 s2, gdRound sv (pm.gdInit (zeroLabeling pm.height pm.width)) =
        some (GDRound.adopted s1) ∧
      gdRound sv s1 = some (GDRound.stopped s2) ∧
      s2.img.rows = pm.height ∧ s2.img.cols = pm.width ∧
      s1.optValue = pm.terminalCost (s2.img.data 0 0) 0 0 ∧
      0 ≤ s2.img.data 0 0 ∧ s2.img.data 0 0 < pm.lsize ∧
      (∀ l : Nat, l < pm.lsize →
        pm.terminalCost (s2.img.data 0 0) 0 0 ≤ pm.terminalCost l 0 0) ∧
      (∀ l : Nat, (l : Int) < s2.img.data 0 0 →
        pm.terminalCost (s2.img.data 0 0) 0 0 < pm.terminalCost l 0 0) := by
  have hvalid0 : pm.ValidLabels (zeroLabeling pm.height pm.width) :=
    zeroLabeling_valid pm _ _ hl
  have hI0 := gdInit_inv pm hsz hl
  have hb0 : ∀ i : Nat, i < pm.lsize →
      ∃ g, pm.buildGraph (zeroLabeling pm.height pm.width) i = some g := fun i hi =>
    buildGraph_pixel_some pm _ i hh hw hms (le_refl _) (le_refl _) hvalid0
      (Int.ofNat_nonneg i) (by exact_mod_cast hi)
  obtain ⟨pm1, hexp1⟩ := expandAll_some pm sv _ hsz hb0
  obtain ⟨hs1, hl1, hd1, hdone1, _⟩ := expandAll_spec pm pm1 sv _ hexp1
  have hne1 : pm1.distances ≠ [] := by
    intro h
    have : pm1.distances.length = pm.lsize := by rw [hd1, hsz.2.2]
    rw [h] at this
    simp at this
    omega
  have hidx1 : min_idx pm1.distances < pm.lsize := by
    have := min_idx_lt _ hne1
    rw [hd1, hsz.2.2] at this
    exact this
  obtain ⟨gA, hgA, hdA, hlabA⟩ := hdone1 _ hidx1
  obtain ⟨hfA, hcA, _, _⟩ := pixel_expansion pm sv hmc _ _ gA hh hw (le_refl _) (le_refl _) hgA
  -- the values of the first round
  have hfirst : ∀ l : Nat, l < pm.lsize → ∃ gl,
      pm1.distances.get? l = some (sv.maxFlow gl) ∧ sv.maxFlow gA ≤ sv.maxFlow gl ∧
        sv.maxFlow gl ≤ pm.terminalCost l 0 0 := by
    intro l hl2
    obtain ⟨gl, hgl, hdl, _⟩ := hdone1 l hl2
    obtain ⟨_, _, _, hle⟩ :=
      pixel_expansion pm sv hmc _ _ gl hh hw (le_refl _) (le_refl _) hgl
    obtain ⟨m, hm, hmin⟩ := min_idx_min pm1.distances hne1
    rw [hdA] at hm
    cases hm
    have hmem : sv.maxFlow gl ∈ pm1.distances := by
      rw [List.get?_eq_getElem?] at hdl
      obtain ⟨hlt2, heq⟩ := List.getElem?_eq_some_iff.mp hdl
      rw [← heq]
      exact List.getElem_mem hlt2
    exact ⟨gl, hdl, hmin _ hmem, hle⟩
  have hAnn : 0 ≤ sv.maxFlow gA := by rw [hfA]; exact termWeight_nonneg _
  have hlt1 : sv.maxFlow gA <
      (49 / 50 : ℚ) * (pm.gdInit (zeroLabeling pm.height pm.width)).optValue := by
    have h1 : sv.maxFlow gA ≤ GCInfinity := by rw [hfA]; exact termWeight_le _
    exact lt_of_le_of_lt h1 infinity_lt_dblMax
  have hr1 := gdRound_adopts sv (pm.gdInit (zeroLabeling pm.height pm.width)) pm1 _ _ hexp1
    hdA hlabA hlt1
  have hI1 := gdRound_adopted_inv sv pm _ _ hI0 hr1
  generalize hs1def : (pm.gdInit (zeroLabeling pm.height pm.width)).copyTo pm1 (sv.maxFlow gA)
    (pm.expansionLabeling (zeroLabeling pm.height pm.width) (min_idx pm1.distances)
      (sv.inSourceSegment gA)) = s1 at hr1 hI1
  have hopt1 : s1.optValue = sv.maxFlow gA := by rw [← hs1def]; rfl
  have hx1 : s1.x_n = pm.expansionLabeling (zeroLabeling pm.height pm.width)
      (min_idx pm1.distances) (sv.inSourceSegment gA) := by rw [← hs1def]; rfl
  obtain ⟨hsame1, hll1, hdl1, _, himg1, hrows1, hcols1, _, hvalid1⟩ := hI1
  have hcost1 : sv.maxFlow gA = pm.terminalCost (s1.x_n.data 0 0) 0 0 := by rw [hx1]; exact hfA
  -- the second round
  have hls1 : s1.pm.lsize = pm.lsize := hsame1.2.2.2.2.2.2.2.1
  have hwf1 : s1.pm.WellSized :=
    ⟨by rw [hsame1.2.1, hls1]; exact hsz.1, by rw [hls1]; exact hll1, by rw [hls1]; exact hdl1⟩
  have hb1 : ∀ i : Nat, i < s1.pm.lsize → ∃ g, s1.pm.buildGraph s1.x_n i = some g := by
    intro i hi
    rw [buildGraph_congr hsame1]
    exact buildGraph_pixel_some pm _ i hh hw hms (by rw [hrows1]) (by rw [hcols1])
      hvalid1 (Int.ofNat_nonneg i) (by rw [hls1] at hi; exact_mod_cast hi)
  obtain ⟨pm2, hexp2⟩ := expandAll_some s1.pm sv s1.x_n hwf1 hb1
  obtain ⟨_, _, hd2, hdone2, _⟩ := expandAll_spec s1.pm pm2 sv _ hexp2
  have hne2 : pm2.distances ≠ [] := by
    intro h
    have : pm2.distances.length = pm.lsize := by rw [hd2, hdl1]
    rw [h] at this
    simp at this
    omega
  have hidx2 : min_idx pm2.distances < pm.lsize := by
    have := min_idx_lt _ hne2
    rw [hd2, hdl1] at this
    exact this
  obtain ⟨gB, hgB, hdB, _⟩ := hdone2 _ (by rw [hls1]; exact hidx2)
  have hnlt : ¬ sv.maxFlow gB < (49 / 50 : ℚ) * s1.optValue := by
    rw [buildGraph_congr hsame1] at hgB
    obtain ⟨hfB, hcB, _, _⟩ :=
      pixel_expansion pm sv hmc _ _ gB hh hw (by rw [hrows1]) (by rw [hcols1]) hgB
    have hge : sv.maxFlow gA ≤ sv.maxFlow gB := by
      rw [hfB]
      rcases hcB with h | h
      · rw [h, ← hcost1]
      · rw [h]
        obtain ⟨gl, _, h1, h2⟩ := hfirst _ hidx2
        exact le_trans h1 h2
    rw [hopt1]
    intro hlt
    linarith
  have hr2 := gdRound_stops sv s1 pm2 _ hexp2 hdB hnlt
  refine ⟨s1, _, hr1, hr2, ?_, ?_, ?_, ?_, ?_, ?_, ?_⟩
  · show s1.img.rows = pm.height
    rw [himg1]; exact hrows1
  · show s1.img.cols = pm.width
    rw [himg1]; exact hcols1
  · show s1.optValue = pm.terminalCost (s1.img.data 0 0) 0 0
    rw [himg1, hopt1]; exact hcost1
  · show 0 ≤ s1.img.data 0 0
    rw [himg1]; exact (hvalid1 0 0 (by omega) (by omega)).1
  · show s1.img.data 0 0 < pm.lsize
    rw [himg1]; exact (hvalid1 0 0 (by omega) (by omega)).2
  · intro l hl2
    show pm.terminalCost (s1.img.data 0 0) 0 0 ≤ pm.terminalCost l 0 0
    rw [himg1, ← hcost1]
    obtain ⟨gl, _, h1, h2⟩ := hfirst l hl2
    exact le_trans h1 h2
  · intro l hl2
    show pm.terminalCost (s1.img.data 0 0) 0 0 < pm.terminalCost l 0 0
    rw [himg1] at hl2 ⊢
    rw [← hcost1]
    have hc : s1.x_n.data 0 0 = (min_idx pm1.distances : Nat) := by
      rw [hx1] at hl2 ⊢
      rcases hcA with h | h
      · rw [h] at hl2
        have : (zeroLabeling pm.height pm.width).data 0 0 = 0 := rfl
        rw [this] at hl2
        omega
      · exact h
    rw [hc] at hl2
    have hlk : l < min_idx pm1.distances := by exact_mod_cast hl2
    obtain ⟨gl, hdl, _, h2⟩ := hfirst l (by omega)
    obtain ⟨m, hm, hmlt⟩ := min_idx_first pm1.distances l _ hlk hdl
    rw [hdA] at hm
    cases hm
    exact lt_of_lt_of_le hmlt h2

theorem pmPixel_masksSized : pmPixel.MasksSized :=
  ⟨rfl, by
    intro m hm
    simp only [pmPixel, List.mem_cons, List.mem_singleton, List.not_mem_nil, or_false] at hm
    rcases hm with rfl | rfl | rfl <;> exact ⟨rfl, rfl⟩⟩

theorem atRC_congr {α : Type} (x y : Mat α) (hr : x.rows = y.rows) (hc : x.cols = y.cols)
    (hd : ∀ i j, i < x.rows → j < x.cols → x.data i j = y.data i j) (i j : Int) :
    x.atRC i j = y.atRC i j := by
  unfold Mat.atRC
  rw [← hr, ← hc]
  by_cases h : 0 ≤ i ∧ i < x.rows ∧ 0 ≤ j ∧ j < x.cols
  · rw [if_pos h, if_pos h, hd _ _ (by omega) (by omega)]
  · rw [if_neg h, if_neg h]

/-- `singleExpansion` reads the labeling inside its `rows x cols` elements only. -/
theorem buildGraph_congr_labeling {Tp : Type} (pm : Photomontage Tp) (x y : Mat Int)
    (alpha : Int) (hr : x.rows = y.rows) (hc : x.cols = y.cols)
    (hd : ∀ i j, i < x.rows → j < x.cols → x.data i j = y.data i j) :
    pm.buildGraph x alpha = pm.buildGraph y alpha := by
  have hat := atRC_congr x y hr hc hd
  have h1 : pm.terminalStep x alpha = pm.terminalStep y alpha := by
    funext i j g
    unfold Photomontage.terminalStep
    rw [hat]
  have h2 : pm.neighborStep x alpha = pm.neighborStep y alpha := by
    funext g c
    unfold Photomontage.neighborStep
    rw [hat, hat]
  unfold Photomontage.buildGraph Photomontage.terminalLinks Photomontage.neighborLinks
  rw [h1, h2]

/-- The flow values that `singleExpansion` can return on labelings of the grid with
labels in `[0, lsize)` form a finite set, of at most `lsize^(height*width) * lsize`
elements. -/
theorem flowValues_finite {Tp : Type} (pm : Photomontage Tp) (sv : Solver) :
    ∃ S : Finset ℚ, S.card ≤ pm.lsize ^ (pm.height * pm.width) * pm.lsize ∧
      ∀ (x : Mat Int) (alpha : Nat) (g : GCGraph), x.rows = pm.height → x.cols = pm.width →
        pm.ValidLabels x → alpha < pm.lsize → pm.buildGraph x alpha = some g →
        sv.maxFlow g ∈ S := by
  refine ⟨(Finset.univ :
      Finset ((Fin pm.height → Fin pm.width → Fin pm.lsize) × Fin pm.lsize)).image
    (fun p => ((pm.buildGraph (gridLabeling _ _ _ p.1) ((p.2 : Nat) : Int)).map sv.maxFlow).getD 0),
    ?_, ?_⟩
  · refine le_trans Finset.card_image_le ?_
    rw [Finset.card_univ, Fintype.card_prod]
    simp only [Fintype.card_pi, Fintype.card_fin, Finset.prod_const, Finset.card_univ]
    rw [← pow_mul, Nat.mul_comm pm.width pm.height]
  · intro x alpha g hr hc hv ha hg
    rw [Finset.mem_image]
    refine ⟨(fun i j => ⟨(x.data i j).toNat, by
      have := hv i j i.2 j.2
      omega⟩, ⟨alpha, ha⟩), Finset.mem_univ _, ?_⟩
    have hcongr : pm.buildGraph (gridLabeling pm.height pm.width pm.lsize
        (fun i j => ⟨(x.data i j).toNat, by
          have := hv i j i.2 j.2
          omega⟩)) (alpha : Int) = pm.buildGraph x alpha := by
      apply buildGraph_congr_labeling
      · exact hr.symm
      · exact hc.symm
      · intro i j hi hj
        have hi2 : i < pm.height := hi
        have hj2 : j < pm.width := hj
        have := hv i j hi2 hj2
        simp only [gridLabeling, Mat.filled, hi2, hj2, dite_true]
        omega
    simp only [hcongr, hg, Option.map_some', Option.getD_some]

/-- A round of `gradientDescent` returns when every expansion of the working labeling
is defined. -/
theorem gdRound_total {Tp : Type} (sv : Solver) (pm : Photomontage Tp) (s : GDState Tp)
    (hI : s.Inv pm) (hl : 1 ≤ pm.lsize) (hsz : pm.WellSized)
    (hdef : ∀ (x : Mat Int) (alpha : Nat), x.rows = pm.height → x.cols = pm.width →
      pm.ValidLabels x → alpha < pm.lsize → ∃ g, pm.buildGraph x alpha = some g) :
    ∃ res, gdRound sv s = some res := by
  obtain ⟨hsame, hll, hdl, _, _, hrows, hcols, _, hvalid⟩ := hI
  have hls : s.pm.lsize = pm.lsize := hsame.2.2.2.2.2.2.2.1
  have hwf : s.pm.WellSized :=
    ⟨by rw [hsame.2.1, hls]; exact hsz.1, by rw [hls]; exact hll, by rw [hls]; exact hdl⟩
  have hb : ∀ i : Nat, i < s.pm.lsize → ∃ g, s.pm.buildGraph s.x_n i = some g := by
    intro i hi
    rw [buildGraph_congr hsame]
    exact hdef s.x_n i hrows hcols hvalid (by rw [hls] at hi; exact hi)
  obtain ⟨pm1, hexp⟩ := expandAll_some s.pm sv s.x_n hwf hb
  obtain ⟨_, _, hd, hdone, _⟩ := expandAll_spec s.pm pm1 sv _ hexp
  have hne : pm1.distances ≠ [] := by
    intro h
    have : pm1.distances.length = pm.lsize := by rw [hd, hdl]
    rw [h] at this
    simp at this
    omega
  have hidx : min_idx pm1.distances < s.pm.lsize := by
    have := min_idx_lt _ hne
    rw [hd, hdl, ← hls] at this
    exact this
  obtain ⟨g, _, hdg, hlab⟩ := hdone _ hidx
  by_cases hlt : sv.maxFlow g < (49 / 50 : ℚ) * s.optValue
  · exact ⟨_, gdRound_adopts sv s pm1 _ _ hexp hdg hlab hlt⟩
  · exact ⟨_, gdRound_stops sv s pm1 _ hexp hdg hlt⟩

/-- More room for rounds does not change the outcome of a run that has ended. -/
theorem gdLoop_mono {Tp : Type} (sv : Solver) : ∀ (fuel : Nat) (s : GDState Tp)
    (r : GDState Tp × List ℚ), gdLoop sv fuel s = some r →
    ∀ fuel1, fuel ≤ fuel1 → gdLoop sv fuel1 s = some r := by
  intro fuel
  induction fuel with
  | zero => intro s r h; simp [gdLoop] at h
  | succ fuel ih =>
    intro s r h fuel1 hle
    obtain ⟨k, rfl⟩ : ∃ k, fuel1 = k + 1 := ⟨fuel1 - 1, by omega⟩
    unfold gdLoop at h ⊢
    cases hr : gdRound sv s with
    | none => rw [hr] at h; cases h
    | some res =>
      rw [hr] at h
      cases res with
      | stopped s1 => exact h
      | adopted s1 =>
        simp only at h ⊢
        cases hrec : gdLoop sv fuel s1 with
        | none => rw [hrec] at h; cases h
        | some r2 =>
          rw [hrec] at h
          rw [ih s1 r2 hrec k (by omega)]
          exact h

/-- The loop of `gradientDescent` ends within as many rounds as there are flow values
below the current best value, plus one; the adopted values decrease strictly. -/
theorem gdLoop_terminates {Tp : Type} (sv : Solver) (pm : Photomontage Tp) (S : Finset ℚ)
    (hl : 1 ≤ pm.lsize) (hsz : pm.WellSized)
    (hdef : ∀ (x : Mat Int) (alpha : Nat), x.rows = pm.height → x.cols = pm.width →
      pm.ValidLabels x → alpha < pm.lsize → ∃ g, pm.buildGraph x alpha = some g)
    (hnn : ∀ x alpha g, pm.buildGraph x alpha = some g → 0 ≤ sv.maxFlow g)
    (hS : ∀ (x : Mat Int) (alpha : Nat) (g : GCGraph), x.rows = pm.height →
      x.cols = pm.width → pm.ValidLabels x → alpha < pm.lsize →
      pm.buildGraph x alpha = some g → sv.maxFlow g ∈ S) :
    ∀ (fuel : Nat) (s : GDState Tp), s.Inv pm → 0 ≤ s.optValue →
      (S.filter (fun v => v < s.optValue)).card < fuel →
      ∃ r, gdLoop sv fuel s = some r ∧
        r.2.length ≤ (S.filter (fun v => v < s.optValue)).card ∧
        List.Chain (fun a b => b < a) s.optValue r.2 := by
  intro fuel
  induction fuel with
  | zero => intro s _ _ h; omega
  | succ fuel ih =>
    intro s hI hopt hcard
    obtain ⟨res, hres⟩ := gdRound_total sv pm s hI hl hsz hdef
    cases res with
    | stopped s1 =>
      refine ⟨(s1, []), ?_, by simp, List.Chain.nil⟩
      simp only [gdLoop, hres]
    | adopted s1 =>
      have hI1 := gdRound_adopted_inv sv pm s s1 hI hres
      obtain ⟨alpha, g, ha, hg, _, hv, hlt, _⟩ := gdRound_adopted_spec sv pm s s1 hI hres
      have hmem : s1.optValue ∈ S := by
        rw [hv]
        exact hS s.x_n alpha g hI.2.2.2.2.2.1 hI.2.2.2.2.2.2.1 hI.2.2.2.2.2.2.2.2 ha hg
      have hnn1 : 0 ≤ s1.optValue := by rw [hv]; exact hnn _ _ g hg
      have hdec : s1.optValue < s.optValue := by
        rw [hv]
        have : (49 / 50 : ℚ) * s.optValue ≤ s.optValue := by linarith
        exact lt_of_lt_of_le hlt this
      have hsub : (S.filter (fun v => v < s1.optValue)).card <
          (S.filter (fun v => v < s.optValue)).card := by
        apply Finset.card_lt_card
        rw [Finset.ssubset_iff_of_subset]
        · exact ⟨s1.optValue, Finset.mem_filter.mpr ⟨hmem, hdec⟩, fun h =>
            lt_irrefl _ (Finset.mem_filter.mp h).2⟩
        · intro v hvm
          obtain ⟨h1, h2⟩ := Finset.mem_filter.mp hvm
          exact Finset.mem_filter.mpr ⟨h1, lt_trans h2 hdec⟩
      obtain ⟨r2, hr2, hlen2, hch2⟩ := ih s1 hI1 hnn1 (by omega)
      refine ⟨(r2.1, s1.optValue :: r2.2), ?_, ?_, List.Chain.cons hdec hch2⟩
      · simp only [gdLoop, hres, hr2]
      · simp only [List.length_cons]
        omega

theorem pmDiag_masksSized : pmDiag.MasksSized :=
  ⟨rfl, by
    intro m hm
    simp only [pmDiag, List.mem_cons, List.mem_singleton, List.not_mem_nil, or_false] at hm
    rcases hm with rfl | rfl | rfl <;> exact ⟨rfl, rfl⟩⟩

/-- The sizes and the counts of the graph after any initial part `cs` of the neighbour
pass, carried out on the graph left by the terminal pass. -/
theorem neighborPrefix_counts {Tp : Type} (pm : Photomontage Tp) (x : Mat Int) (alpha : Int)
    (g1 : GCGraph)
    (hg1 : pm.terminalLinks x alpha
      (GCGraph.create (int32 (pm.actualEdges + int32 (pm.height * pm.width)))
        (int32 (2 * pm.actualEdges))) = some g1)
    (cs : List NeighborCall) (g : GCGraph)
    (hg : cs.foldlM (pm.neighborStep x alpha) g1 = some g) :
    g.vtxCapacity = int32 (pm.actualEdges + int32 (pm.height * pm.width)) ∧
      g.edgeCapacity = int32 (2 * pm.actualEdges) ∧
      pm.height * pm.width ≤ g.vtxCount ∧ g.vtxCount ≤ pm.height * pm.width + cs.length ∧
      cs.length ≤ g.edgeCalls ∧ g.edgeCalls ≤ 2 * cs.length := by
  obtain ⟨hshape, _⟩ := terminalLinks_spec pm x alpha _ g1 hg1
  have hv1 : g1.vtxCount = pm.height * pm.width := by rw [hshape]; simp [GCGraph.create]
  have he1 : g1.edgeCalls = 0 := by
    unfold GCGraph.edgeCalls
    rw [hshape]
    simp only [GCGraph.create, List.nil_append]
    rw [terminalOps_eq_pixelOps]
    exact pixelOps_edgeCalls
      (fun p => pm.terminalOp x alpha ((p : Nat) : Int) (p / pm.width) (p % pm.width))
      (fun p => rfl) _
  have hc1 : g1.vtxCapacity = int32 (pm.actualEdges + int32 (pm.height * pm.width)) := by
    rw [hshape]; rfl
  have hc2 : g1.edgeCapacity = int32 (2 * pm.actualEdges) := by rw [hshape]; rfl
  obtain ⟨k1, k2, k3, k4, k5⟩ := neighborFold_counts pm x alpha cs g1 g hg
  have hmono : g1.vtxCount ≤ g.vtxCount :=
    foldlM_inv (pm.neighborStep x alpha) (fun g2 => g1.vtxCount ≤ g2.vtxCount) cs g1 g
      (fun c _ b0 b1 hb0 hstep => by
        unfold Photomontage.neighborStep at hstep
        simp only [Option.bind_eq_bind, Option.bind_eq_some] at hstep
        obtain ⟨lA, _, lB, _, hsw⟩ := hstep
        obtain ⟨_, _, _, _, hle, _⟩ := setWeights_spec pm b0 b1 c.pA c.pB lA lB alpha hsw
        exact le_trans hb0 hle) (le_refl _) hg
  exact ⟨k3.trans hc1, k4.trans hc2, by omega, by omega, by omega, by omega⟩

/-- The sizes and the counts of the graph that `singleExpansion` hands to the solver. -/
theorem buildGraph_counts {Tp : Type} (pm : Photomontage Tp) (x : Mat Int) (alpha : Int)
    (g : GCGraph) (h : pm.buildGraph x alpha = some g) :
    g.vtxCapacity = int32 (pm.actualEdges + int32 (pm.height * pm.width)) ∧
      g.edgeCapacity = int32 (2 * pm.actualEdges) ∧
      pm.height * pm.width ≤ g.vtxCount ∧
      g.vtxCount ≤ pm.height * pm.width + (neighborCalls pm.height pm.width).length ∧
      (neighborCalls pm.height pm.width).length ≤ g.edgeCalls ∧
      g.edgeCalls ≤ 2 * (neighborCalls pm.height pm.width).length := by
  unfold Photomontage.buildGraph at h
  simp only [Option.bind_eq_bind, Option.bind_eq_some] at h
  obtain ⟨g1, hg1, hg2⟩ := h
  exact neighborPrefix_counts pm x alpha g1 hg1 _ g hg2

/-- The statement of C17 where the sizes fit: for `height, width >= 1` with
`2*((height-1)*width + height*(width-1))` at most `INT_MAX = 2147483647`, the neighbour
pass makes exactly `actualEdges` invocations of `setWeights`, and after any initial part
of the pass carried out on the graph left by the terminal pass the number of nodes is
within the allocated node capacity `actualEdges + height*width` and the number of
`addEdges` calls within the allocated edge capacity `2*actualEdges`. -/
theorem calls_within_capacity_of_int_range {Tp : Type} (pm : Photomontage Tp) (x : Mat Int)
    (alpha : Int) (hh : 1 ≤ pm.height) (hw : 1 ≤ pm.width)
    (hb : 2 * ((pm.height - 1) * pm.width + pm.height * (pm.width - 1)) ≤ 2147483647) :
    ((neighborCalls pm.height pm.width).length : Int) = pm.actualEdges ∧
      (∀ g1, pm.terminalLinks x alpha
          (GCGraph.create (int32 (pm.actualEdges + int32 (pm.height * pm.width)))
            (int32 (2 * pm.actualEdges))) = some g1 →
        ∀ cs g, cs <+: neighborCalls pm.height pm.width →
          cs.foldlM (pm.neighborStep x alpha) g1 = some g →
          g.vtxCapacity = pm.actualEdges + pm.height * pm.width ∧
            g.edgeCapacity = 2 * pm.actualEdges ∧
            g.vtxCount ≤ pm.height * pm.width + cs.length ∧
            (g.vtxCount : Int) ≤ g.vtxCapacity ∧
            g.edgeCalls ≤ 2 * cs.length ∧ (g.edgeCalls : Int) ≤ g.edgeCapacity) ∧
      ∀ g, pm.buildGraph x alpha = some g →
        g.vtxCapacity = pm.actualEdges + pm.height * pm.width ∧
          g.edgeCapacity = 2 * pm.actualEdges ∧
          (g.vtxCount : Int) ≤ g.vtxCapacity ∧ (g.edgeCalls : Int) ≤ g.edgeCapacity := by
  obtain ⟨hlen, _, hcv, hce⟩ := actualEdges_of_range pm hh hw hb
  have hpart : ∀ g1, pm.terminalLinks x alpha
        (GCGraph.create (int32 (pm.actualEdges + int32 (pm.height * pm.width)))
          (int32 (2 * pm.actualEdges))) = some g1 →
      ∀ cs g, cs <+: neighborCalls pm.height pm.width →
        cs.foldlM (pm.neighborStep x alpha) g1 = some g →
        g.vtxCapacity = pm.actualEdges + pm.height * pm.width ∧
          g.edgeCapacity = 2 * pm.actualEdges ∧
          g.vtxCount ≤ pm.height * pm.width + cs.length ∧
          (g.vtxCount : Int) ≤ g.vtxCapacity ∧
          g.edgeCalls ≤ 2 * cs.length ∧ (g.edgeCalls : Int) ≤ g.edgeCapacity := by
    intro g1 hg1 cs g hcs hg
    obtain ⟨k1, k2, _, k4, _, k6⟩ := neighborPrefix_counts pm x alpha g1 hg1 cs g hg
    have hcl : (cs.length : Int) ≤ pm.actualEdges := by
      rw [hlen]
      exact_mod_cast hcs.length_le
    refine ⟨k1.trans hcv, k2.trans hce, k4, ?_, k6, ?_⟩
    · rw [k1, hcv]
      have : (g.vtxCount : Int) ≤ (pm.height * pm.width : Nat) + cs.length := by
        exact_mod_cast k4
      push_cast at this
      linarith
    · rw [k2, hce]
      have : (g.edgeCalls : Int) ≤ 2 * cs.length := by exact_mod_cast k6
      linarith
  refine ⟨hlen.symm, hpart, ?_⟩
  intro g hg
  unfold Photomontage.buildGraph at hg
  simp only [Option.bind_eq_bind, Option.bind_eq_some] at hg
  obtain ⟨g1, hg1, hg2⟩ := hg
  obtain ⟨h1, h2, _, h4, _, h6⟩ := hpart g1 hg1 (neighborCalls pm.height pm.width) g
    (List.prefix_refl _) hg2
  exact ⟨h1, h2, h4, h6⟩

/-- The statement of C17 at a grid whose sizes fit: the 2 x 2 grid of `pmJunction`, the
labeling that holds label 1 at `(0, 1)`, and `alpha = 0`; there `actualEdges = 4`. -/
theorem calls_within_capacity_of_int_range_instance :
    ((neighborCalls pmJunction.height pmJunction.width).length : Int) = pmJunction.actualEdges ∧
      (∀ g1, pmJunction.terminalLinks rightLabeling 0
          (GCGraph.create
            (int32 (pmJunction.actualEdges + int32 (pmJunction.height * pmJunction.width)))
            (int32 (2 * pmJunction.actualEdges))) = some g1 →
        ∀ cs g, cs <+: neighborCalls pmJunction.height pmJunction.width →
          cs.foldlM (pmJunction.neighborStep rightLabeling 0) g1 = some g →
          g.vtxCapacity = pmJunction.actualEdges + pmJunction.height * pmJunction.width ∧
            g.edgeCapacity = 2 * pmJunction.actualEdges ∧
            g.vtxCount ≤ pmJunction.height * pmJunction.width + cs.length ∧
            (g.vtxCount : Int) ≤ g.vtxCapacity ∧
            g.edgeCalls ≤ 2 * cs.length ∧ (g.edgeCalls : Int) ≤ g.edgeCapacity) ∧
      ∀ g, pmJunction.buildGraph rightLabeling 0 = some g →
        g.vtxCapacity = pmJunction.actualEdges + pmJunction.height * pmJunction.width ∧
          g.edgeCapacity = 2 * pmJunction.actualEdges ∧
          (g.vtxCount : Int) ≤ g.vtxCapacity ∧ (g.edgeCalls : Int) ≤ g.edgeCapacity :=
  calls_within_capacity_of_int_range pmJunction rightLabeling 0 (by decide) (by decide)
    (by decide)

/-! ## The claims -/

/-- C1: for candidate images of size height x width and every labeling `L` returned by
`assignLabeling`, `assignResImage` produces a grid with `height` rows and `width`
columns whose element at every pixel `(i, j)` is `images[L(i, j)](i, j)`: each output
pixel is the pixel of one candidate image at the same position. -/
theorem assignResImage_copies_labelled_pixel {Tp : Type} [Inhabited Tp]
    (pm : Photomontage Tp) (sv : Solver) (fuel : Nat) (L : Mat Int) (pm1 : Photomontage Tp)
    (hsz : pm.WellSized) (him : pm.ImagesSized)
    (hL : pm.assignLabeling sv fuel = some (L, pm1)) :
    ∃ out, pm.assignResImage sv fuel = some (out, pm1) ∧ out.rows = pm.height ∧
      out.cols = pm.width ∧
      ∀ i j, i < pm.height → j < pm.width →
        ∃ l im, L.atRC i j = some l ∧ vecAt pm.images l = some im ∧
          im.atRC i j = some (out.data i j) := by
  obtain ⟨_, hr, hc, hv⟩ := assignLabeling_spec pm sv fuel (L, pm1) hsz him hL
  have hall : ((List.range pm.height).all fun i =>
      (List.range pm.width).all fun j => (pm.resPixel L i j).isSome) = true := by
    simp only [List.all_eq_true, List.mem_range]
    intro i hi j hj
    obtain ⟨im, _, _, _, h4⟩ := resPixel_of_valid pm L hsz him hr hc hv i j hi hj
    rw [h4]; rfl
  unfold Photomontage.assignResImage
  simp only [hL, Option.bind_eq_bind, Option.some_bind, hall, if_true, Option.pure_def]
  refine ⟨_, rfl, rfl, rfl, ?_⟩
  intro i j hi hj
  obtain ⟨im, h1, h2, h3, h4⟩ := resPixel_of_valid pm L hsz him hr hc hv i j hi hj
  refine ⟨L.data i j, im, h1, h2, ?_⟩
  simp only [Mat.filled, h4, Option.getD_some]
  exact h3

/-- C1 at a concrete input: the 2 x 2 instance `pmDiag` with the exhaustive solver. -/
theorem assignResImage_copies_labelled_pixel_witness :
    ∃ L pm1, pmDiag.assignLabeling bruteForce 3 = some (L, pm1) ∧
      ∃ out, pmDiag.assignResImage bruteForce 3 = some (out, pm1) ∧ out.rows = 2 ∧
        out.cols = 2 ∧
        ∀ i j : Nat, i < 2 → j < 2 →
          ∃ l im, L.atRC i j = some l ∧ vecAt pmDiag.images l = some im ∧
            im.atRC i j = some (out.data i j) := by
  have hsome : (pmDiag.assignLabeling bruteForce 3).isSome = true := by decide!
  cases h : pmDiag.assignLabeling bruteForce 3 with
  | none => rw [h] at hsome; cases hsome
  | some r =>
    exact ⟨r.1, r.2, rfl,
      assignResImage_copies_labelled_pixel pmDiag bruteForce 3 r.1 r.2 pmDiag_wellSized
        pmDiag_imagesSized h⟩

/-- C2: label validity is an invariant of the optimizer.  For an input labeling `x` with
all entries in `[0, lsize)` and `alpha` in `[0, lsize)`, every entry of
`labelings[alpha]` written by `singleExpansion` is the input label at that pixel or
`alpha`, hence in `[0, lsize)`; and the labeling left by `gradientDescent` started
from the all-zero labeling has every entry in `[0, lsize)`, for any solver. -/
theorem labels_stay_valid {Tp : Type} (pm : Photomontage Tp) (sv : Solver) (x : Mat Int)
    (alpha : Int) (fuel : Nat) (r : ℚ × Photomontage Tp) (out : Mat Int × Photomontage Tp)
    (hsz : pm.WellSized) (hx : pm.ValidLabels x) (ha0 : 0 ≤ alpha) (ha1 : alpha < pm.lsize)
    (hse : pm.singleExpansion sv x alpha = some r)
    (hgd : pm.gradientDescent sv fuel (zeroLabeling pm.height pm.width) = some out) :
    (∃ L, vecAt r.2.labelings alpha = some L ∧ L.rows = pm.height ∧ L.cols = pm.width ∧
        ∀ i j, i < pm.height → j < pm.width →
          (L.data i j = x.data i j ∨ L.data i j = alpha) ∧
            0 ≤ L.data i j ∧ L.data i j < pm.lsize) ∧
      (1 ≤ pm.lsize ∧ out.1.rows = pm.height ∧ out.1.cols = pm.width ∧
        ∀ i j, i < pm.height → j < pm.width → 0 ≤ out.1.data i j ∧ out.1.data i j < pm.lsize) := by
  constructor
  · obtain ⟨g, _, _, _, hlen, hr2⟩ := singleExpansion_spec pm sv x alpha r hse
    refine ⟨pm.expansionLabeling x alpha (sv.inSourceSegment g), ?_, rfl, rfl, ?_⟩
    · rw [hr2]
      unfold vecAt Photomontage.withLabeling
      simp only [ha0, if_true]
      exact get?_set_self _ _ _ hlen
    · intro i j hi hj
      simp only [Photomontage.expansionLabeling, Mat.filled, Photomontage.decodedLabel]
      split
      · exact ⟨Or.inl rfl, hx i j hi hj⟩
      · exact ⟨Or.inr rfl, ha0, ha1⟩
  · obtain ⟨hl, hr, hc, hv, _, _⟩ := gradientDescent_zero_spec pm sv fuel out hsz hgd
    exact ⟨hl, hr, hc, hv⟩

/-- C2 at a concrete input: the 2 x 2 instance `pmDiag` with the exhaustive solver, the
all-zero labeling and `alpha = 1`. -/
theorem labels_stay_valid_witness :
    ∃ r out, pmDiag.singleExpansion bruteForce (zeroLabeling 2 2) 1 = some r ∧
      pmDiag.gradientDescent bruteForce 3 (zeroLabeling 2 2) = some out ∧
      (∃ L, vecAt r.2.labelings 1 = some L ∧ L.rows = 2 ∧ L.cols = 2 ∧
        ∀ i j : Nat, i < 2 → j < 2 →
          (L.data i j = (zeroLabeling 2 2).data i j ∨ L.data i j = 1) ∧
            0 ≤ L.data i j ∧ L.data i j < 3) ∧
      (1 ≤ 3 ∧ out.1.rows = 2 ∧ out.1.cols = 2 ∧
        ∀ i j : Nat, i < 2 → j < 2 → 0 ≤ out.1.data i j ∧ out.1.data i j < 3) := by
  have h1 : (pmDiag.singleExpansion bruteForce (zeroLabeling 2 2) 1).isSome = true := by decide!
  have h2 : (pmDiag.gradientDescent bruteForce 3 (zeroLabeling 2 2)).isSome = true := by decide!
  cases hr : pmDiag.singleExpansion bruteForce (zeroLabeling 2 2) 1 with
  | none => rw [hr] at h1; cases h1
  | some r =>
    cases ho : pmDiag.gradientDescent bruteForce 3 (zeroLabeling 2 2) with
    | none => rw [ho] at h2; cases h2
    | some out =>
      exact ⟨r, out, rfl, rfl,
        labels_stay_valid pmDiag bruteForce (zeroLabeling 2 2) 1 3 r out pmDiag_wellSized
          (zeroLabeling_valid pmDiag 2 2 (by decide)) (by decide) (by decide) hr ho⟩

/-- C3, at the failing input: one candidate image (so all images are identical) on a
1 x 2 grid with its mask true everywhere.  The last-row loop of `singleExpansion` calls
`setWeights` with `cv::Point(0, 1)`, which `Mat::at` reads as row 1, column 0 of a
one-row image; no flow value is computed and no composite image is produced, for any
solver and any number of rounds. -/
theorem identical_images_row_grid_fails (sv : Solver) (fuel : Nat) :
    pmRow.buildGraph (zeroLabeling 1 2) 0 = none ∧
      pmRow.singleExpansion sv (zeroLabeling 1 2) 0 = none ∧
      pmRow.assignResImage sv fuel = none := by
  have him : pmRow.ImagesSized := imagesSized_of_all pmRow (by decide)
  have hb := buildGraph_none_of_nonsquare pmRow (zeroLabeling 1 2) 0 him (by decide)
    (by decide) (by decide)
  refine ⟨hb, ?_, ?_⟩
  · unfold Photomontage.singleExpansion
    simp [hb]
  · unfold Photomontage.assignResImage
    simp [assignLabeling_none_of_nonsquare pmRow sv fuel ⟨rfl, rfl, rfl⟩ him (by decide)
      (by decide) (by decide)]

/-- C4, at the failing input: two candidate images on a 1 x 2 grid whose masks are split
by the vertical line between the two columns, full-resolution branch.  The mask
partition is label 0 at column 0 and label 1 at column 1, but `assignLabeling` returns
no labeling: `singleExpansion` reads row 1 of the one-row images. -/
theorem vertical_split_row_grid_fails (sv : Solver) (fuel : Nat) :
    pmSplitRow.directBranch = true ∧
      pmSplitRow.maskAt 0 0 0 = some 255 ∧ pmSplitRow.maskAt 1 0 0 = some 0 ∧
      pmSplitRow.maskAt 0 0 1 = some 0 ∧ pmSplitRow.maskAt 1 0 1 = some 255 ∧
      pmSplitRow.buildGraph (zeroLabeling 1 2) 0 = none ∧
      pmSplitRow.assignLabeling sv fuel = none := by
  have him : pmSplitRow.ImagesSized := imagesSized_of_all pmSplitRow (by decide)
  refine ⟨by decide, by decide, by decide, by decide, by decide, ?_, ?_⟩
  · exact buildGraph_none_of_nonsquare pmSplitRow (zeroLabeling 1 2) 0 him (by decide)
      (by decide) (by decide)
  · exact assignLabeling_none_of_nonsquare pmSplitRow sv fuel ⟨rfl, rfl, rfl⟩ him (by decide)
      (by decide) (by decide)

/-- C5, the claim refuted: 52 identical candidate images on an 8 x 8 grid (all pairwise
costs are zero), every pixel having exactly one valid label, and a minimum-cut solver.
Started from the all-zero labeling, `gradientDescent` adopts one label at a flow value of
at most `50 * 10^10`; in the next round every flow value is at least `49 * 10^10`, which
is not below `0.98` times the adopted value, so the loop is left with a labeling that
gives some pixel a label whose mask is false there. -/
theorem two_percent_rule_strands_invalid_labels_counterexample :
    bruteForce.IsMinCut ∧
      (∀ i j, i < 8 → j < 8 → ∃ l : Nat, l < 52 ∧ pmMany.maskAt l i j = some 255) ∧
      (∀ L p q, pmMany.pairCost L p q = 0) ∧
      ∃ out, pmMany.gradientDescent bruteForce 2 (zeroLabeling 8 8) = some out ∧
        ∃ i j, i < 8 ∧ j < 8 ∧ pmMany.labelMask out.1 i j = some 0 := by
  refine ⟨bruteForce_isMinCut, ?_, ?_, pmMany_run bruteForce bruteForce_isMinCut⟩
  · intro i j hi hj
    by_cases hp : i * 8 + j = 0 ∨ 52 ≤ i * 8 + j
    · refine ⟨0, by decide, ?_⟩
      rw [pmMany_maskAt 0 (by decide) i j hi hj]
      simp only [manyMask, if_true, if_pos hp]
    · refine ⟨i * 8 + j, by omega, ?_⟩
      rw [pmMany_maskAt (i * 8 + j) (by omega) i j hi hj]
      have h0 : ¬ (i * 8 + j = 0) := fun h => hp (Or.inl h)
      simp only [manyMask, if_neg h0, if_true]
  · intro L p q
    exact pairCost_zero_of_identical pmMany pmMany_identical sqDiff_self L p q

/-- C5, as amended: with a solver that reports the capacity of the cut it returns and
non-negative pairwise costs, if the flow value of the last label adopted by
`gradientDescent` (started from the all-zero labeling) is below `GCInfinity = 10^10`,
the labeling it converges to gives no pixel a label whose mask is false there. -/
theorem cheap_optimum_respects_masks {Tp : Type} (pm : Photomontage Tp) (sv : Solver)
    (fuel : Nat) (out : Mat Int × Photomontage Tp) (values : List ℚ) (v : ℚ)
    (hsz : pm.WellSized) (hrep : sv.ReportsCut) (hn : ∀ a b, 0 ≤ pm.norm2 a b)
    (hgd : pm.gradientDescent sv fuel (zeroLabeling pm.height pm.width) = some out)
    (hvals : pm.adoptedValues sv fuel (zeroLabeling pm.height pm.width) = some values)
    (hlast : values.getLast? = some v) (hv : v < GCInfinity) :
    ∀ i j, i < pm.height → j < pm.width → ∃ m, pm.labelMask out.1 i j = some m ∧ m ≠ 0 := by
  unfold Photomontage.gradientDescent at hgd
  unfold Photomontage.adoptedValues at hvals
  simp only [Option.map_eq_some'] at hgd hvals
  obtain ⟨r, hr, hout⟩ := hgd
  obtain ⟨r', hr', hvs⟩ := hvals
  rw [hr] at hr'
  simp only [Option.some.injEq] at hr'
  subst hr' hout hvs
  obtain ⟨res, hres⟩ := gdLoop_first_round sv fuel _ r hr
  have hl : 1 ≤ pm.lsize := (gdRound_some_facts sv _ res hsz.2.2 hres).1
  have hinv := gdLoop_inv sv
    (fun s => s.Inv pm ∧ (s.optValue < GCInfinity → pm.MaskRespecting s.x_n))
    (fun s => s.Inv pm ∧ (s.optValue < GCInfinity → pm.MaskRespecting s.x_n))
    (fun s s1 hP hround => by
      refine ⟨gdRound_adopted_inv sv pm s s1 hP.1 hround, ?_⟩
      obtain ⟨alpha, g, _, hg, hx, hopt, _⟩ := gdRound_adopted_spec sv pm s s1 hP.1 hround
      intro hlt i j hi hj
      rw [hx]
      rw [hopt] at hlt
      exact expansion_valid_of_cheap pm sv s.x_n alpha g hrep hn hg hlt i j hi hj)
    (fun s s1 hP hround => by
      obtain ⟨hI, hx, hopt⟩ := gdRound_stopped_spec sv pm s s1 hP.1 hround
      refine ⟨hI, ?_⟩
      rw [hx, hopt]
      exact hP.2)
    fuel _ r
    ⟨gdInit_inv pm hsz hl, fun hlt => absurd hlt (not_lt.mpr dblMax_ge_infinity)⟩ hr
  have hopt := gdLoop_optValue sv fuel _ r hr
  rw [hlast] at hopt
  simp only [Option.getD_some] at hopt
  have himg : r.1.img = r.1.x_n := hinv.1.2.2.2.2.1
  simp only
  rw [himg]
  exact hinv.2 (by rw [hopt]; exact hv)

/-- C5 as amended, at a concrete input: the 2 x 2 instance `pmHalves` with the exhaustive
solver; the one adopted flow value is 4. -/
theorem cheap_optimum_respects_masks_witness :
    ∃ out, pmHalves.gradientDescent bruteForce 3 (zeroLabeling 2 2) = some out ∧
      pmHalves.adoptedValues bruteForce 3 (zeroLabeling 2 2) = some [4] ∧
      (4 : ℚ) < GCInfinity ∧
      ∀ i j, i < 2 → j < 2 → ∃ m, pmHalves.labelMask out.1 i j = some m ∧ m ≠ 0 := by
  have h1 : (pmHalves.gradientDescent bruteForce 3 (zeroLabeling 2 2)).isSome = true := by
    decide!
  have h2 : pmHalves.adoptedValues bruteForce 3 (zeroLabeling 2 2) = some [4] := by decide!
  have h3 : (4 : ℚ) < GCInfinity := by decide!
  cases ho : pmHalves.gradientDescent bruteForce 3 (zeroLabeling 2 2) with
  | none => rw [ho] at h1; cases h1
  | some out =>
    exact ⟨out, rfl, h2, h3,
      cheap_optimum_respects_masks pmHalves bruteForce 3 out [4] 4 ⟨rfl, rfl, rfl⟩
        (fun g => (bruteForce_isMinCut g).1) sqDiff_nonneg ho h2 rfl h3⟩

/-- C6, the claim refuted: on the 2 x 2 grid with three constant images of values 0, 2
and 1, the trial label 2 masked out everywhere and the current labeling holding label 1
at `(1, 1)` and label 0 elsewhere, a minimum-cut solver makes `singleExpansion` return
the value 8, while the labeling it writes (the current one) has total cost 16: at each
of the two junctions the cut through the auxiliary node costs `dist(0,2) + dist(2,1) = 4`
where the seam between labels 0 and 1 costs 8. -/
theorem flow_is_not_total_cost_counterexample :
    bruteForce.IsMinCut ∧
      (pmJunction.singleExpansion bruteForce cornerLabeling 2).map
        (fun r => (r.1, (vecAt r.2.labelings 2).map
          (fun L => ([L.data 0 0, L.data 0 1, L.data 1 0, L.data 1 1], pmJunction.totalCost L))))
        = some (8, some ([0, 0, 0, 1], 16)) :=
  ⟨bruteForce_isMinCut, by decide!⟩

/-- C6, as amended: with a solver that reports the capacity of the cut it returns, the
value returned by `singleExpansion(x, alpha)` is the mask penalty of the new labeling
`labelings[alpha]` (summed over the pixels, `10^10` where the mask of the chosen label is
false) plus the capacity of the neighbour links (edges and auxiliary sink links, the
calls made after the terminal pass) that the returned partition cuts; with non-negative
pairwise costs the value is therefore at least the mask penalty. -/
theorem flow_is_penalty_plus_cut_links {Tp : Type} (pm : Photomontage Tp) (sv : Solver)
    (x : Mat Int) (alpha : Int) (r : ℚ × Photomontage Tp) (hrep : sv.ReportsCut)
    (hse : pm.singleExpansion sv x alpha = some r) :
    ∃ g L, pm.buildGraph x alpha = some g ∧ vecAt r.2.labelings alpha = some L ∧
      r.1 = gridSum pm.height pm.width (pm.maskPenalty L) +
        ((g.ops.drop (2 * (pm.height * pm.width))).map
          (GCOp.cut (sv.inSourceSegment g))).sum ∧
      ((∀ a b, 0 ≤ pm.norm2 a b) → gridSum pm.height pm.width (pm.maskPenalty L) ≤ r.1) := by
  obtain ⟨g, hg, hv, ha0, hlen, hr2⟩ := singleExpansion_spec pm sv x alpha r hse
  refine ⟨g, pm.expansionLabeling x alpha (sv.inSourceSegment g), hg, ?_, ?_, ?_⟩
  · rw [hr2]
    unfold vecAt Photomontage.withLabeling
    simp only [ha0, if_true]
    exact get?_set_self _ _ _ hlen
  · rw [hv, hrep g]
    exact buildGraph_cutCapacity pm x alpha g _ hg
  · intro hn
    rw [hv, hrep g, buildGraph_cutCapacity pm x alpha g _ hg]
    have := links_cut_nonneg pm x alpha g (sv.inSourceSegment g) hg hn
    linarith

/-- C6 as amended, at a concrete input: the 2 x 2 instance `pmJunction` with the
exhaustive solver, the labeling `cornerLabeling` and `alpha = 2`. -/
theorem flow_is_penalty_plus_cut_links_witness :
    ∃ r, pmJunction.singleExpansion bruteForce cornerLabeling 2 = some r ∧
      ∃ g L, pmJunction.buildGraph cornerLabeling 2 = some g ∧
        vecAt r.2.labelings 2 = some L ∧
        r.1 = gridSum 2 2 (pmJunction.maskPenalty L) +
          ((g.ops.drop (2 * (2 * 2))).map (GCOp.cut (bruteForce.inSourceSegment g))).sum ∧
        ((∀ a b, 0 ≤ pmJunction.norm2 a b) → gridSum 2 2 (pmJunction.maskPenalty L) ≤ r.1) := by
  have h1 : (pmJunction.singleExpansion bruteForce cornerLabeling 2).isSome = true := by decide!
  cases hr : pmJunction.singleExpansion bruteForce cornerLabeling 2 with
  | none => rw [hr] at h1; cases h1
  | some r =>
    exact ⟨r, rfl, flow_is_penalty_plus_cut_links pmJunction bruteForce cornerLabeling 2 r
      (fun g => (bruteForce_isMinCut g).1) hr⟩

/-- C7: a round's best label is adopted if and only if its flow value `minValue`
satisfies `minValue < 0.98 * bestSoFar` (the round then continues from
`labelings[minIndex]` with `bestSoFar = minValue`, otherwise the loop is left); hence,
for non-negative flow values, along the run from the all-zero labeling every adopted
flow value is strictly below 0.98 times the previously adopted one (the first below
0.98 times the initial `DBL_MAX`) and the sequence of adopted values is non-increasing. -/
theorem adoption_needs_two_percent {Tp : Type} (pm : Photomontage Tp) (sv : Solver)
    (fuel : Nat) (values : List ℚ) (s : GDState Tp) (pm1 : Photomontage Tp) (minValue : ℚ)
    (src : Mat Int)
    (hexp : s.pm.expandAll sv s.x_n = some pm1)
    (hmin : pm1.distances.get? (min_idx pm1.distances) = some minValue)
    (hsrc : pm1.labelings.get? (min_idx pm1.distances) = some src)
    (hsz : pm.WellSized)
    (hnn : ∀ x alpha g, pm.buildGraph x alpha = some g → 0 ≤ sv.maxFlow g)
    (hvals : pm.adoptedValues sv fuel (zeroLabeling pm.height pm.width) = some values) :
    ((∃ s1, gdRound sv s = some (GDRound.adopted s1)) ↔ minValue < (49 / 50 : ℚ) * s.optValue) ∧
      (minValue < (49 / 50 : ℚ) * s.optValue →
        gdRound sv s = some (GDRound.adopted (s.copyTo pm1 minValue src)) ∧
          (s.copyTo pm1 minValue src).optValue = minValue ∧
          (s.copyTo pm1 minValue src).x_n = src) ∧
      (¬ minValue < (49 / 50 : ℚ) * s.optValue →
        gdRound sv s = some (GDRound.stopped { s with pm := pm1 })) ∧
      List.Chain (fun a b => b < (49 / 50 : ℚ) * a ∧ b ≤ a) DBL_MAX values := by
  have hadopt : minValue < (49 / 50 : ℚ) * s.optValue →
      gdRound sv s = some (GDRound.adopted (s.copyTo pm1 minValue src)) := by
    intro hlt
    unfold gdRound
    simp only [hexp, Option.bind_eq_bind, Option.some_bind, hmin, hlt, if_true, hsrc,
      Option.pure_def]
  have hstop : ¬ minValue < (49 / 50 : ℚ) * s.optValue →
      gdRound sv s = some (GDRound.stopped { s with pm := pm1 }) := by
    intro hlt
    unfold gdRound
    simp only [hexp, Option.bind_eq_bind, Option.some_bind, hmin, hlt, if_false,
      Option.pure_def]
  refine ⟨⟨?_, fun hlt => ⟨_, hadopt hlt⟩⟩, fun hlt => ⟨hadopt hlt, rfl, rfl⟩, hstop, ?_⟩
  · rintro ⟨s1, hs1⟩
    by_contra hlt
    rw [hstop hlt] at hs1
    simp at hs1
  · unfold Photomontage.adoptedValues at hvals
    simp only [Option.map_eq_some'] at hvals
    obtain ⟨r, hr, hvs⟩ := hvals
    subst hvs
    obtain ⟨res, hres⟩ := gdLoop_first_round sv fuel _ r hr
    have hl : 1 ≤ pm.lsize := (gdRound_some_facts sv _ res hsz.2.2 hres).1
    exact gdLoop_chain sv pm hnn fuel _ r (gdInit_inv pm hsz hl) dblMax_nonneg hr

/-- C7 at a concrete input: the 2 x 2 instance `pmDiag` with the exhaustive solver,
started from the all-zero labeling. -/
theorem adoption_needs_two_percent_witness :
    ∃ pm1 minValue src values,
      (pmDiag.gdInit (zeroLabeling 2 2)).pm.expandAll bruteForce
        (pmDiag.gdInit (zeroLabeling 2 2)).x_n = some pm1 ∧
      pm1.distances.get? (min_idx pm1.distances) = some minValue ∧
      pm1.labelings.get? (min_idx pm1.distances) = some src ∧
      pmDiag.adoptedValues bruteForce 3 (zeroLabeling 2 2) = some values ∧
      values = [10000000000] ∧
      ((∃ s1, gdRound bruteForce (pmDiag.gdInit (zeroLabeling 2 2)) = some (GDRound.adopted s1)) ↔
        minValue < (49 / 50 : ℚ) * (pmDiag.gdInit (zeroLabeling 2 2)).optValue) ∧
      (minValue < (49 / 50 : ℚ) * (pmDiag.gdInit (zeroLabeling 2 2)).optValue →
        gdRound bruteForce (pmDiag.gdInit (zeroLabeling 2 2)) =
            some (GDRound.adopted ((pmDiag.gdInit (zeroLabeling 2 2)).copyTo pm1 minValue src)) ∧
          ((pmDiag.gdInit (zeroLabeling 2 2)).copyTo pm1 minValue src).optValue = minValue ∧
          ((pmDiag.gdInit (zeroLabeling 2 2)).copyTo pm1 minValue src).x_n = src) ∧
      (¬ minValue < (49 / 50 : ℚ) * (pmDiag.gdInit (zeroLabeling 2 2)).optValue →
        gdRound bruteForce (pmDiag.gdInit (zeroLabeling 2 2)) =
          some (GDRound.stopped { pmDiag.gdInit (zeroLabeling 2 2) with pm := pm1 })) ∧
      List.Chain (fun a b => b < (49 / 50 : ℚ) * a ∧ b ≤ a) DBL_MAX values := by
  have h1 : ((pmDiag.gdInit (zeroLabeling 2 2)).pm.expandAll bruteForce
      (pmDiag.gdInit (zeroLabeling 2 2)).x_n).isSome = true := by decide!
  cases hexp : (pmDiag.gdInit (zeroLabeling 2 2)).pm.expandAll bruteForce
      (pmDiag.gdInit (zeroLabeling 2 2)).x_n with
  | none => rw [hexp] at h1; cases h1
  | some pm1 =>
    have h2 : ((pmDiag.gdInit (zeroLabeling 2 2)).pm.expandAll bruteForce
        (pmDiag.gdInit (zeroLabeling 2 2)).x_n).map
        (fun p => ((p.distances.get? (min_idx p.distances)).isSome,
          (p.labelings.get? (min_idx p.distances)).isSome)) = some (true, true) := by decide!
    rw [hexp] at h2
    simp only [Option.map_some', Option.some.injEq, Prod.mk.injEq] at h2
    cases hmin : pm1.distances.get? (min_idx pm1.distances) with
    | none => rw [hmin] at h2; simp at h2
    | some minValue =>
      cases hsrc : pm1.labelings.get? (min_idx pm1.distances) with
      | none => rw [hsrc] at h2; simp at h2
      | some src =>
        have hv : pmDiag.adoptedValues bruteForce 3 (zeroLabeling 2 2) = some [10000000000] := by
          decide!
        exact ⟨pm1, minValue, src, [10000000000], rfl, hmin, hsrc, hv, rfl,
          adoption_needs_two_percent pmDiag bruteForce 3 [10000000000]
            (pmDiag.gdInit (zeroLabeling 2 2)) pm1 minValue src hexp hmin hsrc
            pmDiag_wellSized
            (fun x alpha g hg => flow_nonneg_of_reportsCut pmDiag bruteForce
              (fun g0 => (bruteForce_isMinCut g0).1) sqDiff_nonneg x alpha g hg) hv⟩

/-- C8, the claim refuted: with a first image of float depth and a second image of
8-bit depth (masks of 8-bit depth), and with float images and a second mask of float
depth, construction succeeds: only `images[0]` and `masks[0]` are examined. -/
theorem construct_examines_first_only_counterexample :
    (constMat 1 1 CV_8UC1 (0 : ℚ)).depth = CV_8U ∧
      (Photomontage.construct sqDiff [constMat 1 1 CV_32FC1 0, constMat 1 1 CV_8UC1 0]
        [constMat 1 1 CV_8UC1 255, constMat 1 1 CV_8UC1 255] true).isSome = true ∧
      (constMat 1 1 CV_32FC1 (255 : Nat)).depth ≠ CV_8U ∧
      (Photomontage.construct sqDiff [constMat 1 1 CV_32FC1 0, constMat 1 1 CV_32FC1 0]
        [constMat 1 1 CV_8UC1 255, constMat 1 1 CV_32FC1 255] true).isSome = true := by
  decide

/-- C8, as amended: for non-empty lists of candidate images and validity masks,
construction succeeds exactly when the first image does not have depth `CV_8U` and the
first mask has depth `CV_8U`, and fails (assertion violation) otherwise; the other
images and masks are not examined. -/
theorem construct_succeeds_iff_first_depths {Tp : Type} (norm2 : Tp → Tp → ℚ)
    (image0 : Mat Tp) (images : List (Mat Tp)) (mask0 : Mat Nat) (masks : List (Mat Nat))
    (multiscale : Bool) :
    ((Photomontage.construct norm2 (image0 :: images) (mask0 :: masks) multiscale).isSome = true ↔
        (image0.depth ≠ CV_8U ∧ mask0.depth = CV_8U)) ∧
      ((Photomontage.construct norm2 (image0 :: images) (mask0 :: masks) multiscale) = none ↔
        (image0.depth = CV_8U ∨ mask0.depth ≠ CV_8U)) := by
  unfold Photomontage.construct
  simp only [List.get?_cons_zero, Option.bind_eq_bind, Option.some_bind, Option.pure_def]
  by_cases h : image0.depth ≠ CV_8U ∧ mask0.depth = CV_8U
  · rw [if_pos h]
    refine And.intro (Iff.intro (fun _ => h) (fun _ => rfl)) (Iff.intro ?_ ?_)
    · intro hn
      cases hn
    · intro hor
      rcases hor with h1 | h2
      · exact absurd h1 h.1
      · exact absurd h.2 h2
  · rw [if_neg h]
    refine And.intro (Iff.intro ?_ (fun hc => absurd hc h)) (Iff.intro ?_ (fun _ => rfl))
    · intro hs
      cases hs
    · intro _
      by_cases h1 : image0.depth = CV_8U
      · exact Or.inl h1
      · exact Or.inr (fun h2 => h ⟨h1, h2⟩)

/-- C9, at the failing input: a 600 x 800 grid with multiscale enabled.  `assignLabeling`
takes the multiscale branch with factor `l = 1`; the upsampling call
`resize(img, img, cv::Size(height, width), ...)` passes the height where `cv::Size`
takes the width, so whatever labeling it is given comes back with 800 rows and 600
columns, not 600 rows and 800 columns.  (On this grid, which is not square, the
optimization before it already reads outside the images, so no labeling is returned.) -/
theorem upsample_transposes_size (sv : Solver) (fuel : Nat) (img : Mat Int) :
    pmWide.directBranch = false ∧ pmWide.scaleFactor = 1 ∧
      (pmWide.reducedLabeling.rows = 600 ∧ pmWide.reducedLabeling.cols = 800) ∧
      (∀ out, pmWide.upsample img = some out → out.rows = 800 ∧ out.cols = 600) ∧
      (∃ out, pmWide.upsample pmWide.reducedLabeling = some out ∧ out.rows = 800 ∧
        out.cols = 600) ∧
      pmWide.assignLabeling sv fuel = none := by
  have hd : pmWide.directBranch = false := by decide
  have hs : pmWide.scaleFactor = 1 := by decide!
  have hred : pmWide.reducedLabeling.rows = 600 ∧ pmWide.reducedLabeling.cols = 800 := by
    simp only [Photomontage.reducedLabeling, hs]
    decide
  refine ⟨hd, hs, hred, fun out h => upsample_dims pmWide img out h, ?_, ?_⟩
  · obtain ⟨out, hout⟩ := upsample_some pmWide pmWide.reducedLabeling (by rw [hred.1]; decide)
      (by rw [hred.2]; decide) (by decide) (by decide)
    exact ⟨out, hout, upsample_dims pmWide _ out hout⟩
  · exact assignLabeling_none_of_nonsquare pmWide sv fuel ⟨rfl, rfl, rfl⟩
      (imagesSized_of_all pmWide (by decide)) (by decide) (by decide) (by decide)

/-- C10, at the failing input: a 1200 x 1600 grid with multiscale enabled.
`assignLabeling` takes the multiscale branch with factor `l = 2` and creates a working
labeling of 600 rows and 800 columns, but `singleExpansion` runs its loops over the
members `height = 1200` and `width = 1600`: a terminal pass that completes has added
`1200 * 1600` pixel nodes, not `800 * 600`, and on the working labeling it reads row 0
at column 800, outside the labeling, so that no labeling is returned. -/
theorem multiscale_runs_at_full_size (sv : Solver) (fuel : Nat) (x : Mat Int) (alpha : Int)
    (g g1 : GCGraph) :
    pmLarge.directBranch = false ∧ pmLarge.scaleFactor = 2 ∧
      (pmLarge.reducedLabeling.rows = 600 ∧ pmLarge.reducedLabeling.cols = 800) ∧
      (pmLarge.terminalLinks x alpha g = some g1 →
        g1.vtxCount = g.vtxCount + 1200 * 1600 ∧ (1200 ≤ x.rows ∧ 1600 ≤ x.cols)) ∧
      pmLarge.reducedLabeling.atRC 0 800 = none ∧
      pmLarge.terminalLinks pmLarge.reducedLabeling alpha g = none ∧
      pmLarge.assignLabeling sv fuel = none := by
  have hd : pmLarge.directBranch = false := by decide
  have hs : pmLarge.scaleFactor = 2 := by decide!
  have hred : pmLarge.reducedLabeling.rows = 600 ∧ pmLarge.reducedLabeling.cols = 800 := by
    simp only [Photomontage.reducedLabeling, hs]
    decide
  have hterm : ∀ y : Mat Int, ∀ g0 g2 : GCGraph, pmLarge.terminalLinks y alpha g0 = some g2 →
      g2.vtxCount = g0.vtxCount + 1200 * 1600 ∧ (1200 ≤ y.rows ∧ 1600 ≤ y.cols) := by
    intro y g0 g2 h
    obtain ⟨e, hr⟩ := terminalLinks_spec pmLarge y alpha g0 g2 h
    constructor
    · rw [e]; rfl
    · have := (hr 1199 1599 (by decide) (by decide)).2
      unfold Photomontage.labelMask at this
      rw [atRC_natCast] at this
      by_cases hc : 1199 < y.rows ∧ 1599 < y.cols
      · omega
      · simp [hc] at this
  refine ⟨hd, hs, hred, hterm x g g1, ?_, ?_, ?_⟩
  · unfold Mat.atRC
    rw [hred.1, hred.2]
    decide
  · cases ht : pmLarge.terminalLinks pmLarge.reducedLabeling alpha g with
    | none => rfl
    | some g2 =>
      have := (hterm _ g g2 ht).2
      omega
  · unfold Photomontage.assignLabeling
    rw [hd]
    simp only [Bool.false_eq_true, if_false, hs]
    have hgd := gradientDescent_none_of_small pmLarge sv fuel pmLarge.reducedLabeling
      ⟨rfl, rfl, rfl⟩ (by decide) (by decide) (Or.inl (by rw [hred.1]; decide))
    simp [hgd]

/-- C11: the result of `assignResImage` does not depend on the contents of the working
storage.  Two objects with the same images, masks, sizes and multiscale flag, whose
`labelings` and `distances` have one slot per label but hold anything, give the same
result (the same composite image and the same object afterwards, or no result for
both); and a second run on the object left behind by a run that returned gives the same
composite image again.  The solver is a function of the graph it is handed. -/
theorem assignResImage_independent_of_storage {Tp : Type} [Inhabited Tp]
    (pm pm1 : Photomontage Tp) (sv : Solver) (fuel : Nat) (hs : pm.SameInputs pm1)
    (hla : pm.labelings.length = pm.lsize) (hda : pm.distances.length = pm.lsize)
    (hlb : pm1.labelings.length = pm.lsize) (hdb : pm1.distances.length = pm.lsize) :
    pm1.assignResImage sv fuel = pm.assignResImage sv fuel ∧
      ∀ out pm2, pm.assignResImage sv fuel = some (out, pm2) →
        pm2.assignResImage sv fuel = some (out, pm2) := by
  refine ⟨assignResImage_eq sv fuel pm pm1 hs hla hda hlb hdb, ?_⟩
  intro out pm2 h
  obtain ⟨k1, k2, k3⟩ := assignResImage_storage sv fuel pm (out, pm2) h
  rw [assignResImage_eq sv fuel pm pm2 k1 hla hda (k2.trans hla) (k3.trans hda)]
  exact h

/-- C11 at a concrete input: the 2 x 2 instance `pmDiag` with fresh storage and with
storage that holds leftovers; the run returns a composite image. -/
theorem assignResImage_independent_of_storage_witness :
    (pmDiag.assignResImage bruteForce 3).isSome = true ∧
      pmDiagUsed.distances ≠ pmDiag.distances ∧
      pmDiagUsed.assignResImage bruteForce 3 = pmDiag.assignResImage bruteForce 3 ∧
      ∀ out pm2, pmDiag.assignResImage bruteForce 3 = some (out, pm2) →
        pm2.assignResImage bruteForce 3 = some (out, pm2) :=
  ⟨by decide!, by decide!,
    assignResImage_independent_of_storage pmDiag pmDiagUsed bruteForce 3
      ⟨rfl, rfl, rfl, rfl, rfl, rfl, rfl, rfl, rfl⟩ rfl rfl rfl rfl⟩

/-- C12, the claim refuted: on the grid of one pixel of `pmPixel` (three labels, the mask
of label 0 false, the masks of labels 1 and 2 true) with a minimum-cut solver, the first
round of `gradientDescent` (one pass of `singleExpansion` over all labels) adopts a
label, so the loop is not left after it: a second pass over all labels is made, and
that round leaves the loop.  With room for one round the run has not ended, with room for
two it has, and the label of the pixel is then 1. -/
theorem single_pixel_second_round_counterexample :
    pmPixel.height = 1 ∧ pmPixel.width = 1 ∧ bruteForce.IsMinCut ∧
      ∃ s1 s2, gdRound bruteForce (pmPixel.gdInit (zeroLabeling 1 1)) =
          some (GDRound.adopted s1) ∧
        gdRound bruteForce s1 = some (GDRound.stopped s2) ∧
        gdLoop bruteForce 1 (pmPixel.gdInit (zeroLabeling 1 1)) = none ∧
        gdLoop bruteForce 2 (pmPixel.gdInit (zeroLabeling 1 1)) = some (s2, [s1.optValue]) ∧
        (pmPixel.gradientDescent bruteForce 2 (zeroLabeling 1 1)).map
          (fun out => out.1.data 0 0) = some 1 := by
  obtain ⟨s1, s2, h1, h2, _⟩ := single_pixel_run pmPixel bruteForce bruteForce_isMinCut rfl rfl
    ⟨rfl, rfl, rfl⟩ pmPixel_masksSized (by decide)
  have e : zeroLabeling pmPixel.height pmPixel.width = zeroLabeling 1 1 := rfl
  rw [e] at h1
  refine ⟨rfl, rfl, bruteForce_isMinCut, s1, s2, h1, h2, ?_, ?_, by decide!⟩
  · simp only [gdLoop, h1]
  · simp only [gdLoop, h1, h2]

/-- C12, as amended: on a grid of one pixel with `N >= 1` labels and a minimum-cut
solver, no graph handed to the solver holds an edge (it holds the node of the pixel and
its terminal link only); `gradientDescent` started from the all-zero labeling ends in
exactly two rounds, the first adopting a label and the second leaving the loop; and the
final label `c` of the pixel is a label of lowest terminal-weight cost (`0` if its mask
is true at the pixel, `10^10` otherwise), the lowest index among the labels of that
cost. -/
theorem single_pixel_two_rounds {Tp : Type} (pm : Photomontage Tp) (sv : Solver)
    (hmc : sv.IsMinCut) (hh : pm.height = 1) (hw : pm.width = 1) (hsz : pm.WellSized)
    (hms : pm.MasksSized) (hl : 1 ≤ pm.lsize) :
    (∀ x alpha g, pm.buildGraph x alpha = some g →
        ∃ sourceW sinkW, g.ops = [GCOp.addVtx, GCOp.addTermWeights 0 sourceW sinkW]) ∧
      ∃ s1 out c,
        gdRound sv (pm.gdInit (zeroLabeling pm.height pm.width)) = some (GDRound.adopted s1) ∧
        pm.gradientDescent sv 1 (zeroLabeling pm.height pm.width) = none ∧
        pm.gradientDescent sv 2 (zeroLabeling pm.height pm.width) = some out ∧
        pm.adoptedValues sv 2 (zeroLabeling pm.height pm.width) =
          some [pm.terminalCost c 0 0] ∧
        out.1.atRC 0 0 = some c ∧ 0 ≤ c ∧ c < pm.lsize ∧
        (pm.terminalCost c 0 0 = 0 ∨ pm.terminalCost c 0 0 = 10 ^ 10) ∧
        (∀ l : Nat, l < pm.lsize → pm.terminalCost c 0 0 ≤ pm.terminalCost l 0 0) ∧
        (∀ l : Nat, (l : Int) < c → pm.terminalCost c 0 0 < pm.terminalCost l 0 0) := by
  constructor
  · intro x alpha g hg
    exact ⟨_, _, buildGraph_pixel pm x alpha g hh hw hg⟩
  · obtain ⟨s1, s2, h1, h2, hr, hc, hv, h0, hlt, hmin, hfirst⟩ :=
      single_pixel_run pm sv hmc hh hw hsz hms hl
    have hloop1 : gdLoop sv 1 (pm.gdInit (zeroLabeling pm.height pm.width)) = none := by
      simp only [gdLoop, h1]
    have hloop2 : gdLoop sv 2 (pm.gdInit (zeroLabeling pm.height pm.width)) =
        some (s2, [s1.optValue]) := by
      simp only [gdLoop, h1, h2]
    refine ⟨s1, (s2.img, s2.pm), s2.img.data 0 0, h1, ?_, ?_, ?_, ?_, h0, hlt, ?_, hmin, hfirst⟩
    · unfold Photomontage.gradientDescent
      rw [hloop1]; rfl
    · unfold Photomontage.gradientDescent
      rw [hloop2]; rfl
    · unfold Photomontage.adoptedValues
      rw [hloop2, hv]; rfl
    · exact atRC_some_of_lt s2.img 0 0 (by omega) (by omega)
    · unfold Photomontage.terminalCost termWeight
      split
      · exact Or.inl rfl
      · right; unfold GCInfinity; norm_num

/-- C12 as amended, at a concrete input: the grid of one pixel of `pmPixel` with the
exhaustive solver. -/
theorem single_pixel_two_rounds_witness :
    (∀ x alpha g, pmPixel.buildGraph x alpha = some g →
        ∃ sourceW sinkW, g.ops = [GCOp.addVtx, GCOp.addTermWeights 0 sourceW sinkW]) ∧
      ∃ s1 out c,
        gdRound bruteForce (pmPixel.gdInit (zeroLabeling pmPixel.height pmPixel.width)) =
          some (GDRound.adopted s1) ∧
        pmPixel.gradientDescent bruteForce 1 (zeroLabeling pmPixel.height pmPixel.width) = none ∧
        pmPixel.gradientDescent bruteForce 2 (zeroLabeling pmPixel.height pmPixel.width) =
          some out ∧
        pmPixel.adoptedValues bruteForce 2 (zeroLabeling pmPixel.height pmPixel.width) =
          some [pmPixel.terminalCost c 0 0] ∧
        out.1.atRC 0 0 = some c ∧ 0 ≤ c ∧ c < pmPixel.lsize ∧
        (pmPixel.terminalCost c 0 0 = 0 ∨ pmPixel.terminalCost c 0 0 = 10 ^ 10) ∧
        (∀ l : Nat, l < pmPixel.lsize →
          pmPixel.terminalCost c 0 0 ≤ pmPixel.terminalCost l 0 0) ∧
        (∀ l : Nat, (l : Int) < c → pmPixel.terminalCost c 0 0 < pmPixel.terminalCost l 0 0) :=
  single_pixel_two_rounds pmPixel bruteForce bruteForce_isMinCut rfl rfl ⟨rfl, rfl, rfl⟩
    pmPixel_masksSized (by decide)

/-- C13, at the failing input: the 2 x 2 grid of `pmJunction`, the labeling that holds
label 1 at pixel `(0, 1)` and label 0 elsewhere, and `alpha = 0`.  The first invocation
of `setWeights` is made for the pixel pair `((0, 0), (0, 1))`: it passes the labels
`x(0, 0) = 0` and `x(0, 1) = 1` with the positions `cv::Point(0, 0)` and
`cv::Point(0, 1)`.  The node that `setWeights` computes for the second position is
`pB.y*width + pB.x = 2`, the node created for pixel `(1, 0)`, and not the node
`0*width + 1 = 1` created for pixel `(0, 1)`: the junction of the labels 0 and 1 is
built between the nodes 0 and 2 (auxiliary node 4), and the pair `((0, 0), (1, 0))` is
linked between the nodes 0 and 1. -/
theorem neighbor_pass_links_transposed_nodes :
    (neighborCalls pmJunction.height pmJunction.width).head? =
        some ⟨⟨0, 0⟩, ⟨0, 1⟩, (0, 0), (0, 1)⟩ ∧
      rightLabeling.atRC 0 0 = some 0 ∧ rightLabeling.atRC 0 1 = some 1 ∧
      pmJunction.nodeId ⟨0, 1⟩ = 2 ∧ pmJunction.nodeId ⟨0, 1⟩ ≠ 0 * pmJunction.width + 1 ∧
      ∃ g, pmJunction.buildGraph rightLabeling 0 = some g ∧
        g.ops.drop (2 * (pmJunction.height * pmJunction.width)) =
          [GCOp.addVtx, GCOp.addTermWeights 4 0 8, GCOp.addEdges 0 4 0 0,
            GCOp.addEdges 4 2 8 8,
            GCOp.addEdges 0 1 0 0,
            GCOp.addVtx, GCOp.addTermWeights 5 0 8, GCOp.addEdges 2 5 8 8,
            GCOp.addEdges 5 3 0 0,
            GCOp.addEdges 1 3 0 0] := by
  refine ⟨by decide, by decide, by decide, by decide, by decide, ?_⟩
  have hsome : (pmJunction.buildGraph rightLabeling 0).isSome = true := by decide!
  cases h : pmJunction.buildGraph rightLabeling 0 with
  | none => rw [h] at hsome; cases hsome
  | some g =>
    refine ⟨g, rfl, ?_⟩
    have hd : ((pmJunction.buildGraph rightLabeling 0).map fun g1 =>
        g1.ops.drop (2 * (pmJunction.height * pmJunction.width))) =
        some [GCOp.addVtx, GCOp.addTermWeights 4 0 8, GCOp.addEdges 0 4 0 0,
            GCOp.addEdges 4 2 8 8,
            GCOp.addEdges 0 1 0 0,
            GCOp.addVtx, GCOp.addTermWeights 5 0 8, GCOp.addEdges 2 5 8 8,
            GCOp.addEdges 5 3 0 0,
            GCOp.addEdges 1 3 0 0] := by decide!
    rw [h] at hd
    exact Option.some.inj hd

/-- C14: for positions `pA`, `pB` and labels `lA ≠ lB` whose six image reads are
defined, `setWeights` adds exactly one auxiliary node `X` (the next free id) and exactly
three capacities, in this order: the terminal link of `X` with source capacity `0` and
sink capacity `dist(images[lA]@pA, images[lA]@pB, images[lB]@pA, images[lB]@pB)`; the
edge between the node of `pA` and `X` with capacity
`dist(images[lA]@pA, images[lA]@pB, images[lX]@pA, images[lX]@pB)` in both directions;
the edge between `X` and the node of `pB` with capacity
`dist(images[lX]@pA, images[lX]@pB, images[lB]@pA, images[lB]@pB)` in both directions. -/
theorem setWeights_junction_three_capacities {Tp : Type} (pm : Photomontage Tp) (graph : GCGraph)
    (pA pB : Point) (lA lB lX : Int) (imA imB imX : Mat Tp) (a1 a2 b1 b2 x1 x2 : Tp)
    (hne : lA ≠ lB) (hA : vecAt pm.images lA = some imA) (hB : vecAt pm.images lB = some imB)
    (hX : vecAt pm.images lX = some imX) (ha1 : imA.atPt pA = some a1)
    (ha2 : imA.atPt pB = some a2) (hb1 : imB.atPt pA = some b1) (hb2 : imB.atPt pB = some b2)
    (hx1 : imX.atPt pA = some x1) (hx2 : imX.atPt pB = some x2) :
    pm.setWeights graph pA pB lA lB lX =
      some { vtxCapacity := graph.vtxCapacity
             edgeCapacity := graph.edgeCapacity
             vtxCount := graph.vtxCount + 1
             ops := graph.ops ++
               [GCOp.addVtx,
                GCOp.addTermWeights (graph.vtxCount : Int) 0 (pm.dist a1 a2 b1 b2),
                GCOp.addEdges (pA.y * pm.width + pA.x) (graph.vtxCount : Int)
                  (pm.dist a1 a2 x1 x2) (pm.dist a1 a2 x1 x2),
                GCOp.addEdges (graph.vtxCount : Int) (pB.y * pm.width + pB.x)
                  (pm.dist x1 x2 b1 b2) (pm.dist x1 x2 b1 b2)] } := by
  unfold Photomontage.setWeights
  rw [if_neg hne]
  simp only [hA, hB, hX, ha1, ha2, hb1, hb2, hx1, hx2, Option.bind_eq_bind, Option.some_bind,
    Option.pure_def, GCGraph.addVtx, GCGraph.addTermWeights, GCGraph.addEdges,
    Photomontage.nodeId, List.append_assoc, List.singleton_append, List.cons_append,
    List.nil_append]

/-- C14 at a concrete input: the junction built on the 2 x 2 grid of `pmJunction` for the
positions `(0, 0)`, `(1, 0)` with labels `0 ≠ 1` and trial label `2`. -/
theorem setWeights_junction_three_capacities_witness :
    pmJunction.setWeights (GCGraph.create 8 8) ⟨0, 0⟩ ⟨1, 0⟩ 0 1 2 =
      some { vtxCapacity := 8
             edgeCapacity := 8
             vtxCount := 1
             ops := [GCOp.addVtx, GCOp.addTermWeights 0 0 (pmJunction.dist 0 0 2 2),
               GCOp.addEdges 0 0 (pmJunction.dist 0 0 1 1) (pmJunction.dist 0 0 1 1),
               GCOp.addEdges 0 1 (pmJunction.dist 1 1 2 2) (pmJunction.dist 1 1 2 2)] } :=
  setWeights_junction_three_capacities pmJunction (GCGraph.create 8 8) ⟨0, 0⟩ ⟨1, 0⟩ 0 1 2
    (constMat 2 2 CV_32FC1 0) (constMat 2 2 CV_32FC1 2) (constMat 2 2 CV_32FC1 1) 0 0 2 2 1 1
    (by decide) rfl rfl rfl rfl rfl rfl rfl rfl rfl

/-- C15: for positions `pA`, `pB` that hold the same label `lA = lB` and whose four
image reads are defined, `setWeights` adds no node and exactly one call of `addEdges`,
between the nodes of the two positions, with the capacity
`dist(images[lA]@pA, images[lA]@pB, images[lX]@pA, images[lX]@pB)` in both directions;
with `dist` as defined in the class and a `norm2` that is zero on equal arguments, that
capacity is `0` when the trial label `lX` is the shared label. -/
theorem setWeights_same_label_single_edge {Tp : Type} (pm : Photomontage Tp) (graph : GCGraph)
    (pA pB : Point) (lA lB lX : Int) (imA imX : Mat Tp) (a1 a2 x1 x2 : Tp)
    (heq : lA = lB) (hA : vecAt pm.images lA = some imA) (hX : vecAt pm.images lX = some imX)
    (ha1 : imA.atPt pA = some a1) (ha2 : imA.atPt pB = some a2)
    (hx1 : imX.atPt pA = some x1) (hx2 : imX.atPt pB = some x2) :
    pm.setWeights graph pA pB lA lB lX =
        some { vtxCapacity := graph.vtxCapacity
               edgeCapacity := graph.edgeCapacity
               vtxCount := graph.vtxCount
               ops := graph.ops ++
                 [GCOp.addEdges (pA.y * pm.width + pA.x) (pB.y * pm.width + pB.x)
                   (pm.dist a1 a2 x1 x2) (pm.dist a1 a2 x1 x2)] } ∧
      pm.dist a1 a2 x1 x2 = pm.norm2 a1 x1 + pm.norm2 a2 x2 ∧
      ((∀ a, pm.norm2 a a = 0) → lX = lA → pm.dist a1 a2 x1 x2 = 0) := by
  refine ⟨?_, rfl, ?_⟩
  · unfold Photomontage.setWeights
    rw [if_pos heq]
    simp only [hA, hX, ha1, ha2, hx1, hx2, Option.bind_eq_bind, Option.some_bind,
      Option.pure_def, GCGraph.addEdges, Photomontage.nodeId]
  · intro h0 hXA
    subst hXA
    rw [hA] at hX
    cases hX
    rw [ha1] at hx1
    rw [ha2] at hx2
    cases hx1
    cases hx2
    simp only [Photomontage.dist, h0, add_zero]

/-- C15 at a concrete input: on the 2 x 2 grid of `pmJunction`, positions `(0, 0)`,
`(1, 0)`, shared label `1` and trial label `1`. -/
theorem setWeights_same_label_single_edge_witness :
    pmJunction.setWeights (GCGraph.create 8 8) ⟨0, 0⟩ ⟨1, 0⟩ 1 1 1 =
        some { vtxCapacity := 8
               edgeCapacity := 8
               vtxCount := 0
               ops := [GCOp.addEdges 0 1 (pmJunction.dist 2 2 2 2) (pmJunction.dist 2 2 2 2)] } ∧
      pmJunction.dist 2 2 2 2 = pmJunction.norm2 2 2 + pmJunction.norm2 2 2 ∧
      ((∀ a, pmJunction.norm2 a a = 0) → (1 : Int) = 1 → pmJunction.dist 2 2 2 2 = 0) :=
  setWeights_same_label_single_edge pmJunction (GCGraph.create 8 8) ⟨0, 0⟩ ⟨1, 0⟩ 1 1 1
    (constMat 2 2 CV_32FC1 2) (constMat 2 2 CV_32FC1 2) 2 2 2 2 rfl rfl rfl rfl rfl rfl rfl

/-- C16: for every labeling `x` that covers the grid with labels in `[0, lsize)`, every
`alpha` in `[0, lsize)` and masks of the size of the grid, the terminal pass of
`singleExpansion` returns, having made exactly two calls per pixel in row-major order:
for pixel `(i, j)` an `addVtx` that is preceded by `i*width + j` earlier `addVtx` calls
(so the node gets the id `i*width + j`), and `addTermWeights` for that id with source
weight `0` if `masks[alpha](i, j)` is non-zero and `10^10` otherwise, and sink weight `0`
if `masks[x(i, j)](i, j)` is non-zero and `10^10` otherwise.  The graph handed to the
solver starts with these calls.  `GCInfinity` is `10^10`, and the integer product
`10*1000*1000` that precedes the multiplication by `1000.0` is below `2^31`. -/
theorem terminal_pass_weights {Tp : Type} (pm : Photomontage Tp) (x : Mat Int) (alpha : Int)
    (hms : pm.MasksSized) (hxr : pm.height ≤ x.rows) (hxc : pm.width ≤ x.cols)
    (hv : pm.ValidLabels x) (ha0 : 0 ≤ alpha) (ha : alpha < pm.lsize) :
    GCInfinity = 10 ^ 10 ∧ GCInfinity = ((10 * 1000 * 1000 : Int) : ℚ) * 1000 ∧
      (10 * 1000 * 1000 : Int) < 2 ^ 31 ∧
      ∃ g1, pm.terminalLinks x alpha
          (GCGraph.create (int32 (pm.actualEdges + int32 (pm.height * pm.width)))
            (int32 (2 * pm.actualEdges))) = some g1 ∧
        g1.vtxCount = pm.height * pm.width ∧ g1.ops.length = 2 * (pm.height * pm.width) ∧
        (∀ g, pm.buildGraph x alpha = some g → ∃ links, g.ops = g1.ops ++ links) ∧
        ∀ i j, i < pm.height → j < pm.width →
          ∃ mA l mL, pm.maskAt alpha i j = some mA ∧ x.atRC i j = some l ∧
            pm.maskAt l i j = some mL ∧
            g1.ops.get? (2 * (i * pm.width + j)) = some GCOp.addVtx ∧
            (g1.ops.take (2 * (i * pm.width + j))).count GCOp.addVtx = i * pm.width + j ∧
            g1.ops.get? (2 * (i * pm.width + j) + 1) =
              some (GCOp.addTermWeights ((i * pm.width + j : Nat) : Int)
                (if mA ≠ 0 then 0 else 10 ^ 10) (if mL ≠ 0 then 0 else 10 ^ 10)) := by
  have hinf : GCInfinity = 10 ^ 10 := by unfold GCInfinity; norm_num
  refine ⟨hinf, by unfold GCInfinity; norm_num, by decide, ?_⟩
  obtain ⟨g1, hg1⟩ := terminalLinks_some pm x alpha hms hxr hxc hv ha0 ha
    (GCGraph.create (int32 (pm.actualEdges + int32 (pm.height * pm.width)))
        (int32 (2 * pm.actualEdges)))
  obtain ⟨hshape, hreads⟩ := terminalLinks_spec pm x alpha _ g1 hg1
  have hops : g1.ops = pixelOps
      (fun p => pm.terminalOp x alpha ((p : Nat) : Int) (p / pm.width) (p % pm.width))
      (pm.height * pm.width) := by
    rw [hshape]
    simp only [GCGraph.create, List.nil_append]
    exact terminalOps_eq_pixelOps pm x alpha pm.height
  refine ⟨g1, hg1, ?_, ?_, ?_, ?_⟩
  · rw [hshape]; simp [GCGraph.create]
  · rw [hops, pixelOps_length]
  · intro g hg
    unfold Photomontage.buildGraph at hg
    simp only [hg1, Option.bind_eq_bind, Option.some_bind] at hg
    obtain ⟨extra, he, _⟩ := neighborLinks_spec pm x alpha g1 g hg
    exact ⟨extra, he⟩
  · intro i j hi hj
    obtain ⟨hA, hL⟩ := hreads i j hi hj
    obtain ⟨mA, hmA⟩ := Option.isSome_iff_exists.mp hA
    obtain ⟨mL, hmL⟩ := Option.isSome_iff_exists.mp hL
    have hmL2 := hmL
    unfold Photomontage.labelMask at hmL2
    obtain ⟨l, hl, hml⟩ := Option.bind_eq_some.mp hmL2
    have hp : i * pm.width + j < pm.height * pm.width := by
      calc i * pm.width + j < i * pm.width + pm.width := by omega
        _ = (i + 1) * pm.width := by ring
        _ ≤ pm.height * pm.width := Nat.mul_le_mul_right _ hi
    have hw : 0 < pm.width := by omega
    have h1 : (i * pm.width + j) / pm.width = i := by
      rw [Nat.add_comm, Nat.add_mul_div_right _ _ hw, Nat.div_eq_of_lt hj]; omega
    have h2 : (i * pm.width + j) % pm.width = j := by
      rw [Nat.add_comm, Nat.add_mul_mod_self_right, Nat.mod_eq_of_lt hj]
    obtain ⟨hg0, hg1'⟩ := pixelOps_get
      (fun p => pm.terminalOp x alpha ((p : Nat) : Int) (p / pm.width) (p % pm.width))
      (pm.height * pm.width) (i * pm.width + j) hp
    refine ⟨mA, l, mL, hmA, hl, hml, ?_, ?_, ?_⟩
    · rw [hops]; exact hg0
    · rw [hops, pixelOps_take _ _ _ (le_of_lt hp)]
      exact pixelOps_count _ (fun p => by simp [Photomontage.terminalOp]) _
    · rw [hops, hg1']
      simp only [h1, h2, Photomontage.terminalOp, hmA, hmL, Option.getD_some, termWeight, hinf]

/-- C16 at a concrete input: the grid of one row and two columns of `pmSplitRow`, the
all-zero labeling and `alpha = 1`. -/
theorem terminal_pass_weights_witness :
    GCInfinity = 10 ^ 10 ∧ GCInfinity = ((10 * 1000 * 1000 : Int) : ℚ) * 1000 ∧
      (10 * 1000 * 1000 : Int) < 2 ^ 31 ∧
      ∃ g1, pmSplitRow.terminalLinks (zeroLabeling 1 2) 1
          (GCGraph.create
            (int32 (pmSplitRow.actualEdges + int32 (pmSplitRow.height * pmSplitRow.width)))
            (int32 (2 * pmSplitRow.actualEdges))) = some g1 ∧
        g1.vtxCount = pmSplitRow.height * pmSplitRow.width ∧
        g1.ops.length = 2 * (pmSplitRow.height * pmSplitRow.width) ∧
        (∀ g, pmSplitRow.buildGraph (zeroLabeling 1 2) 1 = some g →
          ∃ links, g.ops = g1.ops ++ links) ∧
        ∀ i j, i < pmSplitRow.height → j < pmSplitRow.width →
          ∃ mA l mL, pmSplitRow.maskAt 1 i j = some mA ∧
            (zeroLabeling 1 2).atRC i j = some l ∧ pmSplitRow.maskAt l i j = some mL ∧
            g1.ops.get? (2 * (i * pmSplitRow.width + j)) = some GCOp.addVtx ∧
            (g1.ops.take (2 * (i * pmSplitRow.width + j))).count GCOp.addVtx =
              i * pmSplitRow.width + j ∧
            g1.ops.get? (2 * (i * pmSplitRow.width + j) + 1) =
              some (GCOp.addTermWeights ((i * pmSplitRow.width + j : Nat) : Int)
                (if mA ≠ 0 then 0 else 10 ^ 10) (if mL ≠ 0 then 0 else 10 ^ 10)) :=
  terminal_pass_weights pmSplitRow (zeroLabeling 1 2) 1
    ⟨rfl, by
      intro m hm
      simp only [pmSplitRow, List.mem_cons, List.mem_singleton, List.not_mem_nil, or_false] at hm
      rcases hm with rfl | rfl <;> exact ⟨rfl, rfl⟩⟩
    (by decide) (by decide) (zeroLabeling_valid pmSplitRow 1 2 (by decide)) (by decide)
    (by decide)

/-- C17, at the failing input: a square grid of 23171 rows and 23171 columns (one
candidate image, the all-zero labeling, `alpha = 0`).  The neighbour pass makes
`actualEdges = 1073744140` invocations of `setWeights`, and `actualEdges + height*width`
is `1610639381`; but `2*actualEdges = 2147488280` exceeds `INT_MAX = 2147483647`, so
the `int` expression `2*actualEdges` passed to the constructor of the graph overflows
(in two's complement it is `-2147479016`).  The graph is not created with the edge
capacity `2*actualEdges`, and the `addEdges` calls made on it, at least one per
invocation of `setWeights`, exceed the edge capacity it was created with. -/
theorem edge_capacity_overflows_on_large_grid :
    pmHuge.height = 23171 ∧ pmHuge.width = 23171 ∧
      (neighborCalls pmHuge.height pmHuge.width).length = 1073744140 ∧
      pmHuge.actualEdges = 1073744140 ∧
      int32 (pmHuge.actualEdges + int32 (pmHuge.height * pmHuge.width)) = 1610639381 ∧
      (2147483647 : Int) < 2 * pmHuge.actualEdges ∧
      int32 (2 * pmHuge.actualEdges) = -2147479016 ∧
      ∃ g, pmHuge.buildGraph (zeroLabeling 23171 23171) 0 = some g ∧
        g.edgeCapacity = -2147479016 ∧ g.edgeCapacity ≠ 2 * pmHuge.actualEdges ∧
        1073744140 ≤ g.edgeCalls ∧ ¬ (g.edgeCalls : Int) ≤ g.edgeCapacity := by
  have hlen : (neighborCalls pmHuge.height pmHuge.width).length = 1073744140 := by
    rw [neighborCalls_length]
    rfl
  have hae : pmHuge.actualEdges = 1073744140 := by
    unfold Photomontage.actualEdges int32
    rfl
  have hv : int32 (pmHuge.actualEdges + int32 (pmHuge.height * pmHuge.width)) = 1610639381 := by
    rw [hae]
    unfold int32
    rfl
  have he : int32 (2 * pmHuge.actualEdges) = -2147479016 := by
    rw [hae]
    unfold int32
    rfl
  have him : pmHuge.ImagesSized := by
    intro im hmem
    simp only [pmHuge, List.mem_singleton] at hmem
    subst hmem
    exact ⟨rfl, rfl⟩
  have hms : pmHuge.MasksSized := by
    refine ⟨rfl, ?_⟩
    intro m hmem
    simp only [pmHuge, List.mem_singleton] at hmem
    subst hmem
    exact ⟨rfl, rfl⟩
  obtain ⟨g, hg⟩ := buildGraph_some_of_square pmHuge (zeroLabeling 23171 23171) 0
    ⟨rfl, rfl, rfl⟩ him hms rfl (le_refl _) (le_refl _)
    (zeroLabeling_valid pmHuge 23171 23171 (by decide)) (le_refl _) (by decide)
  obtain ⟨_, k2, _, _, k5, _⟩ := buildGraph_counts pmHuge _ _ g hg
  rw [hlen] at k5
  rw [he] at k2
  refine ⟨rfl, rfl, hlen, hae, hv, ?_, he, g, hg, k2, ?_, k5, ?_⟩
  · rw [hae]; decide
  · rw [k2, hae]; decide
  · rw [k2]; omega

/-- C18: `gradientDescent` terminates.  Provided `singleExpansion` is defined on every
labeling of the grid with labels in `[0, lsize)` and every `alpha` in `[0, lsize)`, and
its values are non-negative, the run started from any such labeling `x_0` ends within
`lsize^(height*width) * lsize + 1` rounds: for some `fuel` up to that bound the loop
returns, any larger number of rounds gives the same result, the adopted flow values
decrease strictly from round to round (starting below `DBL_MAX`), and there are fewer
of them than rounds.  The solver is a function of the graph, so `singleExpansion` is a
function of the labeling and `alpha`. -/
theorem gradientDescent_terminates {Tp : Type} (pm : Photomontage Tp) (sv : Solver)
    (x_0 : Mat Int) (hsz : pm.WellSized) (hl : 1 ≤ pm.lsize)
    (hr : x_0.rows = pm.height) (hc : x_0.cols = pm.width) (ht : x_0.type = CV_32SC1)
    (hv : pm.ValidLabels x_0)
    (hdef : ∀ (x : Mat Int) (alpha : Nat), x.rows = pm.height → x.cols = pm.width →
      pm.ValidLabels x → alpha < pm.lsize → ∃ g, pm.buildGraph x alpha = some g)
    (hnn : ∀ x alpha g, pm.buildGraph x alpha = some g → 0 ≤ sv.maxFlow g) :
    ∃ fuel out values, fuel ≤ pm.lsize ^ (pm.height * pm.width) * pm.lsize + 1 ∧
      pm.gradientDescent sv fuel x_0 = some out ∧
      pm.adoptedValues sv fuel x_0 = some values ∧
      values.length < fuel ∧ List.Chain (fun a b => b < a) DBL_MAX values ∧
      ∀ fuel1, fuel ≤ fuel1 →
        pm.gradientDescent sv fuel1 x_0 = some out ∧
          pm.adoptedValues sv fuel1 x_0 = some values := by
  obtain ⟨S, hcard, hS⟩ := flowValues_finite pm sv
  have hI : (pm.gdInit x_0).Inv pm :=
    ⟨sameInputs_refl pm, hsz.2.1, hsz.2.2, rfl, rfl, hr, hc, ht, hv⟩
  obtain ⟨r, hloop, hlen, hch⟩ := gdLoop_terminates sv pm S hl hsz hdef hnn hS
    ((S.filter (fun v => v < DBL_MAX)).card + 1) (pm.gdInit x_0) hI dblMax_nonneg
    (Nat.lt_succ_self _)
  have hle : (S.filter (fun v => v < DBL_MAX)).card ≤ S.card := Finset.card_filter_le _ _
  refine ⟨(S.filter (fun v => v < DBL_MAX)).card + 1, (r.1.img, r.1.pm), r.2, by omega,
    ?_, ?_, ?_, hch, ?_⟩
  · unfold Photomontage.gradientDescent
    rw [hloop]; rfl
  · unfold Photomontage.adoptedValues
    rw [hloop]; rfl
  · exact Nat.lt_succ_of_le hlen
  · intro fuel1 hf
    have h1 := gdLoop_mono sv _ _ r hloop fuel1 hf
    unfold Photomontage.gradientDescent Photomontage.adoptedValues
    rw [h1]
    exact ⟨rfl, rfl⟩

/-- C18 at a concrete input: the 2 x 2 instance `pmDiag` with the exhaustive solver,
started from the all-zero labeling. -/
theorem gradientDescent_terminates_witness :
    ∃ fuel out values, fuel ≤ pmDiag.lsize ^ (pmDiag.height * pmDiag.width) * pmDiag.lsize + 1 ∧
      pmDiag.gradientDescent bruteForce fuel (zeroLabeling 2 2) = some out ∧
      pmDiag.adoptedValues bruteForce fuel (zeroLabeling 2 2) = some values ∧
      values.length < fuel ∧ List.Chain (fun a b => b < a) DBL_MAX values ∧
      ∀ fuel1, fuel ≤ fuel1 →
        pmDiag.gradientDescent bruteForce fuel1 (zeroLabeling 2 2) = some out ∧
          pmDiag.adoptedValues bruteForce fuel1 (zeroLabeling 2 2) = some values :=
  gradientDescent_terminates pmDiag bruteForce (zeroLabeling 2 2) pmDiag_wellSized (by decide)
    rfl rfl rfl (zeroLabeling_valid pmDiag 2 2 (by decide))
    (fun x alpha hxr hxc hxv ha =>
      buildGraph_some_of_square pmDiag x alpha pmDiag_wellSized pmDiag_imagesSized
        pmDiag_masksSized rfl (le_of_eq hxr.symm) (le_of_eq hxc.symm) hxv
        (Int.ofNat_nonneg alpha) (by exact_mod_cast ha))
    (fun x alpha g hg =>
      flow_nonneg_of_reportsCut pmDiag bruteForce (fun g1 => (bruteForce_isMinCut g1).1)
        sqDiff_nonneg x alpha g hg)

/-- C19, at the failing input: a grid of 640 rows and 360 columns with multiscale
enabled.  `assignLabeling` takes the multiscale branch (`height >= 600`), and
`l = min(cvRound(640/600.0), cvRound(360/800.0)) = min(1, 0) = 0`, so `width/l` and
`height/l` divide by zero: no reduced grid is created and no labeling is returned. -/
theorem multiscale_factor_zero_on_portrait (sv : Solver) (fuel : Nat) :
    pmTall.multiscale = true ∧ 1 ≤ pmTall.width ∧ 600 ≤ pmTall.height ∧
      pmTall.directBranch = false ∧
      cvRound ((pmTall.height : ℚ) / 600) = 1 ∧ cvRound ((pmTall.width : ℚ) / 800) = 0 ∧
      pmTall.scaleFactor = 0 ∧ pmTall.assignLabeling sv fuel = none := by
  have h1 : cvRound ((pmTall.height : ℚ) / 600) = 1 := by decide!
  have h2 : cvRound ((pmTall.width : ℚ) / 800) = 0 := by decide!
  have h3 : pmTall.scaleFactor = 0 := by
    unfold Photomontage.scaleFactor
    rw [h1, h2]
    decide
  refine ⟨rfl, by decide, by decide, by decide, h1, h2, h3, ?_⟩
  unfold Photomontage.assignLabeling
  rw [if_neg (by decide), if_pos h3]

/-- C20, at the failing input: the grid of one row and two columns of `pmRow`, the
all-zero labeling (entries in `[0, lsize)`) and `alpha = 0`.  The neighbour pass invokes
`setWeights` with `pB = cv::Point(0, 1)`, that is `pB.x = 0`, `pB.y = 1`: the row
`pB.y = 1` read from the images is not below `height = 1`, so the read is outside every
candidate image and `setWeights` has no defined result, and the node id
`pB.y*width + pB.x = 2` is not below `height*width = 2`, so it is the id of no node
created by the terminal pass. -/
theorem neighbor_pass_leaves_row_grid :
    pmRow.ValidLabels (zeroLabeling 1 2) ∧ (0 : Int) < pmRow.lsize ∧
      ∃ c ∈ neighborCalls pmRow.height pmRow.width,
        c.pB = ⟨0, 1⟩ ∧ ¬ c.pB.y < pmRow.height ∧
          ¬ pmRow.nodeId c.pB < pmRow.height * pmRow.width ∧
          (∀ im ∈ pmRow.images, im.atPt c.pB = none) ∧
          (∀ g lA lB lX, pmRow.setWeights g c.pA c.pB lA lB lX = none) ∧
          pmRow.buildGraph (zeroLabeling 1 2) 0 = none := by
  have hB : ∀ im ∈ pmRow.images, im.atPt (⟨0, 1⟩ : Point) = none := by
    intro im him
    simp only [pmRow, List.mem_singleton] at him
    subst him
    decide
  refine ⟨zeroLabeling_valid pmRow 1 2 (by decide), by decide,
    ⟨⟨0, 0⟩, ⟨0, 1⟩, (0, 0), (0, 1)⟩, by decide, rfl, by decide, by decide, hB, ?_, ?_⟩
  · intro g lA lB lX
    exact setWeights_none_of_pB pmRow g _ _ lA lB lX hB
  · exact buildGraph_none_of_nonsquare pmRow (zeroLabeling 1 2) 0
      (imagesSized_of_all pmRow (by decide)) (by decide) (by decide) (by decide)

end XPhoto
